import Mathlib

/-!
# Verification of the cpp-filecoin HAMT store and Branch DAG manager

This development embeds, in Lean, the two data-structural cores of the
repository:

* `storage/hamt/hamt.cpp` — a persistent Hash-Array-Mapped-Trie over a
  content-addressed block store (`Hamt::set/get/remove/contains/flush`,
  `Hamt::keyToIndices`, `Hamt::cleanShard`);
* `sync/branches.cpp` — the in-memory index of chain forks
  (`Branches::storeTipset`, `Branches::splitBranch`, `Branches::init`,
  `Branches::getCommonRoot`, ...).

C++ `std::map` containers are embedded as association lists sorted by key;
`shared_ptr<BranchInfo>` aliasing is embedded by storing each `BranchInfo`
once, in the `all_branches_` map, and referring to it by its integer id
everywhere else.  In-place mutating operations that can fail become
functions returning the updated structure paired with an optional error,
mirroring the exact write-back behaviour of the C++ code.
-/

namespace FcSpec

/-! ## Sorted association lists (embedding of `std::map`) -/

section AssocLib

variable {K : Type} {V : Type} [LinearOrder K]

/-- `std::map::find` on an association list. -/
def alook : List (K × V) → K → Option V
  | [], _ => none
  | (k, v) :: t, q => if q = k then some v else alook t q

/-- `std::map::operator[]=` / insert-or-assign, keeping the list sorted. -/
def ains : List (K × V) → K → V → List (K × V)
  | [], k, v => [(k, v)]
  | (k0, v0) :: t, k, v =>
    if k < k0 then (k, v) :: (k0, v0) :: t
    else if k = k0 then (k, v) :: t
    else (k0, v0) :: ains t k v

/-- `std::map::erase(key)`. -/
def aerase : List (K × V) → K → List (K × V)
  | [], _ => []
  | (k0, v0) :: t, k => if k = k0 then t else (k0, v0) :: aerase t k

/-- `std::map::emplace`: insert only if the key is absent, keeping order. -/
def aemp : List (K × V) → K → V → List (K × V)
  | [], k, v => [(k, v)]
  | (k0, v0) :: t, k, v =>
    if k < k0 then (k, v) :: (k0, v0) :: t
    else if k = k0 then (k0, v0) :: t
    else (k0, v0) :: aemp t k v

/-- The list is strictly sorted by key (the `std::map` invariant). -/
def SortedK (l : List (K × V)) : Prop :=
  l.Pairwise (fun a b => a.1 < b.1)

theorem sortedK_nil : SortedK ([] : List (K × V)) := List.Pairwise.nil

theorem sortedK_cons {p : K × V} {t : List (K × V)}
    (h : SortedK (p :: t)) : SortedK t := (List.pairwise_cons.mp h).2

theorem sortedK_head {p : K × V} {t : List (K × V)}
    (h : SortedK (p :: t)) : ∀ q ∈ t, p.1 < q.1 := (List.pairwise_cons.mp h).1

theorem alook_eq_none_of_lt {l : List (K × V)} {k : K}
    (hk : ∀ q ∈ l, k < q.1) : alook l k = none := by
  induction l with
  | nil => rfl
  | cons p t ih =>
    simp only [alook]
    rw [if_neg (hk p (List.mem_cons_self _ _)).ne]
    exact ih fun q hq => hk q (List.mem_cons_of_mem _ hq)

/-- Membership in the result of `ains`. -/
theorem mem_ains {l : List (K × V)} {k : K} {v : V} {q : K × V}
    (hq : q ∈ ains l k v) : q = (k, v) ∨ q ∈ l := by
  induction l with
  | nil => simpa [ains] using hq
  | cons p t ih =>
    obtain ⟨k0, v0⟩ := p
    by_cases h1 : k < k0
    · simp only [ains, if_pos h1] at hq
      rcases List.mem_cons.mp hq with h | h
      · exact Or.inl h
      · exact Or.inr h
    · by_cases h2 : k = k0
      · simp only [ains, if_neg h1, if_pos h2] at hq
        rcases List.mem_cons.mp hq with h | h
        · exact Or.inl h
        · exact Or.inr (List.mem_cons_of_mem _ h)
      · simp only [ains, if_neg h1, if_neg h2] at hq
        rcases List.mem_cons.mp hq with h | h
        · exact Or.inr (by rw [h]; exact List.mem_cons_self _ _)
        · rcases ih h with h' | h'
          · exact Or.inl h'
          · exact Or.inr (List.mem_cons_of_mem _ h')

theorem alook_ains (l : List (K × V)) (k : K) (v : V) (q : K) :
    alook (ains l k v) q = if q = k then some v else alook l q := by
  induction l with
  | nil => simp [ains, alook]
  | cons p t ih =>
    obtain ⟨k0, v0⟩ := p
    simp only [ains]
    by_cases h1 : k < k0
    · rw [if_pos h1]
      simp only [alook]
    · rw [if_neg h1]
      by_cases h2 : k = k0
      · rw [if_pos h2]
        simp only [alook]
        by_cases hq : q = k
        · rw [if_pos hq, if_pos hq]
        · have hqk0 : ¬q = k0 := fun hh => hq (hh.trans h2.symm)
          rw [if_neg hq, if_neg hq, if_neg hqk0]
      · rw [if_neg h2]
        simp only [alook]
        by_cases hq0 : q = k0
        · have hqk : ¬q = k := fun hh => h2 (hh.symm.trans hq0)
          rw [if_pos hq0, if_neg hqk, if_pos hq0]
        · rw [if_neg hq0, if_neg hq0, ih]

theorem sortedK_ains (l : List (K × V)) (hs : SortedK l) (k : K) (v : V) :
    SortedK (ains l k v) := by
  induction l with
  | nil => simp [ains, SortedK]
  | cons p t ih =>
    obtain ⟨k0, v0⟩ := p
    by_cases h1 : k < k0
    · simp only [ains, if_pos h1]
      refine List.pairwise_cons.mpr ⟨?_, hs⟩
      intro q hq
      rcases List.mem_cons.mp hq with h | h
      · subst h; exact h1
      · exact h1.trans (sortedK_head hs q h)
    · by_cases h2 : k = k0
      · subst h2
        simp only [ains, if_neg h1, if_pos rfl]
        exact List.pairwise_cons.mpr
          ⟨fun q hq => sortedK_head hs q hq, sortedK_cons hs⟩
      · simp only [ains, if_neg h1, if_neg h2]
        have hlt : k0 < k := lt_of_le_of_ne (not_lt.mp h1) (fun h => h2 h.symm)
        refine List.pairwise_cons.mpr ⟨?_, ih (sortedK_cons hs)⟩
        intro q hq
        rcases mem_ains hq with h | h
        · subst h; exact hlt
        · exact sortedK_head hs q h

theorem alook_aerase (l : List (K × V)) (hs : SortedK l) (k : K) (q : K) :
    alook (aerase l k) q = if q = k then none else alook l q := by
  induction l with
  | nil => simp [aerase, alook]
  | cons p t ih =>
    obtain ⟨k0, v0⟩ := p
    simp only [aerase]
    by_cases h1 : k = k0
    · rw [if_pos h1]
      simp only [alook]
      by_cases hq : q = k
      · have hq0 : q = k0 := hq.trans h1
        rw [if_pos hq]
        apply alook_eq_none_of_lt
        intro r hr
        rw [hq0]
        exact sortedK_head hs r hr
      · have hqk0 : ¬q = k0 := fun hh => hq (hh.trans h1.symm)
        rw [if_neg hq, if_neg hqk0]
    · rw [if_neg h1]
      simp only [alook]
      by_cases hq0 : q = k0
      · have hqk : ¬q = k := fun hh => h1 (hh.symm.trans hq0)
        rw [if_pos hq0, if_neg hqk, if_pos hq0]
      · rw [if_neg hq0, if_neg hq0, ih (sortedK_cons hs)]

theorem mem_aerase {l : List (K × V)} {k : K} {q : K × V}
    (hq : q ∈ aerase l k) : q ∈ l := by
  induction l with
  | nil => simp [aerase] at hq
  | cons p t ih =>
    by_cases h1 : k = p.1
    · simp only [aerase, if_pos h1] at hq
      exact List.mem_cons_of_mem _ hq
    · simp only [aerase, if_neg h1] at hq
      rcases List.mem_cons.mp hq with h | h
      · exact (by rw [h]; exact List.mem_cons_self _ _)
      · exact List.mem_cons_of_mem _ (ih h)

theorem sortedK_aerase (l : List (K × V)) (hs : SortedK l) (k : K) :
    SortedK (aerase l k) := by
  induction l with
  | nil => exact sortedK_nil
  | cons p t ih =>
    by_cases h1 : k = p.1
    · simp only [aerase, if_pos h1]; exact sortedK_cons hs
    · simp only [aerase, if_neg h1]
      refine List.pairwise_cons.mpr ⟨?_, ih (sortedK_cons hs)⟩
      intro q hq
      exact sortedK_head hs q (mem_aerase hq)

theorem alook_mem {l : List (K × V)} {k : K} {v : V}
    (h : alook l k = some v) : (k, v) ∈ l := by
  induction l with
  | nil => simp [alook] at h
  | cons p t ih =>
    simp only [alook] at h
    by_cases hq : k = p.1
    · rw [if_pos hq] at h
      have hv : p.2 = v := Option.some.inj h
      rw [show (k, v) = p from Prod.ext hq hv.symm]
      exact List.mem_cons_self _ _
    · rw [if_neg hq] at h
      exact List.mem_cons_of_mem _ (ih h)

/-- Inserting the value already present at a key is a no-op on sorted lists. -/
theorem ains_self (l : List (K × V)) (hs : SortedK l) (k : K) (v : V)
    (h : alook l k = some v) : ains l k v = l := by
  induction l with
  | nil => simp [alook] at h
  | cons p t ih =>
    obtain ⟨k0, v0⟩ := p
    simp only [alook] at h
    by_cases hq : k = k0
    · rw [if_pos hq] at h
      cases h
      simp only [ains]
      rw [if_neg (show ¬k < k0 by rw [hq]; exact lt_irrefl k0), if_pos hq, hq]
    · rw [if_neg hq] at h
      have hmem := alook_mem h
      have hlt : k0 < k := sortedK_head hs (k, v) hmem
      simp only [ains]
      rw [if_neg (not_lt.mpr hlt.le), if_neg hq, ih (sortedK_cons hs) h]

theorem mem_alook {l : List (K × V)} (hs : SortedK l) {k : K} {v : V}
    (h : (k, v) ∈ l) : alook l k = some v := by
  induction l with
  | nil => simp at h
  | cons p t ih =>
    rcases List.mem_cons.mp h with h1 | h1
    · subst h1; simp [alook]
    · simp only [alook]
      have hne : k ≠ p.1 := by
        intro hh
        have := sortedK_head hs (k, v) h1
        rw [hh] at this; exact lt_irrefl _ this
      rw [if_neg hne]
      exact ih (sortedK_cons hs) h1

theorem mem_aemp {l : List (K × V)} {k : K} {v : V} {q : K × V}
    (hq : q ∈ aemp l k v) : q = (k, v) ∨ q ∈ l := by
  induction l with
  | nil => simpa [aemp] using hq
  | cons p t ih =>
    obtain ⟨k0, v0⟩ := p
    by_cases h1 : k < k0
    · simp only [aemp, if_pos h1] at hq
      rcases List.mem_cons.mp hq with h | h
      · exact Or.inl h
      · exact Or.inr h
    · by_cases h2 : k = k0
      · simp only [aemp, if_neg h1, if_pos h2] at hq
        exact Or.inr hq
      · simp only [aemp, if_neg h1, if_neg h2] at hq
        rcases List.mem_cons.mp hq with h | h
        · exact Or.inr (by rw [h]; exact List.mem_cons_self _ _)
        · rcases ih h with h' | h'
          · exact Or.inl h'
          · exact Or.inr (List.mem_cons_of_mem _ h')

theorem alook_aemp (l : List (K × V)) (hs : SortedK l) (k : K) (v : V) (q : K) :
    alook (aemp l k v) q =
      if q = k then some ((alook l k).getD v) else alook l q := by
  induction l with
  | nil => simp [aemp, alook]
  | cons p t ih =>
    obtain ⟨k0, v0⟩ := p
    simp only [aemp]
    by_cases h1 : k < k0
    · have hknone : alook ((k0, v0) :: t) k = none := by
        apply alook_eq_none_of_lt
        intro r hr
        rcases List.mem_cons.mp hr with h | h
        · subst h; exact h1
        · exact h1.trans (sortedK_head hs r h)
      rw [if_pos h1, hknone]
      simp only [alook]
      by_cases hq : q = k
      · rw [if_pos hq, if_pos hq]; rfl
      · rw [if_neg hq, if_neg hq]
    · rw [if_neg h1]
      by_cases h2 : k = k0
      · rw [if_pos h2]
        simp only [alook]
        by_cases hq : q = k
        · have hq0 : q = k0 := hq.trans h2
          rw [if_pos hq0, if_pos hq, if_pos h2]
          rfl
        · have hq0 : ¬q = k0 := fun hh => hq (hh.trans h2.symm)
          rw [if_neg hq0, if_neg hq]
      · rw [if_neg h2]
        simp only [alook]
        by_cases hq0 : q = k0
        · have hqk : ¬q = k := fun hh => h2 (hh.symm.trans hq0)
          rw [if_pos hq0, if_neg hqk, if_pos hq0]
        · rw [if_neg hq0, if_neg hq0, ih (sortedK_cons hs)]
          by_cases hqk : q = k
          · rw [if_pos hqk, if_pos hqk, if_neg h2]
          · rw [if_neg hqk, if_neg hqk]

theorem sortedK_aemp (l : List (K × V)) (hs : SortedK l) (k : K) (v : V) :
    SortedK (aemp l k v) := by
  induction l with
  | nil => simp [aemp, SortedK]
  | cons p t ih =>
    obtain ⟨k0, v0⟩ := p
    by_cases h1 : k < k0
    · simp only [aemp, if_pos h1]
      refine List.pairwise_cons.mpr ⟨?_, hs⟩
      intro q hq
      rcases List.mem_cons.mp hq with h | h
      · subst h; exact h1
      · exact h1.trans (sortedK_head hs q h)
    · by_cases h2 : k = k0
      · simpa only [aemp, if_neg h1, if_pos h2] using hs
      · simp only [aemp, if_neg h1, if_neg h2]
        have hlt : k0 < k := lt_of_le_of_ne (not_lt.mp h1) (fun h => h2 h.symm)
        refine List.pairwise_cons.mpr ⟨?_, ih (sortedK_cons hs)⟩
        intro q hq
        rcases mem_aemp hq with h | h
        · subst h; exact hlt
        · exact sortedK_head hs q h

/-- Two sorted association lists with the same lookups are equal. -/
theorem sorted_ext (l l' : List (K × V)) (hs : SortedK l) (hs' : SortedK l')
    (h : ∀ k, alook l k = alook l' k) : l = l' := by
  induction l generalizing l' with
  | nil =>
    cases l' with
    | nil => rfl
    | cons p t => have := h p.1; simp [alook] at this
  | cons p t ih =>
    obtain ⟨k0, v0⟩ := p
    cases l' with
    | nil => have := h k0; simp [alook] at this
    | cons p' t' =>
      obtain ⟨k1, v1⟩ := p'
      have hk : k0 = k1 := by
        by_contra hne
        rcases lt_or_gt_of_ne hne with hlt | hgt
        · have := h k0
          simp only [alook, if_pos rfl] at this
          rw [if_neg hne] at this
          have hnone : alook t' k0 = none := by
            apply alook_eq_none_of_lt
            intro q hq; exact hlt.trans (sortedK_head hs' q hq)
          rw [hnone] at this; exact Option.noConfusion this
        · have := h k1
          simp only [alook, if_pos rfl] at this
          rw [if_neg (fun hh => hne hh.symm)] at this
          have hnone : alook t k1 = none := by
            apply alook_eq_none_of_lt
            intro q hq; exact hgt.trans_le (sortedK_head hs q hq).le
          rw [hnone] at this; exact Option.noConfusion this
      subst hk
      have hv : v0 = v1 := by
        have := h k0; simp only [alook, if_pos rfl] at this
        cases this; rfl
      subst hv
      have ht : t = t' := by
        apply ih t' (sortedK_cons hs) (sortedK_cons hs')
        intro k
        by_cases hq : k = k0
        · subst hq
          rw [alook_eq_none_of_lt (sortedK_head hs),
            alook_eq_none_of_lt (sortedK_head hs')]
        · have := h k
          simpa only [alook, if_neg hq] using this
      rw [ht]

theorem ains_length (l : List (K × V)) (hs : SortedK l) (k : K) (v : V) :
    (ains l k v).length = if (alook l k).isSome then l.length else l.length + 1 := by
  induction l with
  | nil => simp [ains, alook]
  | cons p t ih =>
    obtain ⟨k0, v0⟩ := p
    by_cases h1 : k < k0
    · have hnone : alook ((k0, v0) :: t) k = none := by
        apply alook_eq_none_of_lt
        intro q hq
        rcases List.mem_cons.mp hq with h | h
        · subst h; exact h1
        · exact h1.trans (sortedK_head hs q h)
      simp [ains, if_pos h1, hnone]
    · by_cases h2 : k = k0
      · simp [ains, alook, if_neg h1, if_pos h2, h2]
      · simp only [ains, if_neg h1, if_neg h2, alook, List.length_cons]
        rw [ih (sortedK_cons hs)]
        by_cases h3 : (alook t k).isSome <;> simp [h3]

theorem aerase_length (l : List (K × V)) (hs : SortedK l) (k : K) :
    (aerase l k).length =
      if (alook l k).isSome then l.length - 1 else l.length := by
  induction l with
  | nil => simp [aerase, alook]
  | cons p t ih =>
    obtain ⟨k0, v0⟩ := p
    by_cases h1 : k = k0
    · simp [aerase, alook, if_pos h1, h1]
    · simp only [aerase, if_neg h1, alook, List.length_cons]
      rw [ih (sortedK_cons hs)]
      by_cases h3 : (alook t k).isSome
      · rw [if_pos h3, if_pos h3]
        have hlen : 1 ≤ t.length := by
          rcases Option.isSome_iff_exists.mp h3 with ⟨v, hv⟩
          have hmem := alook_mem hv
          cases t with
          | nil => simp at hmem
          | cons _ _ => simp
        omega
      · rw [if_neg h3, if_neg h3]

end AssocLib

/-! ## HAMT (storage/hamt/hamt.cpp) -/

namespace Hamt

/-- `HamtError` from hamt.hpp.  `kStoreError` additionally stands for any
error propagated unchanged from the underlying block store
(`ipld->getCbor` / `ipld->setCbor` failures), which belong to a different
error category in the C++ code. -/
inductive HamtError where
  | kExpectedCID
  | kNotFound
  | kMaxDepth
  | kStoreError
deriving DecidableEq, Repr

/-- Modelled from the spec: `kLeafMax` is declared in `hamt.hpp` (which is
not part of the provided sources); the spec fixes its default to 3. -/
def kLeafMax : Nat := 3

/-- `Node::Item` from hamt.hpp: a slot holds an unloaded subtree (`CID`),
a loaded child node (`Node::Ptr`), or a leaf (`std::map<std::string, Value>`).
A node itself is its sorted slot map `items : std::map<size_t, Item>`. -/
inductive Item where
  | cid (c : Nat)
  | node (items : List (Nat × Item))
  | leaf (entries : List (String × List Nat))

/-- Bit number `off` (MSB-first) of the digest, as in
`1 & (hash[offset / byte_bits] >> (byte_bits - 1 - offset % byte_bits))`. -/
def bitAt (bytes : List Nat) (off : Nat) : Nat :=
  bytes.getD (off / 8) 0 / 2 ^ (7 - off % 8) % 2

/-- One `bit_width`-bit index extracted starting at bit `off`:
the inner loop `index <<= 1; index |= bit`. -/
def groupAt (bytes : List Nat) (w off : Nat) : Nat :=
  (List.range w).foldl (fun acc j => 2 * acc + bitAt bytes (off + j)) 0

/-- `max_bits` after discarding trailing bits that do not fill a group. -/
def maxBits (bytes : List Nat) (w : Nat) : Nat :=
  8 * bytes.length - (8 * bytes.length) % w

/-- `Hamt::keyToIndices(key)` (default `n = -1`): all indices of the digest,
starting at offset 0. -/
def keyToIndicesAll (bytes : List Nat) (w : Nat) : List Nat :=
  (List.range (maxBits bytes w / w)).map fun g => groupAt bytes w (g * w)

/-- `Hamt::keyToIndices(key, n)` for `n != -1`: indices starting at offset
`max_bits - (n - 1) * bit_width`. -/
def keyToIndicesFrom (bytes : List Nat) (w n : Nat) : List Nat :=
  (List.range ((maxBits bytes w - (maxBits bytes w - (n - 1) * w)) / w)).map
    fun g => groupAt bytes w (maxBits bytes w - (n - 1) * w + g * w)

/-- The index path of a key: `keyToIndices(key)` applied to `sha256(key)`. -/
def paOf (sha : String → List Nat) (w : Nat) (key : String) : List Nat :=
  keyToIndicesAll (sha key) w

/-- `Hamt::get` main loop: descend one index per level; a `CID` item is
lazily loaded from the store; a missing slot or a leaf without the key is
`kNotFound`; running out of indices is `kMaxDepth`. -/
def getGo (store : Nat → Option (List (Nat × Item))) :
    List (Nat × Item) → List Nat → String → Except HamtError (List Nat)
  | _, [], _ => .error .kMaxDepth
  | items, i :: rest, key =>
    match alook items i with
    | none => .error .kNotFound
    | some (.cid c) =>
      match store c with
      | none => .error .kStoreError
      | some its => getGo store its rest key
    | some (.node its) => getGo store its rest key
    | some (.leaf l) =>
      match alook l key with
      | none => .error .kNotFound
      | some v => .ok v

/-- Helper of `cleanShard`: the inner `leaf.emplace(pair)` loop with the
early `leaf.size() > kLeafMax` bail-out. -/
def empBound : List (String × List Nat) → List (String × List Nat) →
    Option (List (String × List Nat))
  | acc, [] => some acc
  | acc, (k, v) :: t =>
    let acc2 := aemp acc k v
    if acc2.length > kLeafMax then none else empBound acc2 t

/-- Helper of `cleanShard`: fold all items, bailing out on the first
non-leaf item or when the union grows beyond `kLeafMax`. -/
def collectLeaves : List (Nat × Item) → List (String × List Nat) →
    Option (List (String × List Nat))
  | [], acc => some acc
  | (_, Item.leaf l) :: t, acc =>
    match empBound acc l with
    | none => none
    | some acc2 => collectLeaves t acc2
  | _ :: _, _ => none

/-- `Hamt::cleanShard` on the item: a single-item node whose item is a leaf
is replaced by that leaf; a node of at most `kLeafMax` items all of which
are leaves with at most `kLeafMax` entries in total collapses into one
leaf; anything else is unchanged. -/
def cleanShard : Item → Item
  | .node [(_, .leaf l)] => .leaf l
  | .node [(i, it0)] => .node [(i, it0)]
  | .node its =>
    if its.length ≤ kLeafMax then
      match collectLeaves its [] with
      | some l => .leaf l
      | none => .node its
    else .node its
  | it => it

mutual

/-- `Hamt::set` recursion.  The pair result reflects the in-place C++
mutation: the first component is the node's item map after the call, the
second the error, mirroring which writes are committed before an error
propagates.  The `fuel` argument is the recursion budget; the top-level
call supplies `indices.length`, so `fuel` always matches the length of
`indices` and the `fuel = 0` equation is never hit with nonempty indices. -/
def setGo (store : Nat → Option (List (Nat × Item)))
    (sha : String → List Nat) (w : Nat) :
    Nat → List (Nat × Item) → List Nat → String → List Nat →
    List (Nat × Item) × Option HamtError
  | _, items, [], _, _ => (items, some .kMaxDepth)
  | 0, items, _ :: _, _, _ => (items, some .kMaxDepth)
  | fuel + 1, items, i :: rest, key, value =>
    match alook items i with
    | none => (ains items i (.leaf [(key, value)]), none)
    | some (.cid c) =>
      match store c with
      | none => (items, some .kStoreError)
      | some its0 =>
        let r := setGo store sha w fuel its0 rest key value
        (ains items i (.node r.1), r.2)
    | some (.node its0) =>
      let r := setGo store sha w fuel its0 rest key value
      (ains items i (.node r.1), r.2)
    | some (.leaf l) =>
      if (alook l key).isSome ∨ l.length < kLeafMax then
        (ains items i (.leaf (ains l key value)), none)
      else
        let r0 := setGo store sha w fuel [] rest key value
        match r0.2 with
        | some e => (items, some e)
        | none =>
          let r1 := setList store sha w fuel (rest.length + 1) r0.1 l
          match r1.2 with
          | some e => (items, some e)
          | none => (ains items i (.node r1.1), none)

/-- The re-insertion loop of `Hamt::set` after a leaf split: every existing
leaf entry is set into the fresh child using
`keyToIndices(pair.first, indices.size())`. -/
def setList (store : Nat → Option (List (Nat × Item)))
    (sha : String → List Nat) (w : Nat) :
    Nat → Nat → List (Nat × Item) → List (String × List Nat) →
    List (Nat × Item) × Option HamtError
  | _, _, its, [] => (its, none)
  | fuel, n, its, (k2, v2) :: t =>
    let r := setGo store sha w fuel its (keyToIndicesFrom (sha k2) w n) k2 v2
    match r.2 with
    | some e => (r.1, some e)
    | none => setList store sha w fuel n r.1 t

end

/-- `Hamt::remove` recursion, with the same pair convention as `setGo`.
After a successful recursive remove through a node item, `cleanShard` runs
on that item; on error the (possibly partially loaded) child is written
back without `cleanShard`, exactly as `OUTCOME_TRY` does. -/
def removeGo (store : Nat → Option (List (Nat × Item))) :
    List (Nat × Item) → List Nat → String →
    List (Nat × Item) × Option HamtError
  | items, [], _ => (items, some .kMaxDepth)
  | items, i :: rest, key =>
    match alook items i with
    | none => (items, some .kNotFound)
    | some (.cid c) =>
      match store c with
      | none => (items, some .kStoreError)
      | some its0 =>
        let r := removeGo store its0 rest key
        match r.2 with
        | some e => (ains items i (.node r.1), some e)
        | none => (ains items i (cleanShard (.node r.1)), none)
    | some (.node its0) =>
      let r := removeGo store its0 rest key
      match r.2 with
      | some e => (ains items i (.node r.1), some e)
      | none => (ains items i (cleanShard (.node r.1)), none)
    | some (.leaf l) =>
      match alook l key with
      | none => (items, some .kNotFound)
      | some _ =>
        if l.length = 1 then (aerase items i, none)
        else (ains items i (.leaf (aerase l key)), none)

mutual

/-- `Hamt::flush` on an item: post-order; every loaded node is serialized
(`ipld->setCbor`, modelled by the deterministic function `mkCid`) and the
item is replaced by the resulting CID. -/
def flushItem (mkCid : List (Nat × Item) → Nat) : Item → Item
  | .cid c => .cid c
  | .leaf l => .leaf l
  | .node its => .cid (mkCid (flushItems mkCid its))

def flushItems (mkCid : List (Nat × Item) → Nat) :
    List (Nat × Item) → List (Nat × Item)
  | [] => []
  | (i, it) :: t => (i, flushItem mkCid it) :: flushItems mkCid t

end

mutual

/-- Number of key-value entries stored in the subtree of an item
(CID items count as 0; they do not occur in fully loaded tries). -/
def countItem : Item → Nat
  | .cid _ => 0
  | .leaf l => l.length
  | .node its => countItems its

def countItems : List (Nat × Item) → Nat
  | [] => 0
  | (_, it) :: t => countItem it + countItems t

end

mutual

/-- The item holds no unloaded `CID` slot anywhere. -/
def noCidItem : Item → Bool
  | .cid _ => false
  | .leaf _ => true
  | .node its => noCidItems its

def noCidItems : List (Nat × Item) → Bool
  | [] => true
  | (_, it) :: t => noCidItem it && noCidItems t

end

/-- Does the node's item list consist of exactly one leaf? (the shape
`cleanShard` hoists). -/
def isSingleLeaf : List (Nat × Item) → Bool
  | [(_, .leaf _)] => true
  | _ => false

mutual

/-- Canonical shape of one (non-root) item, as stated by the spec: an
internal node never consists of a single hoistable leaf, and an internal
subtree always stores more than `kLeafMax` entries. -/
def goodItem : Item → Bool
  | .cid _ => true
  | .leaf _ => true
  | .node its =>
    decide (kLeafMax < countItems its) && !isSingleLeaf its && goodItems its

def goodItems : List (Nat × Item) → Bool
  | [] => true
  | (_, it) :: t => goodItem it && goodItems t

end

/-- `Hamt::set` (public): computes the full index path and descends. -/
def hamtSet (store : Nat → Option (List (Nat × Item)))
    (sha : String → List Nat) (w : Nat)
    (root : List (Nat × Item)) (key : String) (value : List Nat) :
    List (Nat × Item) × Option HamtError :=
  setGo store sha w (paOf sha w key).length root (paOf sha w key) key value

/-- `Hamt::get` (public). -/
def hamtGet (store : Nat → Option (List (Nat × Item)))
    (sha : String → List Nat) (w : Nat)
    (root : List (Nat × Item)) (key : String) :
    Except HamtError (List Nat) :=
  getGo store root (paOf sha w key) key

/-- `Hamt::remove` (public). -/
def hamtRemove (store : Nat → Option (List (Nat × Item)))
    (sha : String → List Nat) (w : Nat)
    (root : List (Nat × Item)) (key : String) :
    List (Nat × Item) × Option HamtError :=
  removeGo store root (paOf sha w key) key

/-- `Hamt::contains`: `get` with `kNotFound` mapped to `false`, success to
`true`, and every other error propagated unchanged. -/
def hamtContains (store : Nat → Option (List (Nat × Item)))
    (sha : String → List Nat) (w : Nat)
    (root : List (Nat × Item)) (key : String) : Except HamtError Bool :=
  match hamtGet store sha w root key with
  | .ok _ => .ok true
  | .error .kNotFound => .ok false
  | .error e => .error e

/-- `Hamt::flush` (public): flush the root item and return its CID. -/
def hamtFlush (mkCid : List (Nat × Item) → Nat)
    (root : List (Nat × Item)) : Nat :=
  mkCid (flushItems mkCid root)

end Hamt

namespace Hamt

/-! ### keyToIndices: bit-level characterisation (claim C8) -/

/-- The digest read as one big-endian natural number (independent,
spec-side view of the 32-byte sha256 output). -/
def beVal (bytes : List Nat) : Nat :=
  bytes.foldl (fun acc b => 256 * acc + b) 0

/-- Spec-side definition of the `g`-th `bit_width`-bit group of the digest,
read MSB-first: the bits of the big-endian value from position
`8·len - g·w - 1` down to `8·len - (g+1)·w`. -/
def specIndex (bytes : List Nat) (w g : Nat) : Nat :=
  beVal bytes / 2 ^ (8 * bytes.length - (g + 1) * w) % 2 ^ w

theorem beVal_foldl (bytes : List Nat) (acc : Nat) :
    bytes.foldl (fun a b => 256 * a + b) acc =
      acc * 256 ^ bytes.length + beVal bytes := by
  induction bytes generalizing acc with
  | nil => simp [beVal]
  | cons b t ih =>
    simp only [List.foldl_cons, beVal, List.length_cons]
    rw [ih (256 * acc + b), ih (256 * 0 + b)]
    ring

theorem beVal_cons (b : Nat) (t : List Nat) :
    beVal (b :: t) = b * 256 ^ t.length + beVal t := by
  have h0 : beVal (b :: t)
      = List.foldl (fun a x => 256 * a + x) (256 * 0 + b) t := rfl
  rw [h0, beVal_foldl]
  ring

theorem beVal_lt (bytes : List Nat) (hb : ∀ b ∈ bytes, b < 256) :
    beVal bytes < 256 ^ bytes.length := by
  induction bytes with
  | nil => simp [beVal]
  | cons b t ih =>
    have hbt : ∀ x ∈ t, x < 256 := fun x hx => hb x (List.mem_cons_of_mem _ hx)
    have hhd : b < 256 := hb b (List.mem_cons_self _ _)
    rw [beVal_cons]
    have h2 := ih hbt
    have h3 : b * 256 ^ t.length + beVal t < (b + 1) * 256 ^ t.length := by
      have := Nat.add_lt_add_left h2 (b * 256 ^ t.length)
      calc b * 256 ^ t.length + beVal t
          < b * 256 ^ t.length + 256 ^ t.length := this
        _ = (b + 1) * 256 ^ t.length := by ring
    calc b * 256 ^ t.length + beVal t < (b + 1) * 256 ^ t.length := h3
      _ ≤ 256 * 256 ^ t.length := by
          exact Nat.mul_le_mul_right _ hhd
      _ = 256 ^ (t.length + 1) := by ring
      _ = 256 ^ (b :: t).length := by simp

theorem mod_pow_div_eq (x a b : Nat) (h : b ≤ a) :
    x % 2 ^ a / 2 ^ b = x / 2 ^ b % 2 ^ (a - b) := by
  have hx : x = 2 ^ a * (x / 2 ^ a) + x % 2 ^ a := (Nat.div_add_mod x (2 ^ a)).symm
  set q := x / 2 ^ a with hq
  set s := x % 2 ^ a with hsdef
  have hsplit : 2 ^ a * q = 2 ^ b * (2 ^ (a - b) * q) := by
    rw [← mul_assoc, ← pow_add]
    congr 2
    omega
  have hslt : s < 2 ^ a := Nat.mod_lt _ (Nat.pos_pow_of_pos _ (by norm_num))
  have hdivlt : s / 2 ^ b < 2 ^ (a - b) := by
    apply Nat.div_lt_of_lt_mul
    calc s < 2 ^ a := hslt
      _ = 2 ^ b * 2 ^ (a - b) := by rw [← pow_add]; congr 1; omega
  conv_rhs => rw [hx]
  rw [hsplit, Nat.add_comm, Nat.add_mul_div_left _ _ (Nat.pos_pow_of_pos b (by norm_num))]
  rw [Nat.add_mul_mod_self_left]
  exact (Nat.mod_eq_of_lt hdivlt).symm

theorem getD_eq_beVal (bytes : List Nat) (hb : ∀ b ∈ bytes, b < 256)
    (j : Nat) (hj : j < bytes.length) :
    bytes.getD j 0 =
      beVal bytes / 2 ^ (8 * (bytes.length - 1 - j)) % 2 ^ 8 := by
  induction bytes generalizing j with
  | nil => simp at hj
  | cons b t ih =>
    have hbt : ∀ x ∈ t, x < 256 := fun x hx => hb x (List.mem_cons_of_mem _ hx)
    have hhd : b < 256 := hb b (List.mem_cons_self _ _)
    have hpow : (256 : Nat) ^ t.length = 2 ^ (8 * t.length) := by
      rw [show (256 : Nat) = 2 ^ 8 by norm_num, ← pow_mul]
    cases j with
    | zero =>
      have hgd : (b :: t).getD 0 0 = b := rfl
      rw [hgd, beVal_cons, show (b :: t).length = t.length + 1 from rfl]
      have hexp : t.length + 1 - 1 - 0 = t.length := by omega
      rw [hexp]
      have hbt2 : beVal t < 2 ^ (8 * t.length) := by
        rw [← hpow]; exact beVal_lt t hbt
      rw [show b * 256 ^ t.length + beVal t
            = beVal t + 2 ^ (8 * t.length) * b by rw [hpow]; ring]
      rw [Nat.add_mul_div_left _ _ (Nat.pos_pow_of_pos _ (by norm_num)),
        Nat.div_eq_of_lt hbt2, Nat.zero_add]
      exact (Nat.mod_eq_of_lt (lt_of_lt_of_le hhd (by norm_num))).symm
    | succ j2 =>
      have hj2 : j2 < t.length := by simpa using hj
      have hgd : (b :: t).getD (j2 + 1) 0 = t.getD j2 0 := rfl
      rw [hgd, ih hbt j2 hj2, beVal_cons,
        show (b :: t).length = t.length + 1 from rfl]
      have hexp : t.length + 1 - 1 - (j2 + 1) = t.length - 1 - j2 := by omega
      rw [hexp]
      have hsplit : b * 256 ^ t.length + beVal t
          = beVal t + 2 ^ (8 * (t.length - 1 - j2)) * (b * 2 ^ (8 * j2 + 8)) := by
        rw [hpow, ← mul_assoc,
          show (2 : Nat) ^ (8 * (t.length - 1 - j2)) * b
            = b * 2 ^ (8 * (t.length - 1 - j2)) by ring,
          mul_assoc, ← pow_add]
        have harith : 8 * (t.length - 1 - j2) + (8 * j2 + 8) = 8 * t.length := by
          omega
        rw [harith]
        ring
      rw [hsplit, Nat.add_mul_div_left _ _ (Nat.pos_pow_of_pos _ (by norm_num))]
      have hfac : b * 2 ^ (8 * j2 + 8) = 2 ^ 8 * (b * 2 ^ (8 * j2)) := by
        rw [pow_add]; ring
      rw [hfac, Nat.add_mul_mod_self_left]

theorem bitAt_eq_beVal (bytes : List Nat) (hb : ∀ b ∈ bytes, b < 256)
    (t : Nat) (ht : t < 8 * bytes.length) :
    bitAt bytes t = beVal bytes / 2 ^ (8 * bytes.length - 1 - t) % 2 := by
  have hj : t / 8 < bytes.length := by omega
  have hr : t % 8 < 8 := Nat.mod_lt _ (by norm_num)
  unfold bitAt
  rw [getD_eq_beVal bytes hb (t / 8) hj]
  rw [mod_pow_div_eq _ 8 (7 - t % 8) (by omega)]
  rw [Nat.div_div_eq_div_mul, ← pow_add]
  have hmod : beVal bytes / 2 ^ (8 * (bytes.length - 1 - t / 8) + (7 - t % 8))
      % 2 ^ (8 - (7 - t % 8)) % 2
      = beVal bytes / 2 ^ (8 * (bytes.length - 1 - t / 8) + (7 - t % 8)) % 2 := by
    apply Nat.mod_mod_of_dvd
    exact Dvd.intro_left (2 ^ (8 - (7 - t % 8) - 1))
      (by rw [← pow_succ]; congr 1; omega)
  rw [hmod]
  have hexp : 8 * (bytes.length - 1 - t / 8) + (7 - t % 8)
      = 8 * bytes.length - 1 - t := by omega
  rw [hexp]

theorem groupAt_eq_beVal (bytes : List Nat) (hb : ∀ b ∈ bytes, b < 256)
    (w off : Nat) (hoff : off + w ≤ 8 * bytes.length) :
    groupAt bytes w off
      = beVal bytes / 2 ^ (8 * bytes.length - off - w) % 2 ^ w := by
  set N := beVal bytes with hN
  set L8 := 8 * bytes.length with hL8
  suffices h : ∀ j ≤ w,
      (List.range j).foldl (fun acc i => 2 * acc + bitAt bytes (off + i)) 0
        = N / 2 ^ (L8 - off - j) % 2 ^ j by
    have := h w le_rfl
    unfold groupAt
    rw [this]
  intro j hj
  induction j with
  | zero => simp [Nat.mod_one]
  | succ j2 ih =>
    have hj2w : j2 ≤ w := by omega
    rw [List.range_succ, List.foldl_append, ih hj2w]
    simp only [List.foldl_cons, List.foldl_nil]
    have hbit : bitAt bytes (off + j2) = N / 2 ^ (L8 - 1 - (off + j2)) % 2 :=
      bitAt_eq_beVal bytes hb (off + j2) (by omega)
    rw [hbit]
    set y := N / 2 ^ (L8 - off - (j2 + 1)) with hy
    have hy2 : N / 2 ^ (L8 - off - j2) = y / 2 := by
      rw [hy, Nat.div_div_eq_div_mul, ← pow_succ]
      congr 2
      omega
    have hy3 : N / 2 ^ (L8 - 1 - (off + j2)) = y := by
      rw [hy]
      congr 2
      omega
    rw [hy2, hy3]
    have hsplit : y = 2 * (y / 2) + y % 2 := (Nat.div_add_mod y 2).symm
    have h1 : y % 2 ^ (j2 + 1) = 2 * (y / 2 % 2 ^ j2) + y % 2 := by
      conv_lhs => rw [hsplit]
      rw [Nat.add_mod, pow_succ]
      rw [show (2 : Nat) ^ j2 * 2 = 2 * 2 ^ j2 by ring]
      rw [Nat.mul_mod_mul_left]
      have hlt1 : 2 * (y / 2 % 2 ^ j2) ≤ 2 * (2 ^ j2 - 1) := by
        have := Nat.mod_lt (y / 2) (Nat.two_pow_pos j2)
        omega
      have hlt2 : y % 2 < 2 := Nat.mod_lt y (by norm_num)
      have hlt3 : y % 2 % (2 * 2 ^ j2) = y % 2 := by
        apply Nat.mod_eq_of_lt
        have hone : (1 : Nat) ≤ 2 ^ j2 := Nat.one_le_two_pow
        omega
      rw [hlt3]
      apply Nat.mod_eq_of_lt
      have hone : (1 : Nat) ≤ 2 ^ j2 := Nat.one_le_two_pow
      omega
    rw [h1]
end Hamt

namespace Hamt

theorem maxBits_eq (bytes : List Nat) (w : Nat) :
    maxBits bytes w = w * (8 * bytes.length / w) := by
  unfold maxBits
  have := Nat.div_add_mod (8 * bytes.length) w
  omega

theorem maxBits_div (bytes : List Nat) (w : Nat) (hw : 0 < w) :
    maxBits bytes w / w = 8 * bytes.length / w := by
  rw [maxBits_eq]
  exact Nat.mul_div_cancel_left _ hw

theorem keyToIndicesAll_length (bytes : List Nat) (w : Nat) :
    (keyToIndicesAll bytes w).length = maxBits bytes w / w := by
  simp [keyToIndicesAll]

/--
C8: `keyToIndices(key)` yields exactly `⌊256 / bit_width⌋` indices, namely
the successive `bit_width`-bit groups of the 32-byte digest read MSB-first
(`specIndex`, defined independently from the big-endian value of the
digest); `keyToIndices(key, n)` equals the suffix of that full sequence
starting at position `L - n + 1`; and for a leaf split at depth `k`
(`n = L - k`), it is the tail of the suffix at depth `k`, aligning with the
child's depth.
-/
theorem keyToIndices_spec (bytes : List Nat) (w : Nat)
    (hlen : bytes.length = 32) (hb : ∀ b ∈ bytes, b < 256) (hw : 0 < w) :
    (keyToIndicesAll bytes w).length = 256 / w
    ∧ (∀ g, g < 256 / w →
        (keyToIndicesAll bytes w)[g]? = some (specIndex bytes w g))
    ∧ (∀ n, 1 ≤ n → n ≤ 256 / w →
        keyToIndicesFrom bytes w n
          = (keyToIndicesAll bytes w).drop (256 / w - n + 1))
    ∧ (∀ k, k < 256 / w →
        keyToIndicesFrom bytes w (256 / w - k)
          = ((keyToIndicesAll bytes w).drop k).tail) := by
  have h256 : 8 * bytes.length = 256 := by rw [hlen]
  have hL : maxBits bytes w / w = 256 / w := by
    rw [maxBits_div bytes w hw, h256]
  have hMB : maxBits bytes w = 256 / w * w := by
    rw [maxBits_eq, h256, Nat.mul_comm]
  have hMBle : maxBits bytes w ≤ 256 := by
    rw [hMB]
    exact Nat.div_mul_le_self 256 w
  have hlength : (keyToIndicesAll bytes w).length = 256 / w := by
    rw [keyToIndicesAll_length, hL]
  have hget : ∀ g, g < 256 / w →
      (keyToIndicesAll bytes w)[g]? = some (specIndex bytes w g) := by
    intro g hg
    unfold keyToIndicesAll
    rw [List.getElem?_map, List.getElem?_range (by rw [hL]; exact hg)]
    simp only [Option.map_some']
    congr 1
    have hoff : g * w + w ≤ 8 * bytes.length := by
      rw [h256]
      calc g * w + w = (g + 1) * w := by ring
        _ ≤ 256 / w * w := Nat.mul_le_mul_right w hg
        _ ≤ 256 := Nat.div_mul_le_self 256 w
    rw [groupAt_eq_beVal bytes hb w (g * w) hoff]
    unfold specIndex
    have hexp : 8 * bytes.length - g * w - w
        = 8 * bytes.length - (g + 1) * w := by
      have hgw : (g + 1) * w = g * w + w := by ring
      omega
    rw [hexp]
  have hdrop : ∀ n, 1 ≤ n → n ≤ 256 / w →
      keyToIndicesFrom bytes w n
        = (keyToIndicesAll bytes w).drop (256 / w - n + 1) := by
    intro n hn1 hnL
    set L := 256 / w with hLdef
    set d := L - n + 1 with hd
    have hn1w : (n - 1) * w ≤ maxBits bytes w := by
      rw [hMB]
      exact Nat.mul_le_mul_right w (by omega)
    have hoff0 : maxBits bytes w - (n - 1) * w = d * w := by
      rw [hMB, ← Nat.sub_mul]
      congr 1
      omega
    have hcount : (maxBits bytes w - (maxBits bytes w - (n - 1) * w)) / w
        = n - 1 := by
      rw [Nat.sub_sub_self hn1w]
      exact Nat.mul_div_cancel _ hw
    unfold keyToIndicesFrom
    rw [hcount, hoff0]
    unfold keyToIndicesAll
    rw [← List.map_drop]
    have hsplit : maxBits bytes w / w = d + (n - 1) := by
      rw [hL]
      omega
    rw [hsplit, List.range_add]
    rw [List.drop_left' (by simp : (List.range d).length = d), List.map_map]
    apply List.map_congr_left
    intro g _
    simp only [Function.comp_apply]
    congr 1
    ring
  refine ⟨hlength, hget, hdrop, ?_⟩
  intro k hk
  have h1 : 1 ≤ 256 / w - k := by omega
  have h2 : 256 / w - k ≤ 256 / w := by omega
  rw [hdrop (256 / w - k) h1 h2, List.tail_drop]
  congr 1
  omega

/-- Witness: `keyToIndices` on the zero digest with `bit_width = 5`. -/
theorem keyToIndices_spec_witness :
    (keyToIndicesAll (List.replicate 32 0) 5).length = 256 / 5
    ∧ keyToIndicesFrom (List.replicate 32 0) 5 3
      = (keyToIndicesAll (List.replicate 32 0) 5).drop (256 / 5 - 3 + 1) := by
  have h := keyToIndices_spec (List.replicate 32 0) 5 (by decide)
    (by decide) (by decide)
  exact ⟨h.1, h.2.2.1 3 (by decide) (by decide)⟩

end Hamt

namespace Hamt

/-! ### Claim C10: `contains` versus `get` -/

/--
C10: `Hamt::contains(key)` returns `true` exactly when `get(key)` succeeds,
`false` exactly when `get(key)` fails with `kNotFound`, and propagates every
other error of `get` unchanged; in particular it never reports `false` for
a key whose lookup failed for a reason other than absence.
-/
theorem contains_spec (store : Nat → Option (List (Nat × Item)))
    (sha : String → List Nat) (w : Nat)
    (root : List (Nat × Item)) (key : String) :
    (∀ v, hamtGet store sha w root key = .ok v →
        hamtContains store sha w root key = .ok true)
    ∧ (hamtGet store sha w root key = .error .kNotFound →
        hamtContains store sha w root key = .ok false)
    ∧ (∀ e, e ≠ HamtError.kNotFound →
        hamtGet store sha w root key = .error e →
        hamtContains store sha w root key = .error e)
    ∧ (hamtContains store sha w root key = .ok false →
        hamtGet store sha w root key = .error .kNotFound) := by
  unfold hamtContains
  cases hg : hamtGet store sha w root key with
  | ok v =>
    exact ⟨fun v2 _ => rfl, fun h => by simp at h,
      fun e2 he2 h => by simp at h, fun h => by simp at h⟩
  | error e =>
    cases e with
    | kNotFound =>
      refine ⟨fun v2 h => by simp at h, fun _ => rfl, fun e2 he2 h => ?_,
        fun _ => rfl⟩
      cases h
      exact absurd rfl he2
    | kExpectedCID =>
      exact ⟨fun v2 h => by simp at h, fun h => by simp at h,
        fun e2 he2 h => by cases h; rfl, fun h => by simp at h⟩
    | kMaxDepth =>
      exact ⟨fun v2 h => by simp at h, fun h => by simp at h,
        fun e2 he2 h => by cases h; rfl, fun h => by simp at h⟩
    | kStoreError =>
      exact ⟨fun v2 h => by simp at h, fun h => by simp at h,
        fun e2 he2 h => by cases h; rfl, fun h => by simp at h⟩

/-- Witness for C10: on a trie whose only slot is an unloaded CID missing
from the store, `contains` propagates the store error instead of answering
`false`. -/
theorem contains_spec_witness :
    hamtContains (fun _ => none) (fun _ => List.replicate 32 0) 8
      [(0, Item.cid 7)] "k" = .error .kStoreError :=
  (contains_spec (fun _ => none) (fun _ => List.replicate 32 0) 8
      [(0, Item.cid 7)] "k").2.2.1 .kStoreError (by decide) rfl

/-! ### Well-formedness: every `std::map` in the trie is sorted -/

/-- Bool check that a key list is strictly increasing. -/
def chainLtB {K : Type} [LinearOrder K] : List K → Bool
  | [] => true
  | [_] => true
  | a :: b :: t => decide (a < b) && chainLtB (b :: t)

theorem chainLtB_pairwise {K : Type} [LinearOrder K] (l : List K)
    (h : chainLtB l = true) : l.Pairwise (· < ·) := by
  induction l with
  | nil => simp
  | cons a t ih =>
    cases t with
    | nil => simp
    | cons b u =>
      simp only [chainLtB, Bool.and_eq_true, decide_eq_true_eq] at h
      have hp := ih h.2
      refine List.pairwise_cons.mpr ⟨?_, hp⟩
      intro q hq
      rcases List.mem_cons.mp hq with h1 | h1
      · subst h1; exact h.1
      · exact h.1.trans ((List.pairwise_cons.mp hp).1 q h1)

mutual

/-- All `std::map`s in the item are sorted (the representation invariant
every real `Hamt` state satisfies). -/
def wfItem : Item → Bool
  | .cid _ => true
  | .leaf l => chainLtB (l.map Prod.fst)
  | .node its => chainLtB (its.map Prod.fst) && wfItems its

def wfItems : List (Nat × Item) → Bool
  | [] => true
  | (_, it) :: t => wfItem it && wfItems t

end

theorem wfItems_mem {its : List (Nat × Item)} {p : Nat × Item}
    (h : wfItems its = true) (hp : p ∈ its) : wfItem p.2 = true := by
  induction its with
  | nil => simp at hp
  | cons q t ih =>
    obtain ⟨i0, it0⟩ := q
    simp only [wfItems, Bool.and_eq_true] at h
    rcases List.mem_cons.mp hp with h1 | h1
    · rw [h1]; exact h.1
    · exact ih h.2 h1

theorem wfItem_node_sorted {its : List (Nat × Item)}
    (h : wfItem (.node its) = true) : SortedK its := by
  simp only [wfItem, Bool.and_eq_true] at h
  exact List.pairwise_map.mp (chainLtB_pairwise _ h.1)

theorem wfItem_node_items {its : List (Nat × Item)}
    (h : wfItem (.node its) = true) : wfItems its = true := by
  simp only [wfItem, Bool.and_eq_true] at h
  exact h.2

theorem noCidItems_mem {its : List (Nat × Item)} {p : Nat × Item}
    (h : noCidItems its = true) (hp : p ∈ its) : noCidItem p.2 = true := by
  induction its with
  | nil => simp at hp
  | cons q t ih =>
    obtain ⟨i0, it0⟩ := q
    simp only [noCidItems, Bool.and_eq_true] at h
    rcases List.mem_cons.mp hp with h1 | h1
    · rw [h1]; exact h.1
    · exact ih h.2 h1

/-! ### Claim C7: a `MaxDepth` failure of `set` leaves the trie unchanged -/

/--
C7: on a fully loaded, well-formed trie, whenever `Hamt::set` fails with
`kMaxDepth` (the index path was consumed without a placement site), the
node is left exactly as it was: no slot is created and no leaf split is
committed.
-/
theorem set_maxDepth_unchanged (store : Nat → Option (List (Nat × Item)))
    (sha : String → List Nat) (w : Nat) :
    ∀ (idx : List Nat) (fuel : Nat) (items : List (Nat × Item))
      (key : String) (value : List Nat),
      wfItem (.node items) = true →
      noCidItems items = true →
      (setGo store sha w fuel items idx key value).2 = some .kMaxDepth →
      (setGo store sha w fuel items idx key value).1 = items := by
  intro idx
  induction idx with
  | nil =>
    intro fuel items key value _ _ _
    cases fuel <;> simp [setGo]
  | cons i rest ih =>
    intro fuel items key value hwf hnc hmax
    cases fuel with
    | zero => simp [setGo]
    | succ f =>
      cases halook : alook items i with
      | none =>
        simp only [setGo, halook] at hmax
        exact Option.noConfusion hmax
      | some it =>
        cases it with
        | cid c =>
          have := noCidItems_mem hnc (alook_mem halook)
          simp [noCidItem] at this
        | node its0 =>
          simp only [setGo, halook] at hmax ⊢
          have hwf0 : wfItem (.node its0) = true :=
            wfItems_mem (wfItem_node_items hwf) (alook_mem halook)
          have hnc0 : noCidItems its0 = true := by
            have := noCidItems_mem hnc (alook_mem halook)
            simpa [noCidItem] using this
          have hr := ih f its0 key value hwf0 hnc0 hmax
          rw [hr]
          exact ains_self items (wfItem_node_sorted hwf) i (.node its0) halook
        | leaf l =>
          simp only [setGo, halook] at hmax ⊢
          by_cases hins : (alook l key).isSome = true ∨ l.length < kLeafMax
          · rw [if_pos hins] at hmax
            simp at hmax
          · rw [if_neg hins] at hmax ⊢
            cases h0 : (setGo store sha w f [] rest key value).2 with
            | some e => rfl
            | none =>
              rw [h0] at hmax
              cases h1 : (setList store sha w f (rest.length + 1)
                  (setGo store sha w f [] rest key value).1 l).2 with
              | some e => rfl
              | none =>
                rw [h1] at hmax
                simp at hmax

/-- Witness for C7: a one-level trie with an (ill-placed) empty child node;
setting a key with a one-index path runs out of indices inside the child
and returns `kMaxDepth`, leaving the trie unchanged. -/
theorem set_maxDepth_unchanged_witness :
    (setGo (fun _ => none) (fun _ => List.replicate 32 0) 8 1
        [(0, Item.node [])] [0] "k" []).1 = [(0, Item.node [])] := by
  apply set_maxDepth_unchanged (fun _ => none) (fun _ => List.replicate 32 0) 8
    [0] 1 [(0, Item.node [])] "k" []
  · simp [wfItem, wfItems, chainLtB]
  · simp [noCidItems, noCidItem]
  · simp [setGo, alook]

end Hamt

/-! ## Branch DAG (sync/branches.cpp) -/

namespace Sync

/-- Unordered-map embedding of `std::map` keyed by tipset hashes (the key
order of these maps is never observed by the modelled operations). -/
def hlook {K V : Type} [DecidableEq K] : List (K × V) → K → Option V
  | [], _ => none
  | (k, v) :: t, q => if q = k then some v else hlook t q

/-- Insert-or-assign for hash-keyed maps. -/
def hset {K V : Type} [DecidableEq K] : List (K × V) → K → V → List (K × V)
  | [], k, v => [(k, v)]
  | (k0, v0) :: t, k, v =>
    if k = k0 then (k, v) :: t else (k0, v0) :: hset t k v

/-- Erase for hash-keyed maps. -/
def herase {K V : Type} [DecidableEq K] : List (K × V) → K → List (K × V)
  | [], _ => []
  | (k0, v0) :: t, k => if k = k0 then t else (k0, v0) :: herase t k

/-- Sorted insert into a `std::set<BranchId>`. -/
def sinsert : Nat → List Nat → List Nat
  | i, [] => [i]
  | i, j :: t =>
    if i < j then i :: j :: t else if i = j then j :: t else j :: sinsert i t

/-- Modelled from the spec: `kNoBranch` and `kGenesisBranch` are declared
in `fwd.hpp`, which is not among the provided sources.  Only
`kNoBranch ≠ kGenesisBranch` and the numeric ordering of branch ids matter
(`newBranchId` is `max + 1`); we use 0 and 1. -/
def kNoBranch : Nat := 0

/-- See `kNoBranch`. -/
def kGenesisBranch : Nat := 1

/-- `BranchInfo` from branches.hpp. -/
structure BranchInfo where
  id : Nat := kNoBranch
  top : List Nat := []
  top_height : Nat := 0
  bottom : List Nat := []
  bottom_height : Nat := 0
  parent : Nat := kNoBranch
  parent_hash : List Nat := []
  synced_to_genesis : Bool := false
  forks : List Nat := []
deriving DecidableEq, Repr

/-- `Branches::Error` from branches.hpp. -/
inductive BErr where
  | BRANCHES_LOAD_ERROR
  | BRANCHES_NO_GENESIS_BRANCH
  | BRANCHES_PARENT_EXPECTED
  | BRANCHES_NO_CURRENT_CHAIN
  | BRANCHES_BRANCH_NOT_FOUND
  | BRANCHES_HEAD_NOT_FOUND
  | BRANCHES_HEAD_NOT_SYNCED
  | BRANCHES_CYCLE_DETECTED
  | BRANCHES_STORE_ERROR
  | BRANCHES_HEIGHT_MISMATCH
  | BRANCHES_NO_COMMON_ROOT
  | BRANCHES_NO_ROUTE
deriving DecidableEq, Repr

/-- `RenameBranch` from branches.hpp. -/
structure RenameBranch where
  old_id : Nat := kNoBranch
  new_id : Nat := kNoBranch
  above_height : Nat := 0
  split : Bool := false
deriving DecidableEq, Repr

/-- `Branches::StorePosition` from branches.hpp. -/
structure StorePosition where
  assigned_branch : Nat := kNoBranch
  at_bottom_of_branch : Nat := kNoBranch
  on_top_of_branch : Nat := kNoBranch
  rename : Option RenameBranch := none
deriving DecidableEq, Repr

/-- `Branches::HeadChanges`. -/
structure HeadChanges where
  removed : List (List Nat) := []
  added : List (List Nat) := []
deriving DecidableEq, Repr

/-- The private state of a `Branches` object.  `shared_ptr<BranchInfo>`
aliasing between the maps is embedded by keeping every `BranchInfo` only in
`all_branches` (sorted by id) and storing branch ids in `heads`,
`unloaded_roots`, `current_chain` and `genesis_branch`. -/
structure BranchesSt where
  all_branches : List (Nat × BranchInfo) := []
  heads : List (List Nat × Nat) := []
  unloaded_roots : List (List Nat × Nat) := []
  genesis_branch : Option Nat := none
  current_chain : List (Nat × Nat) := []
  current_top_branch : Nat := kNoBranch
  current_height : Nat := 0
deriving DecidableEq, Repr

/-- `Branches::clear()`. -/
def clearSt : BranchesSt :=
  { all_branches := [], heads := [], unloaded_roots := [],
    genesis_branch := none, current_chain := [],
    current_top_branch := kNoBranch, current_height := 0 }

/-- `Branches::newBranchId()`: greatest key of `all_branches_` plus one. -/
def newBranchId (st : BranchesSt) : Nat :=
  if st.all_branches.isEmpty then kGenesisBranch + 1
  else (st.all_branches.map Prod.fst).foldl max 0 + 1

mutual

/-- `Branches::updateHeads` (recursive walk over `forks`).  The C++
recursion has no explicit bound; `fuel` only guards against the cycles the
code itself would not survive, and `none` marks a run that would fault
(missing branch pointer / unbounded recursion). -/
def updateHeads (st : BranchesSt) :
    Nat → Nat → Bool → HeadChanges → Option (BranchesSt × HeadChanges)
  | 0, _, _, _ => none
  | fuel + 1, id, synced, changes =>
    match alook st.all_branches id with
    | none => none
    | some b =>
      let b2 := { b with synced_to_genesis := synced }
      let st2 := { st with all_branches := ains st.all_branches id b2 }
      if b2.forks.isEmpty then
        some ({ st2 with heads := hset st2.heads b2.top id },
          if synced then { changes with added := changes.added ++ [b2.top] }
          else changes)
      else updateHeadsList st2 fuel b2.forks synced changes

/-- The `for (auto id : branch->forks)` loop of `updateHeads`. -/
def updateHeadsList (st : BranchesSt) :
    Nat → List Nat → Bool → HeadChanges → Option (BranchesSt × HeadChanges)
  | _, [], _, changes => some (st, changes)
  | fuel, id :: t, synced, changes =>
    match updateHeads st fuel id synced changes with
    | none => none
    | some (st2, ch2) => updateHeadsList st2 fuel t synced ch2

end

/-- `Branches::mergeBranches`: the parent branch absorbs the subgraph's
top, height and forks; the subgraph's id is erased; `updateHeads`
propagates the parent's sync state. -/
def mergeBranches (st : BranchesSt) (fuel : Nat) (branchId parentId : Nat)
    (changes : HeadChanges) : Option (BranchesSt × HeadChanges) :=
  match alook st.all_branches branchId, alook st.all_branches parentId with
  | some b, some parent =>
    let parent2 := { parent with
      top_height := b.top_height, top := b.top, forks := b.forks }
    let st2 := { st with
      all_branches :=
        aerase (ains st.all_branches parentId parent2) branchId }
    updateHeads st2 fuel parentId parent2.synced_to_genesis changes
  | _, _ => none

/-- `Branches::newBranch`. -/
def newBranch (st : BranchesSt) (hash : List Nat) (height : Nat)
    (parent_hash : List Nat) (pos : StorePosition) : BranchesSt :=
  let ptr : BranchInfo :=
    { id := pos.assigned_branch, top := hash, top_height := height,
      bottom := hash, bottom_height := height, parent := kNoBranch,
      parent_hash := parent_hash,
      synced_to_genesis := parent_hash.isEmpty, forks := [] }
  let st2 := { st with
    all_branches := ains st.all_branches pos.assigned_branch ptr,
    heads := hset st.heads hash pos.assigned_branch }
  if parent_hash.isEmpty then
    { st2 with genesis_branch := some pos.assigned_branch }
  else
    { st2 with unloaded_roots :=
        (hset st2.unloaded_roots parent_hash pos.assigned_branch) }

/-- `Branches::storeTipset(tipset, parent_hash, pos)`.  `hash` and `height`
stand for `tipset->key.hash()` and `tipset->height()`.  A `none` result
marks a run on which the C++ code would fault on a violated `assert` that
guards a dereference (pure value asserts compile to no-ops in release
builds and are not modelled). -/
def storeTipset (st : BranchesSt) (fuel : Nat) (hash : List Nat)
    (height : Nat) (parent_hash : List Nat) (pos : StorePosition) :
    Option (BranchesSt × HeadChanges) :=
  let changes : HeadChanges := {}
  if pos.at_bottom_of_branch = kNoBranch ∧ pos.on_top_of_branch = kNoBranch
  then
    some (newBranch st hash height parent_hash pos, {})
  else
    let step1 : Option (BranchesSt × Option Nat) :=
      if pos.at_bottom_of_branch ≠ kNoBranch then
        match hlook st.unloaded_roots hash with
        | none => none
        | some bid =>
          match alook st.all_branches bid with
          | none => none
          | some b =>
            let b2 := { b with
              bottom_height := height, bottom := hash,
              parent_hash := parent_hash }
            some ({ st with
              all_branches := ains st.all_branches bid b2,
              unloaded_roots := herase st.unloaded_roots hash }, some bid)
      else some (st, none)
    match step1 with
    | none => none
    | some (st1, linked_to_bottom) =>
      if pos.at_bottom_of_branch ≠ kNoBranch
          ∧ pos.on_top_of_branch = kNoBranch then
        match linked_to_bottom with
        | none => none
        | some bid =>
          some ({ st1 with
            unloaded_roots := (hset st1.unloaded_roots parent_hash bid) },
            changes)
      else if pos.assigned_branch = pos.on_top_of_branch then
        match hlook st1.heads parent_hash with
        | none => none
        | some pbid =>
          let st2 := { st1 with heads := herase st1.heads parent_hash }
          match alook st2.all_branches pbid with
          | none => none
          | some pb =>
            match linked_to_bottom with
            | none =>
              let pb2 := { pb with top_height := height, top := parent_hash }
              let notify := pb2.synced_to_genesis
              some ({ st2 with
                all_branches := ains st2.all_branches pbid pb2,
                heads := hset st2.heads hash pbid },
                if notify then
                  { removed := [parent_hash], added := [hash] }
                else changes)
            | some bid => mergeBranches st2 fuel bid pbid changes
      else
        match alook st1.all_branches pos.on_top_of_branch with
        | none => none
        | some branch =>
          let step2 : BranchesSt × Nat :=
            match linked_to_bottom with
            | none =>
              (newBranch st1 hash height parent_hash pos,
                pos.assigned_branch)
            | some bid => (st1, bid)
          let st2 := step2.1
          match alook st2.all_branches pos.on_top_of_branch with
          | none => none
          | some branch2 =>
            let st3 := { st2 with
              all_branches := ains st2.all_branches pos.on_top_of_branch
                { branch2 with
                  forks := sinsert pos.assigned_branch branch2.forks } }
            match alook st3.all_branches step2.2 with
            | none => none
            | some linked =>
              let st4 := { st3 with
                all_branches := ains st3.all_branches step2.2
                  { linked with parent := branch.id } }
              updateHeads st4 fuel step2.2 branch.synced_to_genesis changes

/-- The `for (auto id : fork->forks)` loop of `splitBranch`, repointing the
transferred child forks to the new branch. -/
def repointForks (st : BranchesSt) (newParent : Nat) :
    List Nat → Option BranchesSt
  | [] => some st
  | id :: t =>
    match alook st.all_branches id with
    | none => none
    | some b =>
      repointForks
        { st with all_branches :=
            (ains st.all_branches id { b with parent := newParent }) }
        newParent t

/-- `Branches::splitBranch(new_top, new_bottom, new_bottom_height, pos)`.
Mirrors the source exactly; note that the source never assigns
`fork->bottom_height` (the `new_bottom_height` argument is used only in
asserts), so the copied old `bottom_height` survives in the fork. -/
def splitBranch (st : BranchesSt) (new_top new_bottom : List Nat)
    (new_bottom_height : Nat) (pos : RenameBranch) : Option BranchesSt :=
  match alook st.all_branches pos.old_id with
  | none => none
  | some parent =>
    let is_head := (hlook st.heads parent.top).isSome
    let st1 :=
      if is_head then { st with heads := herase st.heads parent.top } else st
    let chainStep : BranchesSt × Bool :=
      if ¬st1.current_chain.isEmpty ∧ parent.synced_to_genesis then
        match alook st1.current_chain parent.top_height with
        | some bid =>
          if bid = parent.id then
            ({ st1 with current_chain :=
                (aerase st1.current_chain parent.top_height) }, true)
          else (st1, false)
        | none => (st1, false)
      else (st1, false)
    let st2 := chainStep.1
    let in_current_chain := chainStep.2
    let fork := { parent with
      id := pos.new_id, bottom := new_bottom, parent := parent.id }
    match repointForks st2 fork.id fork.forks with
    | none => none
    | some st3 =>
      let st4 := { st3 with
        all_branches := ains st3.all_branches fork.id fork }
      let parent2 := { parent with
        top := new_top, top_height := pos.above_height,
        forks := [fork.id] }
      let st5 := { st4 with
        all_branches := ains st4.all_branches parent.id parent2 }
      let st6 :=
        if is_head then
          { st5 with heads := hset st5.heads fork.top fork.id }
        else st5
      if in_current_chain then
        some { st6 with current_chain :=
          (ains (ains st6.current_chain parent2.top_height parent.id)
            fork.top_height fork.id) }
      else some st6

/-- The validation loop of `Branches::init`: every record is checked for
self-consistency, `forks` sets are rebuilt from parent edges, the genesis
branch and the unloaded roots are installed.  The C++ `loadFailed` helper
clears the object before returning `BRANCHES_LOAD_ERROR`; the
`BRANCHES_PARENT_EXPECTED` path returns directly. -/
def initLoop : BranchesSt → List (Nat × BranchInfo) →
    BranchesSt × Option BErr
  | st, [] => (st, none)
  | st, (id, b) :: t =>
    if id ≠ b.id ∨ id = kNoBranch then (clearSt, some .BRANCHES_LOAD_ERROR)
    else if b.top_height < b.bottom_height then
      (clearSt, some .BRANCHES_LOAD_ERROR)
    else if b.parent ≠ kNoBranch then
      if b.parent = b.id then (clearSt, some .BRANCHES_LOAD_ERROR)
      else
        match alook st.all_branches b.parent with
        | none => (clearSt, some .BRANCHES_LOAD_ERROR)
        | some p =>
          if b.bottom_height ≤ p.top_height then
            (clearSt, some .BRANCHES_LOAD_ERROR)
          else
            initLoop
              { st with all_branches :=
                  (ains st.all_branches b.parent
                    { p with forks := sinsert b.id p.forks }) } t
    else if b.id = kGenesisBranch then
      initLoop { st with genesis_branch := some id } t
    else if b.parent_hash.isEmpty then
      (st, some .BRANCHES_PARENT_EXPECTED)
    else
      initLoop
        { st with unloaded_roots := hset st.unloaded_roots b.parent_hash id }
        t

/-- The final loop of `Branches::init`: register dangling unsynced heads. -/
def addDangling : BranchesSt → List (Nat × BranchInfo) → BranchesSt
  | st, [] => st
  | st, (id, b) :: t =>
    if b.forks.isEmpty ∧ ¬b.synced_to_genesis then
      addDangling { st with heads := hset st.heads b.top id } t
    else addDangling st t

/-- `Branches::init(all_branches)`: `clear()` first, validate every record,
require a genesis branch, recompute heads from genesis via `updateHeads`,
then register dangling unsynced heads. -/
def initB (fuel : Nat) (input : List (Nat × BranchInfo)) :
    Option (BranchesSt × Except BErr HeadChanges) :=
  if input.isEmpty then some (clearSt, .ok {}) else
  let st0 := { clearSt with all_branches := input }
  match initLoop st0 input with
  | (st1, some e) => some (st1, .error e)
  | (st1, none) =>
    match st1.genesis_branch with
    | none => some (clearSt, .error .BRANCHES_NO_GENESIS_BRANCH)
    | some gid =>
      match updateHeads st1 fuel gid true {} with
      | none => none
      | some (st2, heads) =>
        some (addDangling st2 st2.all_branches, .ok heads)

/-- The while loop of `Branches::getCommonRoot`: at each step the branch
with the greater bottom height moves to its parent (ties advance `b`).
`fuel` stands in for the unbounded C++ loop; under the documented parent
invariants the supplied fuel is never exhausted. -/
def gcrGo (st : BranchesSt) :
    Nat → Nat → BranchInfo → Nat → BranchInfo →
    Option (Except BErr BranchInfo)
  | 0, _, _, _, _ => none
  | fuel + 1, a, A, b, B =>
    if a = b then some (.ok A)
    else if A.bottom_height ≤ B.bottom_height then
      if B.parent = kNoBranch then some (.error .BRANCHES_NO_COMMON_ROOT)
      else
        match alook st.all_branches B.parent with
        | none => some (.error .BRANCHES_BRANCH_NOT_FOUND)
        | some B2 => gcrGo st fuel a A B.parent B2
    else
      if A.parent = kNoBranch then some (.error .BRANCHES_NO_COMMON_ROOT)
      else
        match alook st.all_branches A.parent with
        | none => some (.error .BRANCHES_BRANCH_NOT_FOUND)
        | some A2 => gcrGo st fuel A.parent A2 b B

/-- `Branches::getCommonRoot(a, b)`. -/
def getCommonRoot (st : BranchesSt) (a b : Nat) :
    Option (Except BErr BranchInfo) :=
  if a = kNoBranch ∨ b = kNoBranch then
    some (.error .BRANCHES_NO_COMMON_ROOT)
  else
    match alook st.all_branches a with
    | none => some (.error .BRANCHES_BRANCH_NOT_FOUND)
    | some A =>
      match alook st.all_branches b with
      | none => some (.error .BRANCHES_BRANCH_NOT_FOUND)
      | some B =>
        gcrGo st (A.bottom_height + B.bottom_height + 1) a A b B

end Sync

namespace Sync

/-! ### Claim C1: head extension in `storeTipset` (code evaluation) -/

/-- Failing input for C1: a synced head branch (id 2) with top `[0]` at
height 1, no forks; a new tipset with hash `[1]` at height 2 arrives on
top of it (`assigned_branch = on_top_of_branch = 2`, no bottom link). -/
def c1State : BranchesSt :=
  { all_branches := [(2,
      { id := 2, top := [0], top_height := 1, bottom := [0],
        bottom_height := 1, parent := kNoBranch, parent_hash := [9],
        synced_to_genesis := true, forks := [] })],
    heads := [([0], 2)], unloaded_roots := [], genesis_branch := none,
    current_chain := [], current_top_branch := kNoBranch,
    current_height := 0 }

/-- The store position of the C1 head-extension case. -/
def c1Pos : StorePosition :=
  { assigned_branch := 2, at_bottom_of_branch := kNoBranch,
    on_top_of_branch := 2, rename := none }

/--
C1 (evaluation of the code at the failing input): in the head-extension
case the code executes `parent_branch->top = parent_hash`, so the branch's
`top` stays `[0]` (the old top) instead of becoming the new tipset's hash
`[1]`; `top_height` does advance to 2, the branch is re-keyed in `heads_`
under the new hash, and the head change is
`removed = [[0]], added = [[1]]`.
-/
theorem storeTipset_extend_eval :
    (storeTipset c1State 5 [1] 2 [0] c1Pos).map
        (fun r => ((alook r.1.all_branches 2).map
          (fun b => (b.top, b.top_height)), r.1.heads, r.2))
      = some (some ([0], 2), [([1], 2)],
          { removed := [[0]], added := [[1]] })
    ∧ ([0] : List Nat) ≠ [1] := by
  refine ⟨rfl, ?_⟩
  decide

/-! ### Claim C2: `splitBranch` (code evaluation) -/

/-- Failing input for C2: branch 2 covers heights `[1, 5]` with one child
fork (branch 5 above it); it is split at `above_height = 3` into a new
fork branch 3 whose bottom should start at height 4. -/
def c2State : BranchesSt :=
  { all_branches := [
      (2,
        { id := 2, top := [9], top_height := 5, bottom := [1],
          bottom_height := 1, parent := kNoBranch, parent_hash := [],
          synced_to_genesis := false, forks := [5] }),
      (5,
        { id := 5, top := [7], top_height := 8, bottom := [6],
          bottom_height := 6, parent := 2, parent_hash := [9],
          synced_to_genesis := false, forks := [] })],
    heads := [([7], 5)], unloaded_roots := [], genesis_branch := none,
    current_chain := [], current_top_branch := kNoBranch,
    current_height := 0 }

/-- The rename executed by the C2 split. -/
def c2Rename : RenameBranch :=
  { old_id := 2, new_id := 3, above_height := 3, split := true }

/--
C2 (evaluation of the code at the failing input): after
`splitBranch([3], [4], 4, {old 2, new 3, above 3})` the new fork branch 3
keeps the *old* branch's `bottom_height` 1 — the source never assigns
`fork->bottom_height = new_bottom_height` — instead of covering heights
`[4, 5]` as the claim states.  Everything else matches the claim: the fork
gets `bottom = [4]`, `top = [9]` (the old top), `top_height = 5`,
`parent = 2`, and the transferred child fork 5 now names 3 as parent; the
old branch keeps `[1, 3]` with `top = [3]` and `forks = {3}`.
-/
theorem splitBranch_eval :
    (splitBranch c2State [3] [4] 4 c2Rename).map (fun st =>
      ((alook st.all_branches 3).map (fun f =>
        (f.bottom_height, f.bottom, f.top, f.top_height, f.parent,
          f.forks)),
       (alook st.all_branches 2).map (fun p =>
        (p.bottom_height, p.top, p.top_height, p.forks)),
       (alook st.all_branches 5).map (fun c => c.parent)))
      = some (some (1, [4], [9], 5, 2, [5]), some (1, [3], 3, [3]), some 3)
    ∧ (1 : Nat) ≠ 4 := by
  refine ⟨rfl, ?_⟩
  decide

/-! ### Claim C4: error paths of `init` (code evaluation) -/

/-- Failing input for C4: a single well-formed record whose id is not the
genesis branch, with no parent id and an empty parent hash. -/
def c4Branch : BranchInfo :=
  { id := 2, top := [5], top_height := 3, bottom := [4],
    bottom_height := 2, parent := kNoBranch, parent_hash := [],
    synced_to_genesis := false, forks := [] }

/--
C4 (evaluation of the code at the failing input): `init` returns
`BRANCHES_PARENT_EXPECTED` without calling `clear()` — unlike the
`loadFailed` paths — so `all_branches_` still holds the partially
installed input and the object is not in the cleared state.
-/
theorem init_parentExpected_eval :
    initB 5 [(2, c4Branch)]
      = some ({ clearSt with all_branches := [(2, c4Branch)] },
          .error .BRANCHES_PARENT_EXPECTED)
    ∧ ({ clearSt with all_branches := [(2, c4Branch)] } : BranchesSt)
        ≠ clearSt := by
  refine ⟨rfl, ?_⟩
  decide

end Sync

namespace Sync

/-! ### Claim C9: symmetry of `getCommonRoot` -/

/-- The bottom height of a branch id (0 if absent). -/
def bh (st : BranchesSt) (x : Nat) : Nat :=
  ((alook st.all_branches x).map BranchInfo.bottom_height).getD 0

/-- The ancestor chain of a branch id: the id followed by its parents. -/
def chain (st : BranchesSt) : Nat → Nat → List Nat
  | 0, _ => []
  | fuel + 1, a =>
    if a = kNoBranch then []
    else
      match alook st.all_branches a with
      | none => [a]
      | some A => a :: chain st fuel A.parent

/-- The full ancestor chain (the fuel `bh + 1` always suffices under the
documented invariants). -/
def chainF (st : BranchesSt) (a : Nat) : List Nat :=
  chain st (bh st a + 1) a

/-- First element of `xs` that also occurs in `ys`. -/
def firstCommon (xs ys : List Nat) : Option Nat :=
  xs.find? (fun x => ys.contains x)

/-- The documented well-formedness of the branch graph, as `init`
validates it: ids are consistent and nonzero, heights are ordered, and
every named parent exists with `parent.top_height < child.bottom_height`. -/
def WFB (st : BranchesSt) : Prop :=
  SortedK st.all_branches ∧
  ∀ p ∈ st.all_branches,
    p.2.id = p.1 ∧ p.1 ≠ kNoBranch ∧
    p.2.bottom_height ≤ p.2.top_height ∧
    (p.2.parent ≠ kNoBranch →
      ∃ q ∈ st.all_branches, q.1 = p.2.parent ∧
        q.2.top_height < p.2.bottom_height)

theorem contains_mem {l : List Nat} {x : Nat} :
    l.contains x = true ↔ x ∈ l := by simp

theorem wfb_lookup {st : BranchesSt} (hwf : WFB st) {x : Nat}
    {X : BranchInfo} (h : alook st.all_branches x = some X) :
    X.id = x ∧ x ≠ kNoBranch ∧ X.bottom_height ≤ X.top_height ∧
    (X.parent ≠ kNoBranch → ∃ P, alook st.all_branches X.parent = some P
      ∧ P.top_height < X.bottom_height) := by
  have hmem := alook_mem h
  have hp := hwf.2 (x, X) hmem
  refine ⟨hp.1, hp.2.1, hp.2.2.1, ?_⟩
  intro hpar
  rcases hp.2.2.2 hpar with ⟨q, hq, hq1, hq2⟩
  refine ⟨q.2, ?_, hq2⟩
  rw [← hq1]
  exact mem_alook hwf.1 hq

/-- A named parent's bottom height is strictly below the child's. -/
theorem wfb_parent_bh {st : BranchesSt} (hwf : WFB st) {x : Nat}
    {X : BranchInfo} (h : alook st.all_branches x = some X)
    (hpar : X.parent ≠ kNoBranch) :
    ∃ P, alook st.all_branches X.parent = some P
      ∧ P.bottom_height < X.bottom_height := by
  rcases (wfb_lookup hwf h).2.2.2 hpar with ⟨P, hP, hlt⟩
  exact ⟨P, hP, lt_of_le_of_lt (wfb_lookup hwf hP).2.2.1 hlt⟩

theorem bh_lookup {st : BranchesSt} {x : Nat} {X : BranchInfo}
    (h : alook st.all_branches x = some X) : bh st x = X.bottom_height := by
  simp [bh, h]

/-- Every element of the chain of a present branch is itself present, with
bottom height at most that of the start. -/
theorem chain_mem {st : BranchesSt} (hwf : WFB st) :
    ∀ (fuel : Nat) {p : Nat} {P : BranchInfo},
      alook st.all_branches p = some P →
      ∀ x ∈ chain st fuel p,
        ∃ X, alook st.all_branches x = some X
          ∧ X.bottom_height ≤ P.bottom_height := by
  intro fuel
  induction fuel with
  | zero => intro p P _ x hx; simp [chain] at hx
  | succ f ih =>
    intro p P hP x hx
    have hpn : p ≠ kNoBranch := (wfb_lookup hwf hP).2.1
    rw [chain, if_neg hpn, hP] at hx
    rcases List.mem_cons.mp hx with h1 | h1
    · exact ⟨P, h1 ▸ hP, le_refl _⟩
    · by_cases hpar : P.parent = kNoBranch
      · rw [hpar] at h1
        cases f with
        | zero => simp [chain] at h1
        | succ f2 => rw [chain, if_pos rfl] at h1; simp at h1
      · rcases wfb_parent_bh hwf hP hpar with ⟨Q, hQ, hQlt⟩
        rcases ih hQ x h1 with ⟨X, hX, hXle⟩
        exact ⟨X, hX, le_of_lt (lt_of_le_of_lt hXle hQlt)⟩

/-- Elements of the tail of the chain are strictly lower. -/
theorem chain_tail_lt {st : BranchesSt} (hwf : WFB st) {fuel : Nat}
    {p : Nat} {P : BranchInfo} (hP : alook st.all_branches p = some P)
    {x : Nat} (hx : x ∈ chain st fuel P.parent) :
    ∃ X, alook st.all_branches x = some X
      ∧ X.bottom_height < P.bottom_height := by
  by_cases hpar : P.parent = kNoBranch
  · rw [hpar] at hx
    cases fuel with
    | zero => simp [chain] at hx
    | succ f2 => rw [chain, if_pos rfl] at hx; simp at hx
  · rcases wfb_parent_bh hwf hP hpar with ⟨Q, hQ, hQlt⟩
    rcases chain_mem hwf fuel hQ x hx with ⟨X, hX, hXle⟩
    exact ⟨X, hX, lt_of_le_of_lt hXle hQlt⟩

/-- The chain is independent of the fuel as soon as the fuel exceeds the
start's bottom height. -/
theorem chain_fuel_irrel {st : BranchesSt} (hwf : WFB st) :
    ∀ (n : Nat) {p : Nat} {P : BranchInfo},
      alook st.all_branches p = some P → P.bottom_height ≤ n →
      ∀ (f1 f2 : Nat), P.bottom_height < f1 → P.bottom_height < f2 →
        chain st f1 p = chain st f2 p := by
  intro n
  induction n with
  | zero =>
    intro p P hP hPle f1 f2 h1 h2
    obtain ⟨f1', rfl⟩ : ∃ k, f1 = k + 1 := ⟨f1 - 1, by omega⟩
    obtain ⟨f2', rfl⟩ : ∃ k, f2 = k + 1 := ⟨f2 - 1, by omega⟩
    have hpn : p ≠ kNoBranch := (wfb_lookup hwf hP).2.1
    simp only [chain, if_neg hpn, hP]
    by_cases hpar : P.parent = kNoBranch
    · rw [hpar]
      congr 1
      cases f1' <;> cases f2' <;> simp [chain]
    · rcases wfb_parent_bh hwf hP hpar with ⟨Q, hQ, hQlt⟩
      omega
  | succ m ih =>
    intro p P hP hPle f1 f2 h1 h2
    obtain ⟨f1', rfl⟩ : ∃ k, f1 = k + 1 := ⟨f1 - 1, by omega⟩
    obtain ⟨f2', rfl⟩ : ∃ k, f2 = k + 1 := ⟨f2 - 1, by omega⟩
    have hpn : p ≠ kNoBranch := (wfb_lookup hwf hP).2.1
    simp only [chain, if_neg hpn, hP]
    by_cases hpar : P.parent = kNoBranch
    · rw [hpar]
      congr 1
      cases f1' <;> cases f2' <;> simp [chain]
    · rcases wfb_parent_bh hwf hP hpar with ⟨Q, hQ, hQlt⟩
      congr 1
      exact ih hQ (by omega) f1' f2' (by omega) (by omega)

/-- Unfolding of the full chain through the parent. -/
theorem chainF_cons {st : BranchesSt} (hwf : WFB st) {p : Nat}
    {P : BranchInfo} (hP : alook st.all_branches p = some P) :
    chainF st p = p :: chain st P.bottom_height P.parent := by
  have hpn : p ≠ kNoBranch := (wfb_lookup hwf hP).2.1
  rw [chainF, bh_lookup hP]
  simp only [chain, if_neg hpn, hP]

/-- Through a present parent, the chain continues with the parent's full
chain. -/
theorem chainF_parent {st : BranchesSt} (hwf : WFB st) {p : Nat}
    {P : BranchInfo} (hP : alook st.all_branches p = some P)
    (hpar : P.parent ≠ kNoBranch) :
    chainF st p = p :: chainF st P.parent := by
  rcases wfb_parent_bh hwf hP hpar with ⟨Q, hQ, hQlt⟩
  rw [chainF_cons hwf hP]
  congr 1
  rw [chainF, bh_lookup hQ]
  exact chain_fuel_irrel hwf Q.bottom_height hQ (le_refl _)
    P.bottom_height (Q.bottom_height + 1) hQlt (by omega)

/-- With no parent, the full chain is the singleton. -/
theorem chainF_root {st : BranchesSt} (hwf : WFB st) {p : Nat}
    {P : BranchInfo} (hP : alook st.all_branches p = some P)
    (hpar : P.parent = kNoBranch) :
    chainF st p = [p] := by
  rw [chainF_cons hwf hP, hpar]
  cases hB : P.bottom_height with
  | zero => simp [chain]
  | succ m => simp [chain]

end Sync

namespace Sync

theorem chain_kNo (st : BranchesSt) : ∀ f, chain st f kNoBranch = [] := by
  intro f
  cases f <;> simp [chain]

theorem fc_head_mem {a : Nat} {xs ys : List Nat} (h : a ∈ ys) :
    firstCommon (a :: xs) ys = some a := by
  have hc : ys.contains a = true := contains_mem.mpr h
  unfold firstCommon
  rw [List.find?_cons]
  simp only [hc]

theorem fc_head_not_mem {a : Nat} {xs ys : List Nat} (h : a ∉ ys) :
    firstCommon (a :: xs) ys = firstCommon xs ys := by
  have hc : ys.contains a = false := by
    cases hc : ys.contains a
    · rfl
    · exact absurd (contains_mem.mp hc) h
  unfold firstCommon
  rw [List.find?_cons]
  simp only [hc]

theorem fc_drop_ys {b : Nat} {xs ys : List Nat} (hb : b ∉ xs) :
    firstCommon xs (b :: ys) = firstCommon xs ys := by
  induction xs with
  | nil => rfl
  | cons x t ih =>
    have hxb : (x == b) = false := by
      have hne : x ≠ b := fun h => hb (h ▸ List.mem_cons_self x t)
      simpa using hne
    have hcont : (b :: ys).contains x = ys.contains x := by
      rw [List.contains_cons, hxb, Bool.false_or]
    unfold firstCommon
    rw [List.find?_cons, List.find?_cons]
    simp only [hcont]
    cases hc : ys.contains x with
    | true => rfl
    | false => exact ih (fun hm => hb (List.mem_cons_of_mem _ hm))

theorem fc_mem {xs ys : List Nat} {c : Nat}
    (h : firstCommon xs ys = some c) : c ∈ xs ∧ c ∈ ys :=
  ⟨List.mem_of_find?_eq_some h, contains_mem.mp (List.find?_some h)⟩

theorem fc_none {xs ys : List Nat} (h : firstCommon xs ys = none) :
    ∀ x ∈ xs, x ∉ ys := by
  intro x hx hmem
  have := List.find?_eq_none.mp h x hx
  exact this (contains_mem.mpr hmem)

theorem fc_max {f : Nat → Nat} {xs ys : List Nat} {c : Nat}
    (hxs : xs.Pairwise (fun x y => f y < f x))
    (h : firstCommon xs ys = some c) :
    ∀ e ∈ xs, e ∈ ys → f e ≤ f c := by
  induction xs with
  | nil => intro e he; simp at he
  | cons x t ih =>
    intro e he hey
    by_cases hc : ys.contains x = true
    · have hcx : c = x := by
        have := @fc_head_mem x t ys (contains_mem.mp hc)
        rw [this] at h
        exact (Option.some.inj h).symm
      rcases List.mem_cons.mp he with h1 | h1
      · rw [h1, hcx]
      · rw [hcx]
        exact le_of_lt ((List.pairwise_cons.mp hxs).1 e h1)
    · have hnx : x ∉ ys := fun hm => hc (contains_mem.mpr hm)
      rw [fc_head_not_mem hnx] at h
      rcases List.mem_cons.mp he with h1 | h1
      · exact absurd (h1 ▸ hey) hnx
      · exact ih (List.pairwise_cons.mp hxs).2 h e h1 hey

theorem pairwise_inj {f : Nat → Nat} {xs : List Nat} {c d : Nat}
    (hxs : xs.Pairwise (fun x y => f y < f x))
    (hc : c ∈ xs) (hd : d ∈ xs) (hf : f c = f d) : c = d := by
  induction xs with
  | nil => simp at hc
  | cons x t ih =>
    rcases List.mem_cons.mp hc with h1 | h1 <;>
      rcases List.mem_cons.mp hd with h2 | h2
    · rw [h1, h2]
    · have := (List.pairwise_cons.mp hxs).1 d h2
      rw [← h1, hf] at this
      exact absurd this (lt_irrefl _)
    · have := (List.pairwise_cons.mp hxs).1 c h1
      rw [← h2, hf] at this
      exact absurd this (lt_irrefl _)
    · exact ih (List.pairwise_cons.mp hxs).2 h1 h2

theorem fc_symm {f : Nat → Nat} {xs ys : List Nat}
    (hxs : xs.Pairwise (fun x y => f y < f x))
    (hys : ys.Pairwise (fun x y => f y < f x)) :
    firstCommon xs ys = firstCommon ys xs := by
  cases h1 : firstCommon xs ys with
  | none =>
    cases h2 : firstCommon ys xs with
    | none => rfl
    | some d =>
      rcases fc_mem h2 with ⟨hdy, hdx⟩
      exact absurd hdy (fc_none h1 d hdx)
  | some c =>
    cases h2 : firstCommon ys xs with
    | none =>
      rcases fc_mem h1 with ⟨hcx, hcy⟩
      exact absurd hcx (fc_none h2 c hcy)
    | some d =>
      rcases fc_mem h1 with ⟨hcx, hcy⟩
      rcases fc_mem h2 with ⟨hdy, hdx⟩
      have hle1 : f c ≤ f d := fc_max hys h2 c hcy hcx
      have hle2 : f d ≤ f c := fc_max hxs h1 d hdx hdy
      have : c = d := pairwise_inj hxs hcx hdx (le_antisymm hle1 hle2)
      rw [this]

/-- The chain is strictly decreasing in bottom height. -/
theorem chain_pairwise {st : BranchesSt} (hwf : WFB st) :
    ∀ (fuel : Nat) {p : Nat} {P : BranchInfo},
      alook st.all_branches p = some P →
      (chain st fuel p).Pairwise (fun x y => bh st y < bh st x) := by
  intro fuel
  induction fuel with
  | zero => intro p P _; simp [chain]
  | succ f ih =>
    intro p P hP
    have hpn : p ≠ kNoBranch := (wfb_lookup hwf hP).2.1
    simp only [chain, if_neg hpn, hP]
    refine List.pairwise_cons.mpr ⟨?_, ?_⟩
    · intro x hx
      rcases chain_tail_lt hwf hP hx with ⟨X, hX, hlt⟩
      rw [bh_lookup hX, bh_lookup hP]
      exact hlt
    · by_cases hpar : P.parent = kNoBranch
      · rw [hpar, chain_kNo]
        simp
      · rcases wfb_parent_bh hwf hP hpar with ⟨Q, hQ, _⟩
        exact ih hQ

theorem chainF_pairwise {st : BranchesSt} (hwf : WFB st) {p : Nat}
    {P : BranchInfo} (hP : alook st.all_branches p = some P) :
    (chainF st p).Pairwise (fun x y => bh st y < bh st x) :=
  chain_pairwise hwf _ hP

/-- An id of another branch cannot sit in the tail of a chain whose start
has a lower-or-equal bottom height. -/
theorem not_mem_chainF_of_ge {st : BranchesSt} (hwf : WFB st)
    {a b : Nat} {A B : BranchInfo}
    (hA : alook st.all_branches a = some A)
    (hB : alook st.all_branches b = some B)
    (hab : b ≠ a) (hle : A.bottom_height ≤ B.bottom_height) :
    b ∉ chainF st a := by
  rw [chainF_cons hwf hA]
  intro hmem
  rcases List.mem_cons.mp hmem with h1 | h1
  · exact hab h1
  · rcases chain_tail_lt hwf hA h1 with ⟨X, hX, hlt⟩
    rw [hB] at hX
    cases hX
    omega

/-- The while loop of `getCommonRoot` computes the first common element of
the two ancestor chains (the deepest common ancestor). -/
theorem gcrGo_eq {st : BranchesSt} (hwf : WFB st) :
    ∀ (fuel : Nat) (a b : Nat) (A B : BranchInfo),
      alook st.all_branches a = some A →
      alook st.all_branches b = some B →
      A.bottom_height + B.bottom_height < fuel →
      gcrGo st fuel a A b B = some (
        match firstCommon (chainF st a) (chainF st b) with
        | some c =>
          match alook st.all_branches c with
          | some C => .ok C
          | none => .error .BRANCHES_BRANCH_NOT_FOUND
        | none => .error .BRANCHES_NO_COMMON_ROOT) := by
  intro fuel
  induction fuel with
  | zero => intro a b A B _ _ hlt; omega
  | succ f ih =>
    intro a b A B hA hB hlt
    by_cases hab : a = b
    · subst hab
      rw [hA] at hB
      cases hB
      have hfc : firstCommon (chainF st a) (chainF st a) = some a := by
        rw [chainF_cons hwf hA]
        exact fc_head_mem (List.mem_cons_self _ _)
      have hg : gcrGo st (f + 1) a A a A = some (.ok A) := by
        simp [gcrGo]
      rw [hg, hfc]
      show some (Except.ok A) = some (match alook st.all_branches a with
        | some C => Except.ok C
        | none => Except.error BErr.BRANCHES_BRANCH_NOT_FOUND)
      rw [hA]
    · by_cases hle : A.bottom_height ≤ B.bottom_height
      · by_cases hpar : B.parent = kNoBranch
        · have hroot := chainF_root hwf hB hpar
          have hfc : firstCommon (chainF st a) (chainF st b) = none := by
            rw [hroot]
            apply List.find?_eq_none.mpr
            intro x hx
            simp only [List.contains_cons, List.contains_nil,
              Bool.or_false]
            rcases List.mem_cons.mp ((chainF_cons hwf hA) ▸ hx) with h1 | h1
            · rw [h1]
              simpa using hab
            · rcases chain_tail_lt hwf hA h1 with ⟨X, hX, hxlt⟩
              have : x ≠ b := by
                intro hxb
                rw [hxb, hB] at hX
                cases hX
                omega
              simpa using this
          simp only [gcrGo, if_neg hab, if_pos hle, if_pos hpar, hfc]
        · rcases wfb_parent_bh hwf hB hpar with ⟨B2, hB2, hB2lt⟩
          have hrec := ih a B.parent A B2 hA hB2 (by omega)
          have hstep : firstCommon (chainF st a) (chainF st b)
              = firstCommon (chainF st a) (chainF st B.parent) := by
            rw [chainF_parent hwf hB hpar]
            apply fc_drop_ys
            exact not_mem_chainF_of_ge hwf hA hB
              (fun hh => hab hh.symm) hle
          simp only [gcrGo, if_neg hab, if_pos hle, if_neg hpar, hB2,
            hrec, hstep]
      · by_cases hpar : A.parent = kNoBranch
        · have hroot := chainF_root hwf hA hpar
          have hfc : firstCommon (chainF st a) (chainF st b) = none := by
            rw [hroot]
            apply List.find?_eq_none.mpr
            intro x hx
            rcases List.mem_cons.mp hx with h1 | h1
            · subst h1
              have hnm : x ∉ chainF st b :=
                not_mem_chainF_of_ge hwf hB hA hab (by omega)
              cases hc : (chainF st b).contains x
              · simp
              · exact absurd (contains_mem.mp hc) hnm
            · simp at h1
          simp only [gcrGo, if_neg hab, if_neg hle, if_pos hpar, hfc]
        · rcases wfb_parent_bh hwf hA hpar with ⟨A2, hA2, hA2lt⟩
          have hrec := ih A.parent b A2 B hA2 hB (by omega)
          have hstep : firstCommon (chainF st a) (chainF st b)
              = firstCommon (chainF st A.parent) (chainF st b) := by
            rw [chainF_parent hwf hA hpar]
            apply fc_head_not_mem
            exact not_mem_chainF_of_ge hwf hB hA hab (by omega)
          simp only [gcrGo, if_neg hab, if_neg hle, if_neg hpar, hA2,
            hrec, hstep]

/--
C9: `getCommonRoot(a, b)` and `getCommonRoot(b, a)` return the same
result on every well-formed branch graph; when both ids denote branches,
the common result is `ok C` for the deepest common ancestor `c` of the two
parent chains, and the `BRANCHES_NO_COMMON_ROOT` error exactly when the
chains share no element.
-/
theorem getCommonRoot_symm (st : BranchesSt) (hwf : WFB st) (a b : Nat) :
    getCommonRoot st a b = getCommonRoot st b a
    ∧ (∀ A B, alook st.all_branches a = some A →
        alook st.all_branches b = some B →
        (∃ c C, c ∈ chainF st a ∧ c ∈ chainF st b ∧
            alook st.all_branches c = some C ∧
            getCommonRoot st a b = some (.ok C))
        ∨ (getCommonRoot st a b = some (.error .BRANCHES_NO_COMMON_ROOT)
            ∧ ∀ c ∈ chainF st a, c ∉ chainF st b)) := by
  by_cases hk : a = kNoBranch ∨ b = kNoBranch
  · constructor
    · unfold getCommonRoot
      rw [if_pos hk, if_pos (Or.symm hk)]
    · intro A B hA hB
      rcases hk with h | h
      · exact absurd (h ▸ hA) (by
          intro hh
          exact (wfb_lookup hwf hh).2.1 rfl)
      · exact absurd (h ▸ hB) (by
          intro hh
          exact (wfb_lookup hwf hh).2.1 rfl)
  · have hk2 : ¬(b = kNoBranch ∨ a = kNoBranch) := fun h => hk (Or.symm h)
    cases hA : alook st.all_branches a with
    | none =>
      constructor
      · unfold getCommonRoot
        rw [if_neg hk, if_neg hk2, hA]
        cases hB : alook st.all_branches b with
        | none => rfl
        | some B => rfl
      · intro A B hA2 hB2
        exact Option.noConfusion hA2
    | some A =>
      cases hB : alook st.all_branches b with
      | none =>
        constructor
        · unfold getCommonRoot
          rw [if_neg hk, if_neg hk2, hA, hB]
        · intro A2 B2 hA2 hB2
          exact Option.noConfusion hB2
      | some B =>
        have h1 := gcrGo_eq hwf (A.bottom_height + B.bottom_height + 1)
          a b A B hA hB (by omega)
        have h2 := gcrGo_eq hwf (B.bottom_height + A.bottom_height + 1)
          b a B A hB hA (by omega)
        have hsym : firstCommon (chainF st a) (chainF st b)
            = firstCommon (chainF st b) (chainF st a) :=
          fc_symm (chainF_pairwise hwf hA) (chainF_pairwise hwf hB)
        constructor
        · unfold getCommonRoot
          rw [if_neg hk, if_neg hk2]
          simp only [hA, hB]
          rw [h1, h2, hsym]
        · intro A2 B2 hA2 hB2
          have hres : getCommonRoot st a b = some (
              match firstCommon (chainF st a) (chainF st b) with
              | some c =>
                match alook st.all_branches c with
                | some C => Except.ok C
                | none => Except.error BErr.BRANCHES_BRANCH_NOT_FOUND
              | none =>
                Except.error BErr.BRANCHES_NO_COMMON_ROOT) := by
            unfold getCommonRoot
            rw [if_neg hk]
            simp only [hA, hB]
            exact h1
          cases hfc : firstCommon (chainF st a) (chainF st b) with
          | some c =>
            left
            rcases fc_mem hfc with ⟨hca, hcb⟩
            have hcl : ∃ C, alook st.all_branches c = some C := by
              have hmem := (chainF_cons hwf hA) ▸ hca
              rcases List.mem_cons.mp hmem with hc1 | hc1
              · exact ⟨A, hc1 ▸ hA⟩
              · rcases chain_tail_lt hwf hA hc1 with ⟨X, hX, _⟩
                exact ⟨X, hX⟩
            rcases hcl with ⟨C, hC⟩
            refine ⟨c, C, hca, hcb, hC, ?_⟩
            rw [hres, hfc]
            show some (match alook st.all_branches c with
              | some C2 => Except.ok C2
              | none => Except.error BErr.BRANCHES_BRANCH_NOT_FOUND)
              = some (Except.ok C)
            rw [hC]
          | none =>
            right
            refine ⟨?_, fc_none hfc⟩
            rw [hres, hfc]

/-- Witness state for C9: genesis branch 1 with two child forks 2 and 3. -/
def c9State : BranchesSt :=
  { all_branches := [
      (1,
        { id := 1, top := [1], top_height := 1, bottom := [0],
          bottom_height := 0, parent := kNoBranch, parent_hash := [],
          synced_to_genesis := true, forks := [2, 3] }),
      (2,
        { id := 2, top := [2], top_height := 4, bottom := [2],
          bottom_height := 2, parent := 1, parent_hash := [1],
          synced_to_genesis := true, forks := [] }),
      (3,
        { id := 3, top := [3], top_height := 5, bottom := [3],
          bottom_height := 2, parent := 1, parent_hash := [1],
          synced_to_genesis := true, forks := [] })],
    heads := [([2], 2), ([3], 3)], unloaded_roots := [],
    genesis_branch := some 1, current_chain := [],
    current_top_branch := kNoBranch, current_height := 0 }

/-- Witness for C9 on two sibling forks. -/
theorem getCommonRoot_symm_witness :
    getCommonRoot c9State 2 3 = getCommonRoot c9State 3 2 :=
  (getCommonRoot_symm c9State
    (by unfold WFB SortedK; decide) 2 3).1

end Sync

section SortedNat

/-- Sorted-set insert on `List Nat` (also the embedding of
`std::set<BranchId>::insert`, shared with `sinsert`). -/
def insNat : Nat → List Nat → List Nat
  | i, [] => [i]
  | i, j :: t =>
    if i < j then i :: j :: t else if i = j then j :: t else j :: insNat i t

/-- Sorted-set removal on `List Nat`. -/
def remNat : Nat → List Nat → List Nat
  | _, [] => []
  | i, j :: t => if i = j then t else j :: remNat i t

theorem mem_insNat {i x : Nat} {l : List Nat} :
    x ∈ insNat i l ↔ x = i ∨ x ∈ l := by
  induction l with
  | nil => simp [insNat]
  | cons j t ih =>
    by_cases h1 : i < j
    · simp only [insNat, if_pos h1]
      simp only [List.mem_cons]
    · by_cases h2 : i = j
      · subst h2
        simp only [insNat, if_neg h1, if_pos rfl]
        constructor
        · intro h
          exact Or.inr h
        · rintro (h | h)
          · rw [h]
            exact List.mem_cons_self _ _
          · exact h
      · simp only [insNat, if_neg h1, if_neg h2]
        simp only [List.mem_cons, ih]
        tauto

theorem sorted_insNat {i : Nat} {l : List Nat}
    (hs : l.Pairwise (· < ·)) : (insNat i l).Pairwise (· < ·) := by
  induction l with
  | nil => simp [insNat]
  | cons j t ih =>
    by_cases h1 : i < j
    · simp only [insNat, if_pos h1]
      refine List.pairwise_cons.mpr ⟨?_, hs⟩
      intro x hx
      rcases List.mem_cons.mp hx with h | h
      · rw [h]; exact h1
      · exact h1.trans ((List.pairwise_cons.mp hs).1 x h)
    · by_cases h2 : i = j
      · subst h2
        simpa [insNat, if_neg h1] using hs
      · simp only [insNat, if_neg h1, if_neg h2]
        have hji : j < i := lt_of_le_of_ne (not_lt.mp h1) (fun h => h2 h.symm)
        refine List.pairwise_cons.mpr
          ⟨?_, ih (List.pairwise_cons.mp hs).2⟩
        intro x hx
        rcases mem_insNat.mp hx with h | h
        · rw [h]; exact hji
        · exact (List.pairwise_cons.mp hs).1 x h

theorem insNat_mem_id {i : Nat} {l : List Nat}
    (hs : l.Pairwise (· < ·)) (h : i ∈ l) : insNat i l = l := by
  induction l with
  | nil => simp at h
  | cons j t ih =>
    rcases List.mem_cons.mp h with h1 | h1
    · subst h1
      simp [insNat, lt_irrefl]
    · have hji : j < i := (List.pairwise_cons.mp hs).1 i h1
      simp only [insNat, if_neg (not_lt.mpr hji.le),
        if_neg (fun hh : i = j => absurd (hh ▸ hji) (lt_irrefl i))]
      rw [ih (List.pairwise_cons.mp hs).2 h1]

theorem mem_remNat {i x : Nat} {l : List Nat}
    (hs : l.Pairwise (· < ·)) : x ∈ remNat i l ↔ x ∈ l ∧ x ≠ i := by
  induction l with
  | nil => simp [remNat]
  | cons j t ih =>
    by_cases h1 : i = j
    · subst h1
      simp only [remNat, if_pos rfl]
      constructor
      · intro hx
        refine ⟨List.mem_cons_of_mem _ hx, ?_⟩
        intro hxi
        have := (List.pairwise_cons.mp hs).1 x hx
        rw [hxi] at this
        exact lt_irrefl _ this
      · intro ⟨hx, hxi⟩
        rcases List.mem_cons.mp hx with h | h
        · exact absurd h hxi
        · exact h
    · simp only [remNat, if_neg h1, List.mem_cons,
        ih (List.pairwise_cons.mp hs).2]
      constructor
      · intro hx
        rcases hx with h | ⟨h, hne⟩
        · exact ⟨Or.inl h, fun hh => h1 ((hh ▸ h).symm ▸ rfl)⟩
        · exact ⟨Or.inr h, hne⟩
      · intro ⟨hx, hne⟩
        rcases hx with h | h
        · exact Or.inl h
        · exact Or.inr ⟨h, hne⟩

theorem sorted_remNat {i : Nat} {l : List Nat}
    (hs : l.Pairwise (· < ·)) : (remNat i l).Pairwise (· < ·) := by
  induction l with
  | nil => simp [remNat]
  | cons j t ih =>
    by_cases h1 : i = j
    · simpa [remNat, if_pos h1] using (List.pairwise_cons.mp hs).2
    · simp only [remNat, if_neg h1]
      refine List.pairwise_cons.mpr
        ⟨?_, ih (List.pairwise_cons.mp hs).2⟩
      intro x hx
      exact (List.pairwise_cons.mp hs).1 x
        ((mem_remNat (List.pairwise_cons.mp hs).2).mp hx).1

/-- Two strictly sorted `Nat` lists with the same members are equal. -/
theorem sortedNat_ext : ∀ (l l' : List Nat),
    l.Pairwise (· < ·) → l'.Pairwise (· < ·) →
    (∀ x, x ∈ l ↔ x ∈ l') → l = l' := by
  intro l
  induction l with
  | nil =>
    intro l' _ _ h
    cases l' with
    | nil => rfl
    | cons j t => have := (h j).mpr (List.mem_cons_self _ _); simp at this
  | cons i t ih =>
    intro l' hs hs' h
    cases l' with
    | nil => have := (h i).mp (List.mem_cons_self _ _); simp at this
    | cons j t' =>
      have hij : i = j := by
        by_contra hne
        rcases lt_or_gt_of_ne hne with hlt | hgt
        · have hi : i ∈ j :: t' := (h i).mp (List.mem_cons_self _ _)
          rcases List.mem_cons.mp hi with hh | hh
          · exact hne hh
          · have := (List.pairwise_cons.mp hs').1 i hh
            omega
        · have hj : j ∈ i :: t := (h j).mpr (List.mem_cons_self _ _)
          rcases List.mem_cons.mp hj with hh | hh
          · exact hne hh.symm
          · have := (List.pairwise_cons.mp hs).1 j hh
            omega
      subst hij
      have ht : t = t' := by
        apply ih t' (List.pairwise_cons.mp hs).2 (List.pairwise_cons.mp hs').2
        intro x
        constructor
        · intro hx
          have hxi : x ≠ i := by
            intro hh
            have := (List.pairwise_cons.mp hs).1 x hx
            omega
          rcases List.mem_cons.mp ((h x).mp (List.mem_cons_of_mem _ hx))
            with hh | hh
          · exact absurd hh hxi
          · exact hh
        · intro hx
          have hxi : x ≠ i := by
            intro hh
            have := (List.pairwise_cons.mp hs').1 x hx
            omega
          rcases List.mem_cons.mp ((h x).mpr (List.mem_cons_of_mem _ hx))
            with hh | hh
          · exact absurd hh hxi
          · exact hh
      rw [ht]

end SortedNat

section AssocMore

variable {K : Type} {V : Type} [LinearOrder K]

/-- Membership in `ains` on a sorted list, exactly. -/
theorem mem_ains_iff {l : List (K × V)} (hs : SortedK l) {k : K} {v : V}
    {q : K × V} : q ∈ ains l k v ↔ q = (k, v) ∨ (q ∈ l ∧ q.1 ≠ k) := by
  constructor
  · intro hq
    rcases mem_ains hq with h | h
    · exact Or.inl h
    · by_cases hqk : q.1 = k
      · left
        have h1 : alook l k = some q.2 := by
          rw [← hqk]
          exact mem_alook hs (by rw [show (q.1, q.2) = q from rfl]; exact h)
        have h2 : alook (ains l k v) q.1 = some v := by
          rw [alook_ains, if_pos hqk]
        have h3 : alook (ains l k v) q.1 = some q.2 :=
          mem_alook (sortedK_ains l hs k v)
            (by rw [show (q.1, q.2) = q from rfl]; exact hq)
        rw [h2] at h3
        cases h3
        exact Prod.ext hqk rfl
      · exact Or.inr ⟨h, hqk⟩
  · intro hq
    rcases hq with h | ⟨h, hne⟩
    · subst h
      have : alook (ains l k v) k = some v := by
        rw [alook_ains, if_pos rfl]
      exact alook_mem this
    · have h1 : alook l q.1 = some q.2 :=
        mem_alook hs (by rw [show (q.1, q.2) = q from rfl]; exact h)
      have h2 : alook (ains l k v) q.1 = some q.2 := by
        rw [alook_ains, if_neg hne]
        exact h1
      have := alook_mem h2
      simpa using this

/-- Membership in `aerase` on a sorted list, exactly. -/
theorem mem_aerase_iff {l : List (K × V)} (hs : SortedK l) {k : K}
    {q : K × V} : q ∈ aerase l k ↔ q ∈ l ∧ q.1 ≠ k := by
  constructor
  · intro hq
    refine ⟨mem_aerase hq, ?_⟩
    intro hqk
    have h1 : alook (aerase l k) q.1 = some q.2 :=
      mem_alook (sortedK_aerase l hs k)
        (by rw [show (q.1, q.2) = q from rfl]; exact hq)
    rw [alook_aerase l hs, if_pos hqk] at h1
    exact Option.noConfusion h1
  · intro ⟨h, hne⟩
    have h1 : alook l q.1 = some q.2 :=
      mem_alook hs (by rw [show (q.1, q.2) = q from rfl]; exact h)
    have h2 : alook (aerase l k) q.1 = some q.2 := by
      rw [alook_aerase l hs, if_neg hne]
      exact h1
    have := alook_mem h2
    simpa using this

end AssocMore

namespace Hamt

/-- Generic form of the suffix characterization of `keyToIndices(key, n)`:
for `1 ≤ n ≤ L` (with `L` the number of full groups in the digest), the
partial index list is the suffix of the full one starting at position
`L - n + 1`. -/
theorem kti_from_drop (bytes : List Nat) (w : Nat) (hw : 0 < w) (n : Nat)
    (hn1 : 1 ≤ n) (hnL : n ≤ maxBits bytes w / w) :
    keyToIndicesFrom bytes w n
      = (keyToIndicesAll bytes w).drop (maxBits bytes w / w - n + 1) := by
  have hMB : maxBits bytes w = maxBits bytes w / w * w := by
    rw [maxBits_div bytes w hw]
    rw [maxBits_eq]
    ring
  set L := maxBits bytes w / w with hLdef
  set d := L - n + 1 with hd
  have hn1w : (n - 1) * w ≤ maxBits bytes w := by
    rw [hMB]
    exact Nat.mul_le_mul_right w (by omega)
  have hoff0 : maxBits bytes w - (n - 1) * w = d * w := by
    rw [hMB, ← Nat.sub_mul]
    congr 1
    omega
  have hcount : (maxBits bytes w - (maxBits bytes w - (n - 1) * w)) / w
      = n - 1 := by
    rw [Nat.sub_sub_self hn1w]
    exact Nat.mul_div_cancel _ hw
  unfold keyToIndicesFrom
  rw [hcount, hoff0]
  unfold keyToIndicesAll
  rw [← List.map_drop]
  have hsplit : maxBits bytes w / w = d + (n - 1) := by omega
  rw [hsplit, List.range_add]
  rw [List.drop_left' (by simp : (List.range d).length = d), List.map_map]
  apply List.map_congr_left
  intro g _
  simp only [Function.comp_apply]
  congr 1
  ring

/-- Slot index of a key at depth `d`: element `d` of its index path. -/
def idxAt (pa : String → List Nat) (d : Nat) (k : String) : Option Nat :=
  (pa k)[d]?

/-- The entries of `E` whose index at depth `d` is `i`. -/
def groupOf (pa : String → List Nat) (d i : Nat)
    (E : List (String × List Nat)) : List (String × List Nat) :=
  E.filter fun e => decide (idxAt pa d e.1 = some i)

/-- The sorted duplicate-free list of indices populated at depth `d`. -/
def idxListOf (pa : String → List Nat) (d : Nat)
    (E : List (String × List Nat)) : List Nat :=
  E.foldr (fun e acc =>
    match idxAt pa d e.1 with
    | some i => insNat i acc
    | none => acc) []

mutual

/-- The canonical slot holding exactly the entries `G`: a leaf when they
fit within `kLeafMax`, otherwise a node built one level deeper. -/
def slotFor (pa : String → List Nat) : Nat → Nat →
    List (String × List Nat) → Option Item
  | 0, _, G => if G.length ≤ kLeafMax then some (.leaf G) else none
  | fuel2 + 1, d, G =>
    if G.length ≤ kLeafMax then some (.leaf G)
    else (buildItems pa fuel2 (d + 1) G).map .node
termination_by fuel d G => (fuel, 0, 0)

/-- The canonical slot list over the populated indices `is`. -/
def buildSlots (pa : String → List Nat) : Nat → Nat → List Nat →
    List (String × List Nat) → Option (List (Nat × Item))
  | _, _, [], _ => some []
  | fuel, d, i :: it, E =>
    match slotFor pa fuel d (groupOf pa d i E),
        buildSlots pa fuel d it E with
    | some s, some rest => some ((i, s) :: rest)
    | _, _ => none
termination_by fuel d it E => (fuel, 1, it.length)

/-- The canonical fully-loaded trie holding exactly the entries `E` at
depth `d` (`none` when some key's index path is exhausted at `d` or the
recursion budget runs out). -/
def buildItems (pa : String → List Nat) : Nat → Nat →
    List (String × List Nat) → Option (List (Nat × Item))
  | fuel, d, E =>
    if E.any fun e => (idxAt pa d e.1).isNone then none
    else buildSlots pa fuel d (idxListOf pa d E) E
termination_by fuel d E => (fuel, 2, 0)

end

end Hamt

namespace Hamt

theorem mem_groupOf {pa : String → List Nat} {d i : Nat}
    {E : List (String × List Nat)} {e : String × List Nat} :
    e ∈ groupOf pa d i E ↔ e ∈ E ∧ idxAt pa d e.1 = some i := by
  simp [groupOf, List.mem_filter]

theorem sortedK_groupOf {pa : String → List Nat} {d i : Nat}
    {E : List (String × List Nat)} (hs : SortedK E) :
    SortedK (groupOf pa d i E) :=
  List.Pairwise.sublist (List.filter_sublist E) hs

theorem groupOf_length_le (pa : String → List Nat) (d i : Nat)
    (E : List (String × List Nat)) :
    (groupOf pa d i E).length ≤ E.length :=
  List.length_filter_le _ _

theorem groupOf_cons (pa : String → List Nat) (d i : Nat)
    (e : String × List Nat) (t : List (String × List Nat)) :
    groupOf pa d i (e :: t)
      = if idxAt pa d e.1 = some i then e :: groupOf pa d i t
        else groupOf pa d i t := by
  by_cases h : idxAt pa d e.1 = some i
  · simp [groupOf, List.filter_cons, h]
  · simp [groupOf, List.filter_cons, h]

theorem alook_groupOf {pa : String → List Nat} {d i : Nat}
    {E : List (String × List Nat)} (hs : SortedK E) (k : String) :
    alook (groupOf pa d i E) k
      = if idxAt pa d k = some i then alook E k else none := by
  induction E with
  | nil =>
    simp [groupOf, alook]
  | cons p t ih =>
    obtain ⟨k0, v0⟩ := p
    have iht := ih (sortedK_cons hs)
    rw [groupOf_cons]
    by_cases hp : idxAt pa d k0 = some i
    · rw [if_pos hp]
      simp only [alook]
      by_cases hk : k = k0
      · subst hk
        simp [hp]
      · rw [if_neg hk, iht]
        by_cases hki : idxAt pa d k = some i
        · rw [if_pos hki, if_pos hki, if_neg hk]
        · rw [if_neg hki, if_neg hki]
    · rw [if_neg hp, iht]
      by_cases hki : idxAt pa d k = some i
      · rw [if_pos hki, if_pos hki]
        have hkk0 : k ≠ k0 := fun hh => hp (hh ▸ hki)
        simp only [alook]
        rw [if_neg hkk0]
      · rw [if_neg hki, if_neg hki]

theorem idxListOf_cons (pa : String → List Nat) (d : Nat)
    (e : String × List Nat) (t : List (String × List Nat)) :
    idxListOf pa d (e :: t)
      = match idxAt pa d e.1 with
        | some i => insNat i (idxListOf pa d t)
        | none => idxListOf pa d t := rfl

theorem mem_idxListOf {pa : String → List Nat} {d : Nat}
    {E : List (String × List Nat)} {x : Nat} :
    x ∈ idxListOf pa d E ↔ ∃ e ∈ E, idxAt pa d e.1 = some x := by
  induction E with
  | nil => simp [idxListOf]
  | cons e t ih =>
    rw [idxListOf_cons]
    cases he : idxAt pa d e.1 with
    | none =>
      rw [ih]
      constructor
      · rintro ⟨q, hq, hqx⟩
        exact ⟨q, List.mem_cons_of_mem _ hq, hqx⟩
      · rintro ⟨q, hq, hqx⟩
        rcases List.mem_cons.mp hq with h | h
        · subst h
          rw [he] at hqx
          exact absurd hqx (by simp)
        · exact ⟨q, h, hqx⟩
    | some i =>
      rw [mem_insNat, ih]
      constructor
      · rintro (h | ⟨q, hq, hqx⟩)
        · exact ⟨e, List.mem_cons_self _ _, by rw [he, h]⟩
        · exact ⟨q, List.mem_cons_of_mem _ hq, hqx⟩
      · rintro ⟨q, hq, hqx⟩
        rcases List.mem_cons.mp hq with h | h
        · subst h
          rw [he] at hqx
          exact Or.inl (Option.some.inj hqx).symm
        · exact Or.inr ⟨q, h, hqx⟩

theorem sorted_idxListOf (pa : String → List Nat) (d : Nat)
    (E : List (String × List Nat)) :
    (idxListOf pa d E).Pairwise (· < ·) := by
  induction E with
  | nil => exact List.Pairwise.nil
  | cons e t ih =>
    rw [idxListOf_cons]
    cases he : idxAt pa d e.1 with
    | none => exact ih
    | some i => exact sorted_insNat ih

theorem groupOf_eq_nil {pa : String → List Nat} {d i : Nat}
    {E : List (String × List Nat)} :
    groupOf pa d i E = [] ↔ i ∉ idxListOf pa d E := by
  rw [groupOf, List.filter_eq_nil]
  simp [mem_idxListOf]

end Hamt

section AssocMore2

variable {K : Type} {V : Type} [LinearOrder K]

/-- `ains` prepends when the key is below every key of the list. -/
theorem ains_front {l : List (K × V)} {k : K} {v : V}
    (h : ∀ q ∈ l, k < q.1) : ains l k v = (k, v) :: l := by
  cases l with
  | nil => rfl
  | cons q t =>
    obtain ⟨k0, v0⟩ := q
    simp only [ains]
    rw [if_pos (h (k0, v0) (List.mem_cons_self _ _))]

/-- `ains` skips a head with a strictly smaller key. -/
theorem ains_skip {l : List (K × V)} {k0 k : K} {v0 v : V} (h : k0 < k) :
    ains ((k0, v0) :: l) k v = (k0, v0) :: ains l k v := by
  simp only [ains]
  rw [if_neg (not_lt.mpr h.le),
    if_neg (fun hh : k = k0 => absurd (hh ▸ h) (lt_irrefl _))]

/-- `ains` replaces a head with an equal key. -/
theorem ains_head {l : List (K × V)} {k : K} {v0 v : V} :
    ains ((k, v0) :: l) k v = (k, v) :: l := by
  simp only [ains]
  rw [if_neg (lt_irrefl k)]
  simp

/-- `aerase` drops a head with an equal key. -/
theorem aerase_head {l : List (K × V)} {k : K} {v0 : V} :
    aerase ((k, v0) :: l) k = l := by
  simp only [aerase]
  simp

/-- `aerase` skips a head with a different key. -/
theorem aerase_skip {l : List (K × V)} {k0 k : K} {v0 : V} (h : k ≠ k0) :
    aerase ((k0, v0) :: l) k = (k0, v0) :: aerase l k := by
  simp only [aerase]
  rw [if_neg h]

/-- Erasing an absent key is the identity. -/
theorem aerase_id {l : List (K × V)} {k : K}
    (h : alook l k = none) : aerase l k = l := by
  induction l with
  | nil => rfl
  | cons q t ih =>
    obtain ⟨k0, v0⟩ := q
    simp only [alook] at h
    by_cases hk : k = k0
    · rw [if_pos hk] at h
      exact Option.noConfusion h
    · rw [if_neg hk] at h
      rw [aerase_skip hk, ih h]

end AssocMore2

namespace Hamt

theorem groupOf_ains {pa : String → List Nat} {d i : Nat}
    {E : List (String × List Nat)} (hs : SortedK E) (k : String)
    (v : List Nat) :
    groupOf pa d i (ains E k v)
      = if idxAt pa d k = some i then ains (groupOf pa d i E) k v
        else groupOf pa d i E := by
  induction E with
  | nil =>
    by_cases h : idxAt pa d k = some i
    · simp [ains, groupOf, h]
    · simp [ains, groupOf, h]
  | cons p t ih =>
    obtain ⟨k0, v0⟩ := p
    have iht := ih (sortedK_cons hs)
    by_cases h1 : k < k0
    · rw [show ains ((k0, v0) :: t) k v = (k, v) :: (k0, v0) :: t from
        ains_front fun q hq => by
          rcases List.mem_cons.mp hq with hh | hh
          · rw [hh]; exact h1
          · exact h1.trans (sortedK_head hs q hh)]
      rw [groupOf_cons]
      by_cases hk : idxAt pa d k = some i
      · rw [if_pos hk, if_pos hk]
        have hfr : ∀ q ∈ groupOf pa d i ((k0, v0) :: t), k < q.1 := by
          intro q hq
          have hqm := (mem_groupOf.mp hq).1
          rcases List.mem_cons.mp hqm with hh | hh
          · rw [hh]; exact h1
          · exact h1.trans (sortedK_head hs q hh)
        rw [ains_front hfr]
      · rw [if_neg hk, if_neg hk]
    · by_cases h2 : k = k0
      · subst h2
        rw [show ains ((k, v0) :: t) k v = (k, v) :: t from ains_head]
        by_cases hk : idxAt pa d k = some i
        · rw [if_pos hk, groupOf_cons, if_pos hk, groupOf_cons, if_pos hk,
            ains_head]
        · rw [if_neg hk, groupOf_cons, if_neg hk, groupOf_cons, if_neg hk]
      · have h3 : k0 < k :=
          lt_of_le_of_ne (not_lt.mp h1) fun hh => h2 hh.symm
        rw [ains_skip h3, groupOf_cons, groupOf_cons, iht]
        by_cases hp : idxAt pa d k0 = some i
        · rw [if_pos hp, if_pos hp]
          by_cases hk : idxAt pa d k = some i
          · rw [if_pos hk, if_pos hk, ains_skip h3]
          · rw [if_neg hk, if_neg hk]
        · rw [if_neg hp, if_neg hp]

theorem groupOf_aerase {pa : String → List Nat} {d i : Nat}
    {E : List (String × List Nat)} (hs : SortedK E) (k : String) :
    groupOf pa d i (aerase E k)
      = if idxAt pa d k = some i then aerase (groupOf pa d i E) k
        else groupOf pa d i E := by
  induction E with
  | nil =>
    by_cases h : idxAt pa d k = some i
    · simp [aerase, groupOf, h]
    · simp [aerase, groupOf, h]
  | cons p t ih =>
    obtain ⟨k0, v0⟩ := p
    have iht := ih (sortedK_cons hs)
    by_cases h2 : k = k0
    · subst h2
      rw [aerase_head]
      by_cases hk : idxAt pa d k = some i
      · rw [if_pos hk, groupOf_cons, if_pos hk, aerase_head]
      · rw [if_neg hk, groupOf_cons, if_neg hk]
    · rw [aerase_skip h2, groupOf_cons, groupOf_cons, iht]
      by_cases hp : idxAt pa d k0 = some i
      · rw [if_pos hp, if_pos hp]
        by_cases hk : idxAt pa d k = some i
        · rw [if_pos hk, if_pos hk, aerase_skip h2]
        · rw [if_neg hk, if_neg hk]
      · rw [if_neg hp, if_neg hp]

end Hamt

namespace Hamt

theorem idxListOf_ains {pa : String → List Nat} {d : Nat}
    {E : List (String × List Nat)} (hs : SortedK E) {k : String}
    (v : List Nat) {i0 : Nat} (hk : idxAt pa d k = some i0) :
    idxListOf pa d (ains E k v) = insNat i0 (idxListOf pa d E) := by
  apply sortedNat_ext
  · exact sorted_idxListOf pa d _
  · exact sorted_insNat (sorted_idxListOf pa d E)
  · intro x
    rw [mem_idxListOf, mem_insNat, mem_idxListOf]
    constructor
    · rintro ⟨q, hq, hqx⟩
      rcases (mem_ains_iff hs).mp hq with h | ⟨h, hne⟩
      · subst h
        have hqx2 : idxAt pa d k = some x := hqx
        exact Or.inl (Option.some.inj (hk.symm.trans hqx2)).symm
      · exact Or.inr ⟨q, h, hqx⟩
    · rintro (h | ⟨q, hq, hqx⟩)
      · subst h
        exact ⟨(k, v), (mem_ains_iff hs).mpr (Or.inl rfl), hk⟩
      · by_cases hqk : q.1 = k
        · have hx : idxAt pa d k = some x := by rw [← hqk]; exact hqx
          exact ⟨(k, v), (mem_ains_iff hs).mpr (Or.inl rfl), hx⟩
        · exact ⟨q, (mem_ains_iff hs).mpr (Or.inr ⟨hq, hqk⟩), hqx⟩

/-- Erasing the only entry of its group removes the index. -/
theorem idxListOf_aerase_del {pa : String → List Nat} {d : Nat}
    {E : List (String × List Nat)} (hs : SortedK E) {k : String} {i0 : Nat}
    (hk : idxAt pa d k = some i0)
    (honly : ∀ q ∈ E, idxAt pa d q.1 = some i0 → q.1 = k) :
    idxListOf pa d (aerase E k) = remNat i0 (idxListOf pa d E) := by
  apply sortedNat_ext
  · exact sorted_idxListOf pa d _
  · exact sorted_remNat (sorted_idxListOf pa d E)
  · intro x
    rw [mem_idxListOf, mem_remNat (sorted_idxListOf pa d E), mem_idxListOf]
    constructor
    · rintro ⟨q, hq, hqx⟩
      rcases (mem_aerase_iff hs).mp hq with ⟨h, hne⟩
      refine ⟨⟨q, h, hqx⟩, ?_⟩
      intro hxi
      subst hxi
      exact hne (honly q h hqx)
    · rintro ⟨⟨q, hq, hqx⟩, hxi⟩
      have hqk : q.1 ≠ k := by
        intro hh
        rw [hh, hk] at hqx
        exact hxi (Option.some.inj hqx).symm
      exact ⟨q, (mem_aerase_iff hs).mpr ⟨hq, hqk⟩, hqx⟩

/-- Erasing an entry whose group still has another member keeps the index
list unchanged. -/
theorem idxListOf_aerase_keep {pa : String → List Nat} {d : Nat}
    {E : List (String × List Nat)} (hs : SortedK E) {k : String}
    (hother : ∃ q ∈ E, q.1 ≠ k ∧ idxAt pa d q.1 = idxAt pa d k) :
    idxListOf pa d (aerase E k) = idxListOf pa d E := by
  apply sortedNat_ext
  · exact sorted_idxListOf pa d _
  · exact sorted_idxListOf pa d E
  · intro x
    rw [mem_idxListOf, mem_idxListOf]
    constructor
    · rintro ⟨q, hq, hqx⟩
      exact ⟨q, ((mem_aerase_iff hs).mp hq).1, hqx⟩
    · rintro ⟨q, hq, hqx⟩
      by_cases hqk : q.1 = k
      · obtain ⟨q2, hq2, hq2k, hq2i⟩ := hother
        refine ⟨q2, (mem_aerase_iff hs).mpr ⟨hq2, hq2k⟩, ?_⟩
        rw [hq2i, ← hqk]
        exact hqx
      · exact ⟨q, (mem_aerase_iff hs).mpr ⟨hq, hqk⟩, hqx⟩

end Hamt

namespace Hamt

/-- Sum of the group sizes over a list of indices. -/
def sumLens (pa : String → List Nat) (d : Nat)
    (E : List (String × List Nat)) : List Nat → Nat
  | [] => 0
  | i :: t => (groupOf pa d i E).length + sumLens pa d E t

theorem sumLens_cons_entry {pa : String → List Nat} {d : Nat}
    (e : String × List Nat) (E : List (String × List Nat)) {i0 : Nat}
    (he : idxAt pa d e.1 = some i0) :
    ∀ it : List Nat, it.Pairwise (· < ·) →
      sumLens pa d (e :: E) it
        = sumLens pa d E it + (if i0 ∈ it then 1 else 0) := by
  intro it
  induction it with
  | nil =>
    intro _
    simp [sumLens]
  | cons j t ih =>
    intro hsort
    simp only [sumLens]
    rw [groupOf_cons, ih (List.pairwise_cons.mp hsort).2]
    by_cases hj : i0 = j
    · subst hj
      rw [if_pos he]
      simp only [List.length_cons]
      have hnot : i0 ∉ t := by
        intro hmem
        exact lt_irrefl i0 ((List.pairwise_cons.mp hsort).1 i0 hmem)
      rw [if_neg hnot, if_pos (List.mem_cons_self _ _)]
      omega
    · have hne : ¬ idxAt pa d e.1 = some j := by
        rw [he]
        intro hh
        exact hj (Option.some.inj hh)
      rw [if_neg hne]
      by_cases hm : i0 ∈ t
      · rw [if_pos hm, if_pos (List.mem_cons_of_mem _ hm)]
        omega
      · have hnot : i0 ∉ j :: t := by
          intro hmm
          rcases List.mem_cons.mp hmm with h | h
          exacts [hj h, hm h]
        rw [if_neg hm, if_neg hnot]
        omega

theorem sumLens_insNat {pa : String → List Nat} {d : Nat}
    (F : List (String × List Nat)) {i0 : Nat} :
    ∀ it : List Nat, it.Pairwise (· < ·) →
      sumLens pa d F (insNat i0 it)
        = sumLens pa d F it
          + (if i0 ∈ it then 0 else (groupOf pa d i0 F).length) := by
  intro it
  induction it with
  | nil =>
    intro _
    simp [insNat, sumLens]
  | cons j t ih =>
    intro hsort
    by_cases h1 : i0 < j
    · rw [show insNat i0 (j :: t) = i0 :: j :: t from by simp [insNat, h1]]
      have hnot : i0 ∉ j :: t := by
        intro hm
        rcases List.mem_cons.mp hm with h | h
        · omega
        · have := (List.pairwise_cons.mp hsort).1 i0 h
          omega
      rw [if_neg hnot]
      simp only [sumLens]
      omega
    · by_cases h2 : i0 = j
      · rw [show insNat i0 (j :: t) = j :: t from by simp [insNat, h1, h2]]
        rw [if_pos (by rw [h2]; exact List.mem_cons_self _ _)]
        omega
      · rw [show insNat i0 (j :: t) = j :: insNat i0 t from by
          simp [insNat, h1, h2]]
        simp only [sumLens]
        rw [ih (List.pairwise_cons.mp hsort).2]
        by_cases hm : i0 ∈ t
        · rw [if_pos hm, if_pos (List.mem_cons_of_mem _ hm)]
          omega
        · have hnot : i0 ∉ j :: t := by
            intro hmm
            rcases List.mem_cons.mp hmm with h | h
            exacts [h2 h, hm h]
          rw [if_neg hm, if_neg hnot]
          omega

/-- The groups at a level partition the entries. -/
theorem sumLens_partition {pa : String → List Nat} {d : Nat}
    {E : List (String × List Nat)}
    (hall : ∀ e ∈ E, (idxAt pa d e.1).isSome = true) :
    sumLens pa d E (idxListOf pa d E) = E.length := by
  induction E with
  | nil => rfl
  | cons e E2 ih =>
    have he : ∃ i0, idxAt pa d e.1 = some i0 := by
      cases hcase : idxAt pa d e.1 with
      | none =>
        have := hall e (List.mem_cons_self _ _)
        rw [hcase] at this
        simp at this
      | some i => exact ⟨i, rfl⟩
    obtain ⟨i0, hi0⟩ := he
    have ih2 := ih fun q hq => hall q (List.mem_cons_of_mem _ hq)
    rw [idxListOf_cons]
    simp only [hi0]
    by_cases hm : i0 ∈ idxListOf pa d E2
    · rw [insNat_mem_id (sorted_idxListOf pa d E2) hm]
      rw [sumLens_cons_entry e E2 hi0 _ (sorted_idxListOf pa d E2)]
      rw [ih2, if_pos hm]
      simp
    · rw [sumLens_insNat (e :: E2) _ (sorted_idxListOf pa d E2)]
      rw [sumLens_cons_entry e E2 hi0 _ (sorted_idxListOf pa d E2)]
      rw [ih2, if_neg hm, if_neg hm]
      rw [groupOf_cons, if_pos hi0, groupOf_eq_nil.mpr hm]
      simp

end Hamt

namespace Hamt

/-- Entry counts of the canonical build: a successful slot holds exactly
its group, a slot list exactly the groups of its indices, a node exactly
its entry list. -/
theorem build_count (pa : String → List Nat) : ∀ fuel : Nat,
    (∀ d G s, slotFor pa fuel d G = some s → countItem s = G.length)
    ∧ (∀ d it E its, buildSlots pa fuel d it E = some its →
        countItems its = sumLens pa d E it)
    ∧ (∀ d E its, buildItems pa fuel d E = some its →
        countItems its = E.length) := by
  intro fuel
  induction fuel using Nat.strong_induction_on with
  | _ fuel ih =>
    have hslot : ∀ d G s, slotFor pa fuel d G = some s →
        countItem s = G.length := by
      intro d G s hs
      cases fuel with
      | zero =>
        simp only [slotFor] at hs
        by_cases hG : G.length ≤ kLeafMax
        · rw [if_pos hG] at hs
          have := Option.some.inj hs
          subst this
          simp [countItem]
        · rw [if_neg hG] at hs
          exact Option.noConfusion hs
      | succ fuel2 =>
        simp only [slotFor] at hs
        by_cases hG : G.length ≤ kLeafMax
        · rw [if_pos hG] at hs
          have := Option.some.inj hs
          subst this
          simp [countItem]
        · rw [if_neg hG] at hs
          cases hb : buildItems pa fuel2 (d + 1) G with
          | none =>
            rw [hb] at hs
            exact Option.noConfusion hs
          | some cits =>
            rw [hb] at hs
            simp only [Option.map_some'] at hs
            have := Option.some.inj hs
            subst this
            have hc := (ih fuel2 (Nat.lt_succ_self _)).2.2 (d + 1) G cits hb
            simp [countItem, hc]
    have hslots : ∀ d it E its, buildSlots pa fuel d it E = some its →
        countItems its = sumLens pa d E it := by
      intro d it
      induction it with
      | nil =>
        intro E its h
        simp only [buildSlots] at h
        have := Option.some.inj h
        subst this
        rfl
      | cons j t ihs =>
        intro E its h
        simp only [buildSlots] at h
        cases h1 : slotFor pa fuel d (groupOf pa d j E) with
        | none =>
          simp only [h1] at h
          exact Option.noConfusion h
        | some s =>
          cases h2 : buildSlots pa fuel d t E with
          | none =>
            simp only [h1, h2] at h
            exact Option.noConfusion h
          | some rest =>
            simp only [h1, h2] at h
            have h3 := Option.some.inj h
            subst h3
            have hcs := hslot d (groupOf pa d j E) s h1
            have hcr := ihs E rest h2
            simp only [countItems, sumLens, countItem]
            rw [hcs, hcr]
    refine ⟨hslot, hslots, ?_⟩
    intro d E its h
    simp only [buildItems] at h
    by_cases hany : E.any (fun e => (idxAt pa d e.1).isNone) = true
    · rw [if_pos hany] at h
      exact Option.noConfusion h
    · rw [if_neg hany] at h
      rw [hslots d (idxListOf pa d E) E its h]
      apply sumLens_partition
      intro e he
      have h2 : (idxAt pa d e.1).isNone = false := by
        by_contra hcon
        exact hany (List.any_eq_true.mpr ⟨e, he, by
          cases hx : (idxAt pa d e.1).isNone
          · exact absurd hx hcon
          · rfl⟩)
      cases hx : idxAt pa d e.1 with
      | none => rw [hx] at h2; simp at h2
      | some i => rfl

theorem countItems_build {pa : String → List Nat} {fuel d : Nat}
    {E : List (String × List Nat)} {its : List (Nat × Item)}
    (h : buildItems pa fuel d E = some its) : countItems its = E.length :=
  (build_count pa fuel).2.2 d E its h

end Hamt

namespace Hamt

theorem all_isSome_of_not_any {pa : String → List Nat} {d : Nat}
    {E : List (String × List Nat)}
    (hany : ¬ E.any (fun e => (idxAt pa d e.1).isNone) = true) :
    ∀ e ∈ E, (idxAt pa d e.1).isSome = true := by
  intro e he
  cases hx : idxAt pa d e.1 with
  | none => exact absurd (List.any_eq_true.mpr ⟨e, he, by rw [hx]; rfl⟩) hany
  | some i => rfl

theorem sortedK_of_keys {its : List (Nat × Item)} {it : List Nat}
    (hk : its.map Prod.fst = it) (hs : it.Pairwise (· < ·)) :
    SortedK its := by
  subst hk
  exact List.pairwise_map.mp hs

theorem alook_keys_none {its : List (Nat × Item)} {it : List Nat}
    (hk : its.map Prod.fst = it) {i : Nat} (hi : i ∉ it) :
    alook its i = none := by
  cases hl : alook its i with
  | none => rfl
  | some s =>
    have h1 : (i, s) ∈ its := alook_mem hl
    have h2 : i ∈ its.map Prod.fst := List.mem_map.mpr ⟨(i, s), h1, rfl⟩
    rw [hk] at h2
    exact absurd h2 hi

theorem buildSlots_spec (pa : String → List Nat) (fuel d : Nat) :
    ∀ it E its, it.Pairwise (· < ·) →
      buildSlots pa fuel d it E = some its →
      its.map Prod.fst = it
      ∧ ∀ i, i ∈ it → ∃ s, slotFor pa fuel d (groupOf pa d i E) = some s
          ∧ alook its i = some s := by
  intro it
  induction it with
  | nil =>
    intro E its _ h
    simp only [buildSlots] at h
    have h3 := Option.some.inj h
    subst h3
    exact ⟨rfl, fun i hi => absurd hi (List.not_mem_nil i)⟩
  | cons j t ihs =>
    intro E its hsort h
    simp only [buildSlots] at h
    cases h1 : slotFor pa fuel d (groupOf pa d j E) with
    | none =>
      simp only [h1] at h
      exact Option.noConfusion h
    | some s =>
      cases h2 : buildSlots pa fuel d t E with
      | none =>
        simp only [h1, h2] at h
        exact Option.noConfusion h
      | some rest =>
        simp only [h1, h2] at h
        have h3 := Option.some.inj h
        subst h3
        obtain ⟨hkeys, hlook⟩ := ihs E rest (List.pairwise_cons.mp hsort).2 h2
        constructor
        · simp [hkeys]
        · intro i hi
          rcases List.mem_cons.mp hi with hij | hit
          · subst hij
            refine ⟨s, h1, ?_⟩
            simp [alook]
          · obtain ⟨s2, hs2, hl2⟩ := hlook i hit
            refine ⟨s2, hs2, ?_⟩
            have hij : i ≠ j := by
              intro hh
              have := (List.pairwise_cons.mp hsort).1 i hit
              omega
            simp only [alook]
            rw [if_neg hij]
            exact hl2

theorem buildItems_spec {pa : String → List Nat} {fuel d : Nat}
    {E : List (String × List Nat)} {its : List (Nat × Item)}
    (h : buildItems pa fuel d E = some its) :
    its.map Prod.fst = idxListOf pa d E
    ∧ SortedK its
    ∧ (∀ e ∈ E, (idxAt pa d e.1).isSome = true)
    ∧ ∀ i, i ∈ idxListOf pa d E →
        ∃ s, slotFor pa fuel d (groupOf pa d i E) = some s
          ∧ alook its i = some s := by
  simp only [buildItems] at h
  by_cases hany : E.any (fun e => (idxAt pa d e.1).isNone) = true
  · rw [if_pos hany] at h
    exact Option.noConfusion h
  · rw [if_neg hany] at h
    obtain ⟨hk, hl⟩ := buildSlots_spec pa fuel d (idxListOf pa d E) E its
      (sorted_idxListOf pa d E) h
    exact ⟨hk, sortedK_of_keys hk (sorted_idxListOf pa d E),
      all_isSome_of_not_any hany, hl⟩

end Hamt

namespace Hamt

/-- `get` on a canonical trie returns exactly the reference-map answer. -/
theorem get_build (store : Nat → Option (List (Nat × Item)))
    (pa : String → List Nat) {L : Nat} (hL : ∀ k2, (pa k2).length = L) :
    ∀ fuel d E its, fuel + d = L → d < L → SortedK E →
      buildItems pa fuel d E = some its →
      ∀ k, getGo store its ((pa k).drop d) k
        = match alook E k with
          | some v => .ok v
          | none => .error .kNotFound := by
  intro fuel
  induction fuel using Nat.strong_induction_on with
  | _ fuel ihf =>
    intro d E its hfd hd hs hb k
    have hdlen : d < (pa k).length := by
      rw [hL k]
      exact hd
    have hdrop : (pa k).drop d = (pa k)[d] :: (pa k).drop (d + 1) :=
      List.drop_eq_getElem_cons hdlen
    have hidx : idxAt pa d k = some ((pa k)[d]) := by
      unfold idxAt
      exact List.getElem?_eq_getElem hdlen
    obtain ⟨hkeys, hsK, hall, hlook⟩ := buildItems_spec hb
    rw [hdrop]
    by_cases hmem : (pa k)[d] ∈ idxListOf pa d E
    · obtain ⟨s, hslot, halook⟩ := hlook _ hmem
      cases fuel with
      | zero => omega
      | succ fuel2 =>
        simp only [slotFor] at hslot
        by_cases hG : (groupOf pa d ((pa k)[d]) E).length ≤ kLeafMax
        · rw [if_pos hG] at hslot
          have hseq := Option.some.inj hslot
          subst hseq
          simp only [getGo, halook]
          have hgl : alook (groupOf pa d ((pa k)[d]) E) k = alook E k := by
            rw [alook_groupOf hs, if_pos hidx]
          rw [hgl]
          cases hEk : alook E k <;> rfl
        · rw [if_neg hG] at hslot
          cases hbc : buildItems pa fuel2 (d + 1)
              (groupOf pa d ((pa k)[d]) E) with
          | none =>
            rw [hbc] at hslot
            exact Option.noConfusion hslot
          | some cits =>
            rw [hbc] at hslot
            simp only [Option.map_some'] at hslot
            have hseq := Option.some.inj hslot
            subst hseq
            simp only [getGo, halook]
            have hd2 : d + 1 < L := by
              obtain ⟨_, _, hall2, _⟩ := buildItems_spec hbc
              have hGne : groupOf pa d ((pa k)[d]) E ≠ [] := by
                intro hh
                rw [hh] at hG
                simp [kLeafMax] at hG
              obtain ⟨e, he⟩ := List.exists_mem_of_ne_nil _ hGne
              by_contra hcon
              have hge : (pa e.1).length ≤ d + 1 := by
                rw [hL e.1]
                omega
              have hno : idxAt pa (d + 1) e.1 = none := by
                unfold idxAt
                exact List.getElem?_eq_none hge
              have := hall2 e he
              rw [hno] at this
              simp at this
            have hrec := ihf fuel2 (Nat.lt_succ_self _) (d + 1) _ cits
              (by omega) hd2 (sortedK_groupOf hs) hbc k
            rw [hrec]
            rw [show alook (groupOf pa d ((pa k)[d]) E) k = alook E k from by
              rw [alook_groupOf hs, if_pos hidx]]
    · have hgnil : groupOf pa d ((pa k)[d]) E = [] := groupOf_eq_nil.mpr hmem
      have hnone : alook its ((pa k)[d]) = none := alook_keys_none hkeys hmem
      simp only [getGo, hnone]
      have hEk : alook E k = none := by
        cases hEk : alook E k with
        | none => rfl
        | some v =>
          have hkm : (k, v) ∈ E := alook_mem hEk
          have hgm : (k, v) ∈ groupOf pa d ((pa k)[d]) E :=
            mem_groupOf.mpr ⟨hkm, hidx⟩
          rw [hgnil] at hgm
          simp at hgm
      rw [hEk]

end Hamt

namespace Hamt

theorem buildSlots_nil (pa : String → List Nat) (fuel d : Nat)
    (E : List (String × List Nat)) :
    buildSlots pa fuel d [] E = some [] := by
  simp only [buildSlots]

theorem buildSlots_cons (pa : String → List Nat) (fuel d j : Nat)
    (t : List Nat) (E : List (String × List Nat)) :
    buildSlots pa fuel d (j :: t) E
      = match slotFor pa fuel d (groupOf pa d j E),
          buildSlots pa fuel d t E with
        | some s, some rest => some ((j, s) :: rest)
        | _, _ => none := by
  simp only [buildSlots]

theorem buildSlots_congr (pa : String → List Nat) (fuel d : Nat) :
    ∀ (it : List Nat) (E E2 : List (String × List Nat)),
      (∀ i ∈ it, groupOf pa d i E2 = groupOf pa d i E) →
      buildSlots pa fuel d it E2 = buildSlots pa fuel d it E := by
  intro it
  induction it with
  | nil =>
    intro E E2 _
    rw [buildSlots_nil, buildSlots_nil]
  | cons j t ihs =>
    intro E E2 h
    rw [buildSlots_cons, buildSlots_cons]
    rw [h j (List.mem_cons_self _ _)]
    rw [ihs E E2 fun i hi => h i (List.mem_cons_of_mem _ hi)]

theorem buildSlots_update (pa : String → List Nat) (fuel d : Nat) :
    ∀ (it : List Nat) (E E2 : List (String × List Nat))
      (its : List (Nat × Item)) (i0 : Nat) (s2 : Item),
      it.Pairwise (· < ·) → i0 ∈ it →
      buildSlots pa fuel d it E = some its →
      (∀ i ∈ it, i ≠ i0 → groupOf pa d i E2 = groupOf pa d i E) →
      slotFor pa fuel d (groupOf pa d i0 E2) = some s2 →
      buildSlots pa fuel d it E2 = some (ains its i0 s2) := by
  intro it
  induction it with
  | nil =>
    intro E E2 its i0 s2 _ hm
    simp at hm
  | cons j t ihs =>
    intro E E2 its i0 s2 hsort hm hb hcong hslot
    rw [buildSlots_cons] at hb
    cases h1 : slotFor pa fuel d (groupOf pa d j E) with
    | none =>
      rw [h1] at hb
      exact Option.noConfusion hb
    | some s =>
      cases h2 : buildSlots pa fuel d t E with
      | none =>
        rw [h1, h2] at hb
        exact Option.noConfusion hb
      | some rest =>
        rw [h1, h2] at hb
        have h3 := Option.some.inj hb
        subst h3
        rw [buildSlots_cons]
        rcases List.mem_cons.mp hm with hji | hit
        · subst hji
          have ht : buildSlots pa fuel d t E2 = some rest := by
            rw [buildSlots_congr pa fuel d t E E2 ?_]
            · exact h2
            · intro i hi
              have hij : i ≠ i0 := by
                intro hh
                have := (List.pairwise_cons.mp hsort).1 i hi
                omega
              exact hcong i (List.mem_cons_of_mem _ hi) hij
          rw [hslot, ht, ains_head]
        · have hji : j < i0 := (List.pairwise_cons.mp hsort).1 i0 hit
          have hj2 : groupOf pa d j E2 = groupOf pa d j E :=
            hcong j (List.mem_cons_self _ _) (by omega)
          have ht := ihs E E2 rest i0 s2 (List.pairwise_cons.mp hsort).2 hit
            h2 (fun i hi hne => hcong i (List.mem_cons_of_mem _ hi) hne) hslot
          rw [hj2, h1, ht, ains_skip hji]

theorem buildSlots_insert (pa : String → List Nat) (fuel d : Nat) :
    ∀ (it : List Nat) (E E2 : List (String × List Nat))
      (its : List (Nat × Item)) (i0 : Nat) (s2 : Item),
      it.Pairwise (· < ·) → i0 ∉ it →
      buildSlots pa fuel d it E = some its →
      (∀ i ∈ it, groupOf pa d i E2 = groupOf pa d i E) →
      slotFor pa fuel d (groupOf pa d i0 E2) = some s2 →
      buildSlots pa fuel d (insNat i0 it) E2 = some (ains its i0 s2) := by
  intro it
  induction it with
  | nil =>
    intro E E2 its i0 s2 _ _ hb hcong hslot
    rw [buildSlots_nil] at hb
    have h3 := Option.some.inj hb
    subst h3
    rw [show insNat i0 [] = [i0] from rfl, buildSlots_cons, hslot,
      buildSlots_nil]
    rfl
  | cons j t ihs =>
    intro E E2 its i0 s2 hsort hnm hb hcong hslot
    rw [buildSlots_cons] at hb
    cases h1 : slotFor pa fuel d (groupOf pa d j E) with
    | none =>
      rw [h1] at hb
      exact Option.noConfusion hb
    | some s =>
      cases h2 : buildSlots pa fuel d t E with
      | none =>
        rw [h1, h2] at hb
        exact Option.noConfusion hb
      | some rest =>
        rw [h1, h2] at hb
        have h3 := Option.some.inj hb
        subst h3
        have hij : i0 ≠ j := fun hh => hnm (hh ▸ List.mem_cons_self j t)
        by_cases hlt : i0 < j
        · rw [show insNat i0 (j :: t) = i0 :: j :: t from by
            simp [insNat, hlt]]
          rw [buildSlots_cons, hslot, buildSlots_cons]
          rw [hcong j (List.mem_cons_self _ _), h1]
          rw [buildSlots_congr pa fuel d t E E2
            fun i hi => hcong i (List.mem_cons_of_mem _ hi), h2]
          rw [show ains ((j, s) :: rest) i0 s2 = (i0, s2) :: (j, s) :: rest
            from by simp [ains, hlt]]
        · have hjlt : j < i0 :=
            lt_of_le_of_ne (not_lt.mp hlt) fun hh => hij hh.symm
          rw [show insNat i0 (j :: t) = j :: insNat i0 t from by
            simp [insNat, hlt, hij]]
          rw [buildSlots_cons, hcong j (List.mem_cons_self _ _), h1]
          have hnt : i0 ∉ t := fun hm => hnm (List.mem_cons_of_mem _ hm)
          have ht := ihs E E2 rest i0 s2 (List.pairwise_cons.mp hsort).2 hnt
            h2 (fun i hi => hcong i (List.mem_cons_of_mem _ hi)) hslot
          rw [ht, ains_skip hjlt]

theorem buildSlots_delete (pa : String → List Nat) (fuel d : Nat) :
    ∀ (it : List Nat) (E E2 : List (String × List Nat))
      (its : List (Nat × Item)) (i0 : Nat),
      it.Pairwise (· < ·) → i0 ∈ it →
      buildSlots pa fuel d it E = some its →
      (∀ i ∈ it, i ≠ i0 → groupOf pa d i E2 = groupOf pa d i E) →
      buildSlots pa fuel d (remNat i0 it) E2 = some (aerase its i0) := by
  intro it
  induction it with
  | nil =>
    intro E E2 its i0 _ hm
    simp at hm
  | cons j t ihs =>
    intro E E2 its i0 hsort hm hb hcong
    rw [buildSlots_cons] at hb
    cases h1 : slotFor pa fuel d (groupOf pa d j E) with
    | none =>
      rw [h1] at hb
      exact Option.noConfusion hb
    | some s =>
      cases h2 : buildSlots pa fuel d t E with
      | none =>
        rw [h1, h2] at hb
        exact Option.noConfusion hb
      | some rest =>
        rw [h1, h2] at hb
        have h3 := Option.some.inj hb
        subst h3
        rcases List.mem_cons.mp hm with hji | hit
        · subst hji
          rw [show remNat i0 (i0 :: t) = t from by simp [remNat]]
          have ht : buildSlots pa fuel d t E2 = some rest := by
            rw [buildSlots_congr pa fuel d t E E2 ?_]
            · exact h2
            · intro i hi
              have hij : i ≠ i0 := by
                intro hh
                have := (List.pairwise_cons.mp hsort).1 i hi
                omega
              exact hcong i (List.mem_cons_of_mem _ hi) hij
          rw [ht, aerase_head]
        · have hji : j < i0 := (List.pairwise_cons.mp hsort).1 i0 hit
          have hij : i0 ≠ j := by omega
          rw [show remNat i0 (j :: t) = j :: remNat i0 t from by
            simp [remNat, hij]]
          rw [buildSlots_cons]
          rw [hcong j (List.mem_cons_self _ _) (by omega), h1]
          have ht := ihs E E2 rest i0 (List.pairwise_cons.mp hsort).2 hit h2
            fun i hi hne => hcong i (List.mem_cons_of_mem _ hi) hne
          rw [ht, aerase_skip hij]

end Hamt

namespace Hamt

theorem buildItems_eq (pa : String → List Nat) (fuel d : Nat)
    (E : List (String × List Nat)) :
    buildItems pa fuel d E
      = if E.any fun e => (idxAt pa d e.1).isNone then none
        else buildSlots pa fuel d (idxListOf pa d E) E := by
  simp only [buildItems]

theorem not_any_isNone {pa : String → List Nat} {d : Nat}
    {E : List (String × List Nat)}
    (h : ∀ e ∈ E, (idxAt pa d e.1).isSome = true) :
    E.any (fun e => (idxAt pa d e.1).isNone) = false := by
  rw [List.any_eq_false]
  intro e he
  have h2 := h e he
  cases hx : idxAt pa d e.1 with
  | none => rw [hx] at h2; simp at h2
  | some i => simp [hx]

theorem buildItems_nil (pa : String → List Nat) (fuel d : Nat) :
    buildItems pa fuel d [] = some [] := by
  rw [buildItems_eq]
  simp [idxListOf, buildSlots_nil]

theorem depth_succ_lt {pa : String → List Nat} {L : Nat}
    (hL : ∀ k2, (pa k2).length = L) {fuel2 d2 : Nat}
    {G : List (String × List Nat)} {cits : List (Nat × Item)}
    (hbc : buildItems pa fuel2 d2 G = some cits) (hne : G ≠ []) :
    d2 < L := by
  obtain ⟨_, _, hall2, _⟩ := buildItems_spec hbc
  obtain ⟨e, he⟩ := List.exists_mem_of_ne_nil _ hne
  by_contra hcon
  have hge : (pa e.1).length ≤ d2 := by
    rw [hL e.1]
    omega
  have hno : idxAt pa d2 e.1 = none := by
    unfold idxAt
    exact List.getElem?_eq_none hge
  have h2 := hall2 e he
  rw [hno] at h2
  simp at h2

theorem alook_foldl_ains :
    ∀ (ps acc : List (String × List Nat)) (q : String),
      SortedK acc → SortedK ps →
      alook (ps.foldl (fun E2 p => ains E2 p.1 p.2) acc) q
        = match alook ps q with
          | some v => some v
          | none => alook acc q := by
  intro ps
  induction ps with
  | nil =>
    intro acc q _ _
    rfl
  | cons p t ihp =>
    intro acc q hsacc hsps
    have ih2 := ihp (ains acc p.1 p.2) q (sortedK_ains acc hsacc p.1 p.2)
      (sortedK_cons hsps)
    rw [show (p :: t).foldl (fun E2 p2 => ains E2 p2.1 p2.2) acc
      = t.foldl (fun E2 p2 => ains E2 p2.1 p2.2) (ains acc p.1 p.2)
      from rfl]
    rw [ih2]
    obtain ⟨k1, v1⟩ := p
    by_cases hq : q = k1
    · subst hq
      have htq : alook t q = none :=
        alook_eq_none_of_lt fun r hr => sortedK_head hsps r hr
      rw [htq]
      rw [alook_ains]
      simp [alook]
    · have hra : alook (ains acc k1 v1) q = alook acc q := by
        rw [alook_ains, if_neg hq]
      rw [hra]
      simp only [alook]
      rw [if_neg hq]

theorem sortedK_foldl_ains :
    ∀ (ps acc : List (String × List Nat)), SortedK acc →
      SortedK (ps.foldl (fun E2 p => ains E2 p.1 p.2) acc) := by
  intro ps
  induction ps with
  | nil => intro acc h; exact h
  | cons p t ihp =>
    intro acc h
    exact ihp (ains acc p.1 p.2) (sortedK_ains acc h p.1 p.2)

/-- Re-inserting all entries of a sorted leaf into the singleton map of a
fresh key yields exactly the extended leaf content. -/
theorem foldl_ains_fresh {G : List (String × List Nat)} (hsG : SortedK G)
    {k : String} (hfresh : alook G k = none) (v : List Nat) :
    G.foldl (fun E2 p => ains E2 p.1 p.2) [(k, v)] = ains G k v := by
  have hs1 : SortedK [(k, v)] := by simp [SortedK]
  apply sorted_ext _ _ (sortedK_foldl_ains G [(k, v)] hs1)
    (sortedK_ains G hsG k v)
  intro q
  rw [alook_foldl_ains G [(k, v)] q hs1 hsG, alook_ains]
  by_cases hqk : q = k
  · subst hqk
    rw [hfresh, if_pos rfl]
    simp [alook]
  · rw [if_neg hqk]
    cases hq : alook G q with
    | none =>
      simp only [alook]
      rw [if_neg hqk]
    | some v2 => rfl

end Hamt

namespace Hamt

/-- Inserting a key whose index is already populated rebuilds the same
trie with only that slot replaced. -/
theorem buildItems_update {pa : String → List Nat} {fuel d : Nat}
    {E : List (String × List Nat)} {its : List (Nat × Item)} {k : String}
    {v : List Nat} {i0 : Nat} (hs : SortedK E)
    (hidx : idxAt pa d k = some i0)
    (hb : buildItems pa fuel d E = some its)
    (hm : i0 ∈ idxListOf pa d E) {s2 : Item}
    (hslot2 : slotFor pa fuel d (ains (groupOf pa d i0 E) k v) = some s2) :
    buildItems pa fuel d (ains E k v) = some (ains its i0 s2) := by
  obtain ⟨hkeys, hsK, hall, hlook⟩ := buildItems_spec hb
  have hall2 : ∀ e ∈ ains E k v, (idxAt pa d e.1).isSome = true := by
    intro q hq
    rcases mem_ains hq with h | h
    · rw [h]
      simp [hidx]
    · exact hall q h
  rw [buildItems_eq, if_neg (by simp [not_any_isNone hall2])]
  rw [idxListOf_ains hs v hidx, insNat_mem_id (sorted_idxListOf pa d E) hm]
  have hbs : buildSlots pa fuel d (idxListOf pa d E) E = some its := by
    rw [buildItems_eq] at hb
    rwa [if_neg (by simp [not_any_isNone hall])] at hb
  apply buildSlots_update pa fuel d _ E _ its i0 s2
    (sorted_idxListOf pa d E) hm hbs
  · intro i hi hne
    have hcond : ¬ idxAt pa d k = some i := by
      rw [hidx]
      intro hh
      exact hne (Option.some.inj hh).symm
    rw [groupOf_ains hs, if_neg hcond]
  · rw [groupOf_ains hs, if_pos hidx]
    exact hslot2

/-- Inserting a key into a previously empty index adds exactly one slot. -/
theorem buildItems_insert_slot {pa : String → List Nat} {fuel d : Nat}
    {E : List (String × List Nat)} {its : List (Nat × Item)} {k : String}
    {v : List Nat} {i0 : Nat} (hs : SortedK E)
    (hidx : idxAt pa d k = some i0)
    (hb : buildItems pa fuel d E = some its)
    (hnm : i0 ∉ idxListOf pa d E) {s2 : Item}
    (hslot2 : slotFor pa fuel d (ains (groupOf pa d i0 E) k v) = some s2) :
    buildItems pa fuel d (ains E k v) = some (ains its i0 s2) := by
  obtain ⟨hkeys, hsK, hall, hlook⟩ := buildItems_spec hb
  have hall2 : ∀ e ∈ ains E k v, (idxAt pa d e.1).isSome = true := by
    intro q hq
    rcases mem_ains hq with h | h
    · rw [h]
      simp [hidx]
    · exact hall q h
  rw [buildItems_eq, if_neg (by simp [not_any_isNone hall2])]
  rw [idxListOf_ains hs v hidx]
  have hbs : buildSlots pa fuel d (idxListOf pa d E) E = some its := by
    rw [buildItems_eq] at hb
    rwa [if_neg (by simp [not_any_isNone hall])] at hb
  apply buildSlots_insert pa fuel d _ E _ its i0 s2
    (sorted_idxListOf pa d E) hnm hbs
  · intro i hi
    have hcond : ¬ idxAt pa d k = some i := by
      rw [hidx]
      intro hh
      apply hnm
      rw [Option.some.inj hh]
      exact hi
    rw [groupOf_ains hs, if_neg hcond]
  · rw [groupOf_ains hs, if_pos hidx]
    exact hslot2

end Hamt

namespace Hamt

/-- The leaf-split re-insertion loop: under the inner-level canonicity of
`setGo` (hypothesis `hset1`), `setList` folds the old leaf entries into the
canonical child, entry by entry. -/
theorem setList_build (store : Nat → Option (List (Nat × Item)))
    (sha : String → List Nat) (w : Nat) {L : Nat}
    (hL : ∀ k2, (paOf sha w k2).length = L) (hw : 0 < w)
    (fuel2 d2 : Nat) (hfd : fuel2 + d2 = L) (hd2 : 1 ≤ d2)
    (hset1 : ∀ E its k v its2, SortedK E →
      buildItems (paOf sha w) fuel2 d2 E = some its →
      setGo store sha w fuel2 its ((paOf sha w k).drop d2) k v
        = (its2, none) →
      buildItems (paOf sha w) fuel2 d2 (ains E k v) = some its2) :
    ∀ (ps E0 : List (String × List Nat)) (its0 c1 : List (Nat × Item)),
      SortedK E0 →
      buildItems (paOf sha w) fuel2 d2 E0 = some its0 →
      setList store sha w fuel2 (fuel2 + 1) its0 ps = (c1, none) →
      buildItems (paOf sha w) fuel2 d2
        (ps.foldl (fun E2 p => ains E2 p.1 p.2) E0) = some c1 := by
  intro ps
  induction ps with
  | nil =>
    intro E0 its0 c1 hs0 hb0 hsl
    simp only [setList] at hsl
    have h1 : its0 = c1 := congrArg Prod.fst hsl
    rw [show ([] : List (String × List Nat)).foldl
      (fun E2 p => ains E2 p.1 p.2) E0 = E0 from rfl]
    rw [← h1]
    exact hb0
  | cons p t ihp =>
    intro E0 its0 c1 hs0 hb0 hsl
    obtain ⟨k2, v2⟩ := p
    have hkti : keyToIndicesFrom (sha k2) w (fuel2 + 1)
        = (paOf sha w k2).drop d2 := by
      have hlen : maxBits (sha k2) w / w = L := by
        have h2 := hL k2
        unfold paOf at h2
        rw [keyToIndicesAll_length] at h2
        exact h2
      rw [kti_from_drop (sha k2) w hw (fuel2 + 1) (by omega)
        (by rw [hlen]; omega)]
      rw [hlen]
      congr 1
      omega
    simp only [setList, hkti] at hsl
    cases hr : setGo store sha w fuel2 its0 ((paOf sha w k2).drop d2) k2 v2
      with
    | mk c e =>
      cases e with
      | some e2 =>
        simp only [hr] at hsl
        exact absurd (congrArg Prod.snd hsl) (by simp)
      | none =>
        simp only [hr] at hsl
        have hbc := hset1 E0 its0 k2 v2 c hs0 hb0 hr
        have hrest := ihp (ains E0 k2 v2) c c1
          (sortedK_ains E0 hs0 k2 v2) hbc hsl
        exact hrest

end Hamt

namespace Hamt

/-- `Hamt::set` preserves canonicity: a successful `setGo` on the canonical
trie of `E` yields the canonical trie of `E` with the key inserted. -/
theorem set_build (store : Nat → Option (List (Nat × Item)))
    (sha : String → List Nat) (w : Nat) {L : Nat}
    (hL : ∀ k2, (paOf sha w k2).length = L) (hw : 0 < w) :
    ∀ fuel d E its k v its2,
      fuel + d = L → d < L → SortedK E →
      buildItems (paOf sha w) fuel d E = some its →
      setGo store sha w fuel its ((paOf sha w k).drop d) k v
        = (its2, none) →
      buildItems (paOf sha w) fuel d (ains E k v) = some its2 := by
  intro fuel
  induction fuel using Nat.strong_induction_on with
  | _ fuel ihf =>
    intro d E its k v its2 hfd hd hs hb hset
    have hdlen : d < (paOf sha w k).length := by
      rw [hL k]
      exact hd
    have hdrop : (paOf sha w k).drop d
        = (paOf sha w k)[d] :: (paOf sha w k).drop (d + 1) :=
      List.drop_eq_getElem_cons hdlen
    have hidx : idxAt (paOf sha w) d k = some ((paOf sha w k)[d]) := by
      unfold idxAt
      exact List.getElem?_eq_getElem hdlen
    obtain ⟨hkeys, hsK, hall, hlook⟩ := buildItems_spec hb
    rw [hdrop] at hset
    cases fuel with
    | zero => omega
    | succ fuel2 =>
      simp only [setGo] at hset
      cases halk : alook its ((paOf sha w k)[d]) with
      | none =>
        simp only [halk] at hset
        have hits2 : ains its ((paOf sha w k)[d]) (Item.leaf [(k, v)])
            = its2 := congrArg Prod.fst hset
        have hnm : (paOf sha w k)[d] ∉ idxListOf (paOf sha w) d E := by
          intro hm
          obtain ⟨s, _, hl⟩ := hlook _ hm
          rw [halk] at hl
          exact Option.noConfusion hl
        have hgnil : groupOf (paOf sha w) d ((paOf sha w k)[d]) E = [] :=
          groupOf_eq_nil.mpr hnm
        rw [← hits2]
        apply buildItems_insert_slot hs hidx hb hnm
        rw [hgnil]
        simp [slotFor, ains, kLeafMax]
      | some s =>
        have hm : (paOf sha w k)[d] ∈ idxListOf (paOf sha w) d E := by
          have h1 : ((paOf sha w k)[d], s) ∈ its := alook_mem halk
          have h2 : (paOf sha w k)[d] ∈ its.map Prod.fst :=
            List.mem_map.mpr ⟨_, h1, rfl⟩
          rw [hkeys] at h2
          exact h2
        obtain ⟨s0, hslot0, halk0⟩ := hlook _ hm
        rw [halk] at halk0
        have hss := Option.some.inj halk0
        subst hss
        simp only [slotFor] at hslot0
        by_cases hG : (groupOf (paOf sha w) d ((paOf sha w k)[d]) E).length
            ≤ kLeafMax
        · rw [if_pos hG] at hslot0
          have hsl := Option.some.inj hslot0
          subst hsl
          simp only [halk] at hset
          by_cases hcond :
              (alook (groupOf (paOf sha w) d ((paOf sha w k)[d]) E) k).isSome
                = true
              ∨ (groupOf (paOf sha w) d ((paOf sha w k)[d]) E).length
                < kLeafMax
          · rw [if_pos hcond] at hset
            have hits2 : ains its ((paOf sha w k)[d])
                (Item.leaf
                  (ains (groupOf (paOf sha w) d ((paOf sha w k)[d]) E) k v))
                = its2 := congrArg Prod.fst hset
            rw [← hits2]
            apply buildItems_update hs hidx hb hm
            have hlen2 :
                (ains (groupOf (paOf sha w) d ((paOf sha w k)[d]) E) k
                  v).length ≤ kLeafMax := by
              rw [ains_length _ (sortedK_groupOf hs) k v]
              rcases hcond with h | h
              · rw [if_pos h]
                exact hG
              · by_cases hsome :
                    (alook (groupOf (paOf sha w) d ((paOf sha w k)[d]) E)
                      k).isSome = true
                · rw [if_pos hsome]
                  exact hG
                · rw [if_neg hsome]
                  omega
            simp only [slotFor]
            rw [if_pos hlen2]
          · rw [if_neg hcond] at hset
            push_neg at hcond
            obtain ⟨hfreshB, hlenG⟩ := hcond
            have hfresh :
                alook (groupOf (paOf sha w) d ((paOf sha w k)[d]) E) k
                  = none := by
              cases hx :
                  alook (groupOf (paOf sha w) d ((paOf sha w k)[d]) E) k with
              | none => rfl
              | some vv =>
                rw [hx] at hfreshB
                simp at hfreshB
            have hfuel2 : 0 < fuel2 := by
              by_contra hc
              have hf0 : fuel2 = 0 := by omega
              subst hf0
              have hrest : (paOf sha w k).drop (d + 1) = [] :=
                List.eq_nil_of_length_eq_zero
                  (by rw [List.length_drop, hL k]; omega)
              rw [hrest] at hset
              simp only [setGo] at hset
              exact absurd (congrArg Prod.snd hset) (by simp)
            have hd2 : d + 1 < L := by omega
            have hrl : ((paOf sha w k).drop (d + 1)).length = fuel2 := by
              rw [List.length_drop, hL k]
              omega
            rw [hrl] at hset
            cases hr0 : setGo store sha w fuel2 []
                ((paOf sha w k).drop (d + 1)) k v with
            | mk c0 e0 =>
              cases e0 with
              | some e2 =>
                simp only [hr0] at hset
                exact absurd (congrArg Prod.snd hset) (by simp)
              | none =>
                simp only [hr0] at hset
                cases hr1 : setList store sha w fuel2 (fuel2 + 1) c0
                    (groupOf (paOf sha w) d ((paOf sha w k)[d]) E) with
                | mk c1 e1 =>
                  cases e1 with
                  | some e2 =>
                    simp only [hr1] at hset
                    exact absurd (congrArg Prod.snd hset) (by simp)
                  | none =>
                    simp only [hr1] at hset
                    have hits2 : ains its ((paOf sha w k)[d]) (Item.node c1)
                        = its2 := congrArg Prod.fst hset
                    rw [← hits2]
                    apply buildItems_update hs hidx hb hm
                    have hset1 : ∀ E2 its3 k2 v2 its4, SortedK E2 →
                        buildItems (paOf sha w) fuel2 (d + 1) E2 = some its3 →
                        setGo store sha w fuel2 its3
                          ((paOf sha w k2).drop (d + 1)) k2 v2
                          = (its4, none) →
                        buildItems (paOf sha w) fuel2 (d + 1)
                          (ains E2 k2 v2) = some its4 :=
                      fun E2 its3 k2 v2 its4 hsE hbE hsetE =>
                        ihf fuel2 (Nat.lt_succ_self _) (d + 1) E2 its3 k2 v2
                          its4 (by omega) hd2 hsE hbE hsetE
                    have hc0 : buildItems (paOf sha w) fuel2 (d + 1)
                        (ains [] k v) = some c0 :=
                      hset1 [] [] k v c0 sortedK_nil
                        (buildItems_nil (paOf sha w) fuel2 (d + 1)) hr0
                    have hc1 := setList_build store sha w hL hw fuel2 (d + 1)
                      (by omega) (by omega) hset1
                      (groupOf (paOf sha w) d ((paOf sha w k)[d]) E)
                      (ains [] k v) c0 c1
                      (sortedK_ains [] sortedK_nil k v) hc0 hr1
                    rw [show ains ([] : List (String × List Nat)) k v
                      = [(k, v)] from rfl] at hc1
                    rw [foldl_ains_fresh (sortedK_groupOf hs) hfresh v]
                      at hc1
                    have hlen4 :
                        ¬ (ains (groupOf (paOf sha w) d ((paOf sha w k)[d]) E)
                          k v).length ≤ kLeafMax := by
                      rw [ains_length _ (sortedK_groupOf hs) k v]
                      rw [if_neg (by rw [hfresh]; simp)]
                      omega
                    simp only [slotFor]
                    rw [if_neg hlen4, hc1]
                    rfl
        · rw [if_neg hG] at hslot0
          cases hbc : buildItems (paOf sha w) fuel2 (d + 1)
              (groupOf (paOf sha w) d ((paOf sha w k)[d]) E) with
          | none =>
            rw [hbc] at hslot0
            exact Option.noConfusion hslot0
          | some cits =>
            rw [hbc] at hslot0
            simp only [Option.map_some'] at hslot0
            have hsl := Option.some.inj hslot0
            subst hsl
            simp only [halk] at hset
            cases hr : setGo store sha w fuel2 cits
                ((paOf sha w k).drop (d + 1)) k v with
            | mk c e =>
              simp only [hr] at hset
              have he : e = none := congrArg Prod.snd hset
              subst he
              have hits2 : ains its ((paOf sha w k)[d]) (Item.node c)
                  = its2 := congrArg Prod.fst hset
              have hGne : groupOf (paOf sha w) d ((paOf sha w k)[d]) E
                  ≠ [] := by
                intro hh
                rw [hh] at hG
                simp [kLeafMax] at hG
              have hd2 : d + 1 < L := depth_succ_lt hL hbc hGne
              have hcrec := ihf fuel2 (Nat.lt_succ_self _) (d + 1) _ cits k v
                c (by omega) hd2 (sortedK_groupOf hs) hbc hr
              rw [← hits2]
              apply buildItems_update hs hidx hb hm
              have hlen4 :
                  ¬ (ains (groupOf (paOf sha w) d ((paOf sha w k)[d]) E) k
                    v).length ≤ kLeafMax := by
                rw [ains_length _ (sortedK_groupOf hs) k v]
                by_cases hx :
                    (alook (groupOf (paOf sha w) d ((paOf sha w k)[d]) E)
                      k).isSome = true
                · rw [if_pos hx]
                  exact hG
                · rw [if_neg hx]
                  intro hc
                  exact hG (by omega)
              simp only [slotFor]
              rw [if_neg hlen4, hcrec]
              rfl

end Hamt

section AssocMore3

variable {K : Type} {V : Type} [LinearOrder K]

theorem aemp_length (l : List (K × V)) (hs : SortedK l) (k : K) (v : V) :
    (aemp l k v).length
      = if (alook l k).isSome then l.length else l.length + 1 := by
  induction l with
  | nil => simp [aemp, alook]
  | cons p t ih =>
    obtain ⟨k0, v0⟩ := p
    by_cases h1 : k < k0
    · have hnone : alook ((k0, v0) :: t) k = none := by
        apply alook_eq_none_of_lt
        intro q hq
        rcases List.mem_cons.mp hq with h | h
        · subst h
          exact h1
        · exact h1.trans (sortedK_head hs q h)
      simp [aemp, if_pos h1, hnone]
    · by_cases h2 : k = k0
      · simp [aemp, alook, if_neg h1, if_pos h2, h2]
      · simp only [aemp, if_neg h1, if_neg h2, alook, List.length_cons]
        rw [ih (sortedK_cons hs)]
        by_cases h3 : (alook t k).isSome <;> simp [h3]

end AssocMore3

namespace Hamt

/-- The leaf content of an item (empty for non-leaves). -/
def leafOf : Item → List (String × List Nat)
  | .leaf l => l
  | _ => []

/-- Lookup of a key across the leaves of an item list, in order. -/
def lookLeaves : List (Nat × Item) → String → Option (List Nat)
  | [], _ => none
  | p :: t, q =>
    match alook (leafOf p.2) q with
    | some v => some v
    | none => lookLeaves t q

theorem empBound_ok :
    ∀ (l acc : List (String × List Nat)), SortedK acc → SortedK l →
      (∀ q ∈ l, alook acc q.1 = none) →
      acc.length + l.length ≤ kLeafMax →
      ∃ m, empBound acc l = some m ∧ SortedK m
        ∧ m.length = acc.length + l.length
        ∧ ∀ q, alook m q
            = match alook acc q with
              | some v => some v
              | none => alook l q := by
  intro l
  induction l with
  | nil =>
    intro acc hsacc _ _ _
    refine ⟨acc, rfl, hsacc, by simp, ?_⟩
    intro q
    cases h : alook acc q <;> rfl
  | cons p t ih =>
    intro acc hsacc hsl hfresh hlen
    obtain ⟨k1, v1⟩ := p
    have hk1 : alook acc k1 = none := hfresh (k1, v1) (List.mem_cons_self _ _)
    have hlen2 : (aemp acc k1 v1).length = acc.length + 1 := by
      simp [aemp_length acc hsacc k1 v1, hk1]
    have hnb : ¬ (aemp acc k1 v1).length > kLeafMax := by
      rw [hlen2]
      simp only [kLeafMax, List.length_cons] at hlen ⊢
      omega
    have hfresh2 : ∀ q ∈ t, alook (aemp acc k1 v1) q.1 = none := by
      intro q hq
      rw [alook_aemp acc hsacc k1 v1 q.1]
      have hqk1 : q.1 ≠ k1 := by
        have hlt := sortedK_head hsl q hq
        exact fun hh => absurd (hh ▸ hlt) (lt_irrefl _)
      rw [if_neg hqk1]
      exact hfresh q (List.mem_cons_of_mem _ hq)
    obtain ⟨m, hm, hsm, hlm, hlkm⟩ := ih (aemp acc k1 v1)
      (sortedK_aemp acc hsacc k1 v1) (sortedK_cons hsl) hfresh2
      (by rw [hlen2]; simp only [List.length_cons] at hlen; omega)
    refine ⟨m, ?_, hsm, ?_, ?_⟩
    · simp only [empBound]
      rw [if_neg hnb]
      exact hm
    · rw [hlm, hlen2]
      simp only [List.length_cons]
      omega
    · intro q
      rw [hlkm q, alook_aemp acc hsacc k1 v1 q]
      by_cases hq : q = k1
      · subst hq
        rw [if_pos rfl, hk1]
        simp [alook]
      · rw [if_neg hq]
        cases hacc : alook acc q with
        | some v => rfl
        | none =>
          simp only [alook]
          rw [if_neg hq]

theorem empBound_fail :
    ∀ (l acc : List (String × List Nat)), SortedK acc → SortedK l →
      (∀ q ∈ l, alook acc q.1 = none) →
      acc.length ≤ kLeafMax → kLeafMax < acc.length + l.length →
      empBound acc l = none := by
  intro l
  induction l with
  | nil =>
    intro acc _ _ _ hle hlt
    simp only [kLeafMax, List.length_nil] at hle hlt
    omega
  | cons p t ih =>
    intro acc hsacc hsl hfresh hle hlt
    obtain ⟨k1, v1⟩ := p
    have hk1 : alook acc k1 = none := hfresh (k1, v1) (List.mem_cons_self _ _)
    have hlen2 : (aemp acc k1 v1).length = acc.length + 1 := by
      simp [aemp_length acc hsacc k1 v1, hk1]
    by_cases hnb : (aemp acc k1 v1).length > kLeafMax
    · simp only [empBound]
      rw [if_pos hnb]
    · simp only [empBound]
      rw [if_neg hnb]
      have hfresh2 : ∀ q ∈ t, alook (aemp acc k1 v1) q.1 = none := by
        intro q hq
        rw [alook_aemp acc hsacc k1 v1 q.1]
        have hqk1 : q.1 ≠ k1 := by
          have hlt2 := sortedK_head hsl q hq
          exact fun hh => absurd (hh ▸ hlt2) (lt_irrefl _)
        rw [if_neg hqk1]
        exact hfresh q (List.mem_cons_of_mem _ hq)
      apply ih (aemp acc k1 v1) (sortedK_aemp acc hsacc k1 v1)
        (sortedK_cons hsl) hfresh2
      · rw [hlen2]
        simp only [kLeafMax] at hnb ⊢
        omega
      · rw [hlen2]
        simp only [List.length_cons, kLeafMax] at hlt ⊢
        omega

end Hamt

namespace Hamt

theorem collect_none_nonleaf :
    ∀ (cits : List (Nat × Item)) (acc : List (String × List Nat)),
      (∃ p ∈ cits, ∀ l2, p.2 ≠ Item.leaf l2) →
      collectLeaves cits acc = none := by
  intro cits
  induction cits with
  | nil =>
    intro acc h
    obtain ⟨p, hp, _⟩ := h
    simp at hp
  | cons p t ihc =>
    intro acc h
    obtain ⟨i1, s1⟩ := p
    cases s1 with
    | leaf l1 =>
      obtain ⟨p2, hp2, hnl⟩ := h
      rcases List.mem_cons.mp hp2 with hh | hh
      · exfalso
        apply hnl l1
        rw [hh]
      · simp only [collectLeaves]
        cases hemp : empBound acc l1 with
        | none => rfl
        | some acc2 => exact ihc acc2 ⟨p2, hh, hnl⟩
    | cid c => rfl
    | node its2 => rfl

theorem collect_ok :
    ∀ (cits : List (Nat × Item)) (acc : List (String × List Nat)),
      SortedK acc →
      (∀ p ∈ cits, ∃ l2, p.2 = Item.leaf l2 ∧ SortedK l2) →
      (∀ p ∈ cits, ∀ k2 v2, alook (leafOf p.2) k2 = some v2 →
        alook acc k2 = none) →
      cits.Pairwise (fun p1 p2 => ∀ k2 v2,
        alook (leafOf p2.2) k2 = some v2 → alook (leafOf p1.2) k2 = none) →
      acc.length + countItems cits ≤ kLeafMax →
      ∃ m, collectLeaves cits acc = some m ∧ SortedK m
        ∧ m.length = acc.length + countItems cits
        ∧ ∀ q, alook m q
            = match alook acc q with
              | some v => some v
              | none => lookLeaves cits q := by
  intro cits
  induction cits with
  | nil =>
    intro acc hsacc _ _ _ _
    refine ⟨acc, rfl, hsacc, by simp [countItems], ?_⟩
    intro q
    cases h : alook acc q <;> rfl
  | cons p t ihc =>
    intro acc hsacc hleaf hfresh hdisj hlen
    obtain ⟨i1, s1⟩ := p
    obtain ⟨l1, hl1, hsl1⟩ := hleaf (i1, s1) (List.mem_cons_self _ _)
    have hs1 : s1 = Item.leaf l1 := hl1
    subst hs1
    have hfr1 : ∀ q ∈ l1, alook acc q.1 = none := by
      intro q hq
      exact hfresh (i1, Item.leaf l1) (List.mem_cons_self _ _) q.1 q.2
        (mem_alook hsl1 (by rw [show (q.1, q.2) = q from rfl]; exact hq))
    obtain ⟨acc2, hemp, hsacc2, hlacc2, hlkacc2⟩ := empBound_ok l1 acc hsacc
      hsl1 hfr1
      (by simp only [countItems, countItem, kLeafMax] at hlen ⊢; omega)
    have hfresh2 : ∀ p2 ∈ t, ∀ k2 v2, alook (leafOf p2.2) k2 = some v2 →
        alook acc2 k2 = none := by
      intro p2 hp2 k2 v2 hlk
      rw [hlkacc2 k2]
      have h1 : alook acc k2 = none :=
        hfresh p2 (List.mem_cons_of_mem _ hp2) k2 v2 hlk
      have h2 : alook l1 k2 = none :=
        (List.pairwise_cons.mp hdisj).1 p2 hp2 k2 v2 hlk
      simp only [h1, h2, leafOf]
    obtain ⟨m, hcl, hsm, hlm, hlkm⟩ := ihc acc2 hsacc2
      (fun p2 hp2 => hleaf p2 (List.mem_cons_of_mem _ hp2)) hfresh2
      (List.pairwise_cons.mp hdisj).2
      (by rw [hlacc2]
          simp only [countItems, countItem, kLeafMax] at hlen ⊢
          omega)
    refine ⟨m, ?_, hsm, ?_, ?_⟩
    · simp only [collectLeaves, hemp]
      exact hcl
    · rw [hlm, hlacc2]
      simp only [countItems, countItem]
      omega
    · intro q
      rw [hlkm q, hlkacc2 q]
      cases hacc : alook acc q with
      | some v => rfl
      | none =>
        cases hl1q : alook l1 q with
        | some v => simp [lookLeaves, leafOf, hl1q]
        | none => simp [lookLeaves, leafOf, hl1q]

theorem collect_fail :
    ∀ (cits : List (Nat × Item)) (acc : List (String × List Nat)),
      SortedK acc →
      (∀ p ∈ cits, ∃ l2, p.2 = Item.leaf l2 ∧ SortedK l2) →
      (∀ p ∈ cits, ∀ k2 v2, alook (leafOf p.2) k2 = some v2 →
        alook acc k2 = none) →
      cits.Pairwise (fun p1 p2 => ∀ k2 v2,
        alook (leafOf p2.2) k2 = some v2 → alook (leafOf p1.2) k2 = none) →
      acc.length ≤ kLeafMax →
      kLeafMax < acc.length + countItems cits →
      collectLeaves cits acc = none := by
  intro cits
  induction cits with
  | nil =>
    intro acc _ _ _ _ hle hlt
    simp only [countItems, kLeafMax] at hle hlt
    omega
  | cons p t ihc =>
    intro acc hsacc hleaf hfresh hdisj hle hlt
    obtain ⟨i1, s1⟩ := p
    obtain ⟨l1, hl1, hsl1⟩ := hleaf (i1, s1) (List.mem_cons_self _ _)
    have hs1 : s1 = Item.leaf l1 := hl1
    subst hs1
    have hfr1 : ∀ q ∈ l1, alook acc q.1 = none := by
      intro q hq
      exact hfresh (i1, Item.leaf l1) (List.mem_cons_self _ _) q.1 q.2
        (mem_alook hsl1 (by rw [show (q.1, q.2) = q from rfl]; exact hq))
    by_cases hsplit : acc.length + l1.length ≤ kLeafMax
    · obtain ⟨acc2, hemp, hsacc2, hlacc2, hlkacc2⟩ :=
        empBound_ok l1 acc hsacc hsl1 hfr1 hsplit
      have hfresh2 : ∀ p2 ∈ t, ∀ k2 v2, alook (leafOf p2.2) k2 = some v2 →
          alook acc2 k2 = none := by
        intro p2 hp2 k2 v2 hlk
        rw [hlkacc2 k2]
        have h1 : alook acc k2 = none :=
          hfresh p2 (List.mem_cons_of_mem _ hp2) k2 v2 hlk
        have h2 : alook l1 k2 = none :=
          (List.pairwise_cons.mp hdisj).1 p2 hp2 k2 v2 hlk
        simp only [h1, h2, leafOf]
      simp only [collectLeaves, hemp]
      apply ihc acc2 hsacc2
        (fun p2 hp2 => hleaf p2 (List.mem_cons_of_mem _ hp2)) hfresh2
        (List.pairwise_cons.mp hdisj).2
      · rw [hlacc2]
        exact hsplit
      · rw [hlacc2]
        simp only [countItems, countItem, kLeafMax] at hlt ⊢
        omega
    · have hemp : empBound acc l1 = none :=
        empBound_fail l1 acc hsacc hsl1 hfr1 hle
          (by simp only [kLeafMax] at hsplit ⊢; omega)
      simp only [collectLeaves, hemp]

end Hamt

namespace Hamt

theorem countItems_ge_length :
    ∀ its : List (Nat × Item), (∀ p ∈ its, 1 ≤ countItem p.2) →
      its.length ≤ countItems its := by
  intro its
  induction its with
  | nil =>
    intro _
    simp [countItems]
  | cons p t ih =>
    intro h
    obtain ⟨i, s⟩ := p
    have h1 := h (i, s) (List.mem_cons_self _ _)
    have h2 := ih fun q hq => h q (List.mem_cons_of_mem _ hq)
    simp only [countItems, List.length_cons]
    simp only [] at h1
    omega

/-- When every group fits in a leaf, each built slot is exactly the leaf of
its group. -/
theorem slots_leaf_shape {pa : String → List Nat} {fuel d2 : Nat}
    {E2 : List (String × List Nat)} {cits : List (Nat × Item)}
    (hb : buildItems pa fuel d2 E2 = some cits)
    (hsmall : ∀ i, (groupOf pa d2 i E2).length ≤ kLeafMax) :
    ∀ p ∈ cits, p.2 = Item.leaf (groupOf pa d2 p.1 E2) := by
  obtain ⟨hkeys, hsK, hall, hlook⟩ := buildItems_spec hb
  intro p hp
  have hpm : p.1 ∈ idxListOf pa d2 E2 := by
    rw [← hkeys]
    exact List.mem_map.mpr ⟨p, hp, rfl⟩
  obtain ⟨s, hslot, hal⟩ := hlook p.1 hpm
  have hpa2 : alook cits p.1 = some p.2 :=
    mem_alook hsK (by rw [show (p.1, p.2) = p from rfl]; exact hp)
  rw [hpa2] at hal
  have hps := Option.some.inj hal
  cases fuel with
  | zero =>
    simp only [slotFor] at hslot
    rw [if_pos (hsmall p.1)] at hslot
    rw [hps]
    exact (Option.some.inj hslot).symm
  | succ f2 =>
    simp only [slotFor] at hslot
    rw [if_pos (hsmall p.1)] at hslot
    rw [hps]
    exact (Option.some.inj hslot).symm

/-- A canonical single-slot node holds all entries in that one group. -/
theorem single_slot_group {pa : String → List Nat} {fuel d2 : Nat}
    {E2 : List (String × List Nat)} {i : Nat} {s : Item}
    (hb : buildItems pa fuel d2 E2 = some [(i, s)]) :
    groupOf pa d2 i E2 = E2 := by
  obtain ⟨hkeys, _, hall, _⟩ := buildItems_spec hb
  unfold groupOf
  apply List.filter_eq_self.mpr
  intro e he
  have hsome := hall e he
  cases hx : idxAt pa d2 e.1 with
  | none =>
    rw [hx] at hsome
    simp at hsome
  | some j =>
    have hjm : j ∈ idxListOf pa d2 E2 := mem_idxListOf.mpr ⟨e, he, hx⟩
    rw [← hkeys] at hjm
    simp at hjm
    simp [hx, hjm]

theorem built_slots_disjoint {pa : String → List Nat} {d2 : Nat}
    {E2 : List (String × List Nat)} (hs2 : SortedK E2)
    {cits : List (Nat × Item)} (hsK : SortedK cits)
    (hshape : ∀ p ∈ cits, p.2 = Item.leaf (groupOf pa d2 p.1 E2)) :
    cits.Pairwise (fun p1 p2 => ∀ k2 v2,
      alook (leafOf p2.2) k2 = some v2 → alook (leafOf p1.2) k2 = none) := by
  apply List.Pairwise.imp_of_mem ?_ hsK
  intro p1 p2 hp1 hp2 hlt k2 v2 hlk
  rw [hshape p2 hp2] at hlk
  rw [hshape p1 hp1]
  simp only [leafOf] at hlk ⊢
  rw [alook_groupOf hs2] at hlk ⊢
  by_cases hx : idxAt pa d2 k2 = some p2.1
  · rw [if_neg ?_]
    rw [hx]
    intro hh
    have h2 := Option.some.inj hh
    omega
  · rw [if_neg hx] at hlk
    exact Option.noConfusion hlk

theorem lookLeaves_formula {pa : String → List Nat} {d2 : Nat}
    {E2 : List (String × List Nat)} (hs2 : SortedK E2) :
    ∀ (cits : List (Nat × Item)),
      (∀ p ∈ cits, p.2 = Item.leaf (groupOf pa d2 p.1 E2)) →
      (∀ q iq, idxAt pa d2 q = some iq →
        lookLeaves cits q
          = if iq ∈ cits.map Prod.fst then alook E2 q else none)
      ∧ (∀ q, idxAt pa d2 q = none → lookLeaves cits q = none) := by
  intro cits
  induction cits with
  | nil =>
    intro _
    constructor
    · intro q iq _
      simp [lookLeaves]
    · intro q _
      simp [lookLeaves]
  | cons p t ihc =>
    intro hshape
    obtain ⟨ih1, ih2⟩ :=
      ihc fun p2 hp3 => hshape p2 (List.mem_cons_of_mem _ hp3)
    have hp2 : p.2 = Item.leaf (groupOf pa d2 p.1 E2) :=
      hshape p (List.mem_cons_self _ _)
    constructor
    · intro q iq hq
      simp only [lookLeaves, hp2, leafOf]
      rw [alook_groupOf hs2]
      by_cases hip : iq = p.1
      · subst hip
        rw [if_pos hq, if_pos (by simp)]
        cases hE : alook E2 q with
        | some v => rfl
        | none =>
          rw [ih1 q p.1 hq]
          by_cases hm : p.1 ∈ t.map Prod.fst
          · rw [if_pos hm, hE]
          · rw [if_neg hm]
      · rw [if_neg (by rw [hq]; intro hh; exact hip (Option.some.inj hh))]
        rw [ih1 q iq hq]
        by_cases hm : iq ∈ t.map Prod.fst
        · rw [if_pos hm, if_pos (by simp [hm])]
        · rw [if_neg hm, if_neg (by simp [hip, hm])]
    · intro q hq
      simp only [lookLeaves, hp2, leafOf]
      rw [alook_groupOf hs2]
      rw [if_neg (by rw [hq]; simp)]
      rw [ih2 q hq]

end Hamt

namespace Hamt

/-- `cleanShard` leaves the canonical node of more than `kLeafMax` entries
unchanged. -/
theorem cleanShard_big {pa : String → List Nat} {fuel d2 : Nat}
    {E2 : List (String × List Nat)} {cits : List (Nat × Item)}
    (hb : buildItems pa fuel d2 E2 = some cits) (hs2 : SortedK E2)
    (hbig : kLeafMax < E2.length) :
    cleanShard (Item.node cits) = Item.node cits := by
  have hcount : countItems cits = E2.length := countItems_build hb
  obtain ⟨hkeys, hsK, hall, hlook⟩ := buildItems_spec hb
  cases cits with
  | nil =>
    exfalso
    simp only [countItems] at hcount
    simp only [kLeafMax] at hbig
    omega
  | cons p1 rest =>
    cases rest with
    | nil =>
      obtain ⟨i1, s1⟩ := p1
      have hgroup : groupOf pa d2 i1 E2 = E2 := single_slot_group hb
      obtain ⟨s, hslot, hal⟩ := hlook i1 (by rw [← hkeys]; simp)
      have hal2 : alook [(i1, s1)] i1 = some s1 := by simp [alook]
      rw [hal2] at hal
      have hs1 := Option.some.inj hal
      subst hs1
      rw [hgroup] at hslot
      cases fuel with
      | zero =>
        simp only [slotFor] at hslot
        rw [if_neg (by simp only [kLeafMax] at hbig ⊢; omega)] at hslot
        exact Option.noConfusion hslot
      | succ f2 =>
        simp only [slotFor] at hslot
        rw [if_neg (by simp only [kLeafMax] at hbig ⊢; omega)] at hslot
        cases hbc : buildItems pa f2 (d2 + 1) E2 with
        | none =>
          rw [hbc] at hslot
          exact Option.noConfusion hslot
        | some cits2 =>
          rw [hbc] at hslot
          simp only [Option.map_some'] at hslot
          have h6 := Option.some.inj hslot
          rw [← h6]
          rfl
    | cons p2 rest2 =>
      by_cases hlen : (p1 :: p2 :: rest2).length ≤ kLeafMax
      · simp only [cleanShard]
        rw [if_pos hlen]
        by_cases hex : ∃ p ∈ p1 :: p2 :: rest2, ∀ l2, p.2 ≠ Item.leaf l2
        · rw [collect_none_nonleaf _ [] hex]
        · push_neg at hex
          have hshape : ∀ p ∈ p1 :: p2 :: rest2,
              p.2 = Item.leaf (groupOf pa d2 p.1 E2) := by
            intro p hp
            obtain ⟨l2, hl2⟩ := hex p hp
            have hpm : p.1 ∈ idxListOf pa d2 E2 := by
              rw [← hkeys]
              exact List.mem_map.mpr ⟨p, hp, rfl⟩
            obtain ⟨s, hslot, hal⟩ := hlook p.1 hpm
            have hal2 : alook (p1 :: p2 :: rest2) p.1 = some p.2 :=
              mem_alook hsK (by rw [show (p.1, p.2) = p from rfl]; exact hp)
            rw [hal2] at hal
            have hps := Option.some.inj hal
            by_cases hsm : (groupOf pa d2 p.1 E2).length ≤ kLeafMax
            · cases fuel with
              | zero =>
                simp only [slotFor] at hslot
                rw [if_pos hsm] at hslot
                rw [hps]
                exact (Option.some.inj hslot).symm
              | succ f2 =>
                simp only [slotFor] at hslot
                rw [if_pos hsm] at hslot
                rw [hps]
                exact (Option.some.inj hslot).symm
            · exfalso
              cases fuel with
              | zero =>
                simp only [slotFor] at hslot
                rw [if_neg hsm] at hslot
                exact Option.noConfusion hslot
              | succ f2 =>
                simp only [slotFor] at hslot
                rw [if_neg hsm] at hslot
                cases hbc : buildItems pa f2 (d2 + 1)
                    (groupOf pa d2 p.1 E2) with
                | none =>
                  rw [hbc] at hslot
                  exact Option.noConfusion hslot
                | some cits2 =>
                  rw [hbc] at hslot
                  simp only [Option.map_some'] at hslot
                  have h5 := Option.some.inj hslot
                  rw [hl2, ← h5] at hps
                  exact Item.noConfusion hps
          have hleaf : ∀ p ∈ p1 :: p2 :: rest2,
              ∃ l2, p.2 = Item.leaf l2 ∧ SortedK l2 :=
            fun p hp => ⟨_, hshape p hp, sortedK_groupOf hs2⟩
          have hdisj := built_slots_disjoint hs2 hsK hshape
          rw [collect_fail _ [] sortedK_nil hleaf
            (fun p hp k2 v2 h => rfl) hdisj (by simp [kLeafMax])
            (by simpa [hcount] using hbig)]
      · simp only [cleanShard]
        rw [if_neg hlen]

/-- `cleanShard` collapses the canonical node of exactly `kLeafMax`
entries into the single leaf of those entries. -/
theorem cleanShard_collapse {pa : String → List Nat} {fuel d2 : Nat}
    {E2 : List (String × List Nat)} {cits : List (Nat × Item)}
    (hb : buildItems pa fuel d2 E2 = some cits) (hs2 : SortedK E2)
    (hlen3 : E2.length = kLeafMax) :
    cleanShard (Item.node cits) = Item.leaf E2 := by
  have hcount : countItems cits = E2.length := countItems_build hb
  obtain ⟨hkeys, hsK, hall, hlook⟩ := buildItems_spec hb
  have hsmall : ∀ i, (groupOf pa d2 i E2).length ≤ kLeafMax := fun i =>
    le_trans (groupOf_length_le pa d2 i E2) (le_of_eq hlen3)
  have hshape := slots_leaf_shape hb hsmall
  cases cits with
  | nil =>
    exfalso
    simp only [countItems] at hcount
    simp only [kLeafMax] at hlen3
    omega
  | cons q1 rest =>
    cases rest with
    | nil =>
      obtain ⟨i1, s1⟩ := q1
      have hgroup : groupOf pa d2 i1 E2 = E2 := single_slot_group hb
      have hs1 : s1 = Item.leaf (groupOf pa d2 i1 E2) :=
        hshape (i1, s1) (List.mem_cons_self _ _)
      rw [hgroup] at hs1
      rw [hs1]
      rfl
    | cons q2 rest2 =>
      have hone : ∀ p ∈ q1 :: q2 :: rest2, 1 ≤ countItem p.2 := by
        intro p hp
        rw [hshape p hp]
        simp only [countItem]
        have hpm : p.1 ∈ idxListOf pa d2 E2 := by
          rw [← hkeys]
          exact List.mem_map.mpr ⟨p, hp, rfl⟩
        have hgne : groupOf pa d2 p.1 E2 ≠ [] := fun hh =>
          (groupOf_eq_nil.mp hh) hpm
        cases hgc : groupOf pa d2 p.1 E2 with
        | nil => exact absurd hgc hgne
        | cons a b => simp
      have hlencits : (q1 :: q2 :: rest2).length ≤ kLeafMax := by
        have h1 := countItems_ge_length (q1 :: q2 :: rest2) hone
        rw [hcount, hlen3] at h1
        exact h1
      simp only [cleanShard]
      rw [if_pos hlencits]
      have hleaf : ∀ p ∈ q1 :: q2 :: rest2,
          ∃ l2, p.2 = Item.leaf l2 ∧ SortedK l2 :=
        fun p hp => ⟨_, hshape p hp, sortedK_groupOf hs2⟩
      have hdisj := built_slots_disjoint hs2 hsK hshape
      obtain ⟨m, hcl, hsm, hlm, hlkm⟩ := collect_ok _ [] sortedK_nil hleaf
        (fun p hp k2 v2 h => rfl) hdisj
        (by simp only [List.length_nil, Nat.zero_add, hcount, hlen3, le_refl])
      rw [hcl]
      show Item.leaf m = Item.leaf E2
      congr 1
      apply sorted_ext m E2 hsm hs2
      intro q
      rw [hlkm q]
      show lookLeaves (q1 :: q2 :: rest2) q = alook E2 q
      obtain ⟨hfm1, hfm2⟩ := lookLeaves_formula hs2 (q1 :: q2 :: rest2) hshape
      cases hq : idxAt pa d2 q with
      | none =>
        rw [hfm2 q hq]
        cases hEq : alook E2 q with
        | none => rfl
        | some v =>
          exfalso
          have hkm : (q, v) ∈ E2 := alook_mem hEq
          have h2 := hall (q, v) hkm
          rw [show idxAt pa d2 (q, v).1 = idxAt pa d2 q from rfl, hq] at h2
          simp at h2
      | some iq =>
        rw [hfm1 q iq hq]
        by_cases hm : iq ∈ (q1 :: q2 :: rest2).map Prod.fst
        · rw [if_pos hm]
        · rw [if_neg hm]
          cases hEq : alook E2 q with
          | none => rfl
          | some v =>
            exfalso
            have hkm : (q, v) ∈ E2 := alook_mem hEq
            have hg : (q, v) ∈ groupOf pa d2 iq E2 :=
              mem_groupOf.mpr ⟨hkm, hq⟩
            have hiq : iq ∈ idxListOf pa d2 E2 :=
              mem_idxListOf.mpr ⟨(q, v), hkm, hq⟩
            rw [← hkeys] at hiq
            exact hm hiq

end Hamt

namespace Hamt

/-- Erasing a key whose group keeps another member rebuilds the same trie
with only that slot replaced. -/
theorem buildItems_erase_keep {pa : String → List Nat} {fuel d : Nat}
    {E : List (String × List Nat)} {its : List (Nat × Item)} {k : String}
    {i0 : Nat} (hs : SortedK E) (hidx : idxAt pa d k = some i0)
    (hb : buildItems pa fuel d E = some its)
    (hm : i0 ∈ idxListOf pa d E)
    (hother : ∃ q ∈ E, q.1 ≠ k ∧ idxAt pa d q.1 = idxAt pa d k)
    {s2 : Item}
    (hslot2 : slotFor pa fuel d (aerase (groupOf pa d i0 E) k) = some s2) :
    buildItems pa fuel d (aerase E k) = some (ains its i0 s2) := by
  obtain ⟨hkeys, hsK, hall, hlook⟩ := buildItems_spec hb
  have hall2 : ∀ e ∈ aerase E k, (idxAt pa d e.1).isSome = true :=
    fun q hq => hall q (mem_aerase hq)
  rw [buildItems_eq, if_neg (by simp [not_any_isNone hall2])]
  rw [idxListOf_aerase_keep hs hother]
  have hbs : buildSlots pa fuel d (idxListOf pa d E) E = some its := by
    rw [buildItems_eq] at hb
    rwa [if_neg (by simp [not_any_isNone hall])] at hb
  apply buildSlots_update pa fuel d _ E _ its i0 s2
    (sorted_idxListOf pa d E) hm hbs
  · intro i hi hne
    have hcond : ¬ idxAt pa d k = some i := by
      rw [hidx]
      intro hh
      exact hne (Option.some.inj hh).symm
    rw [groupOf_aerase hs, if_neg hcond]
  · rw [groupOf_aerase hs, if_pos hidx]
    exact hslot2

/-- Erasing the sole member of a group deletes exactly that slot. -/
theorem buildItems_erase_del {pa : String → List Nat} {fuel d : Nat}
    {E : List (String × List Nat)} {its : List (Nat × Item)} {k : String}
    {i0 : Nat} (hs : SortedK E) (hidx : idxAt pa d k = some i0)
    (hb : buildItems pa fuel d E = some its)
    (hm : i0 ∈ idxListOf pa d E)
    (honly : ∀ q ∈ E, idxAt pa d q.1 = some i0 → q.1 = k) :
    buildItems pa fuel d (aerase E k) = some (aerase its i0) := by
  obtain ⟨hkeys, hsK, hall, hlook⟩ := buildItems_spec hb
  have hall2 : ∀ e ∈ aerase E k, (idxAt pa d e.1).isSome = true :=
    fun q hq => hall q (mem_aerase hq)
  rw [buildItems_eq, if_neg (by simp [not_any_isNone hall2])]
  rw [idxListOf_aerase_del hs hidx honly]
  have hbs : buildSlots pa fuel d (idxListOf pa d E) E = some its := by
    rw [buildItems_eq] at hb
    rwa [if_neg (by simp [not_any_isNone hall])] at hb
  apply buildSlots_delete pa fuel d _ E _ its i0
    (sorted_idxListOf pa d E) hm hbs
  intro i hi hne
  have hcond : ¬ idxAt pa d k = some i := by
    rw [hidx]
    intro hh
    exact hne (Option.some.inj hh).symm
  rw [groupOf_aerase hs, if_neg hcond]

end Hamt

namespace Hamt

/-- `Hamt::remove` on a canonical trie: an absent key reports `kNotFound`
with the node map unchanged; a present key is removed and the result is
the canonical trie of the remaining entries (with `cleanShard` collapsing
an underfull child back into a leaf). -/
theorem remove_build (store : Nat → Option (List (Nat × Item)))
    (pa : String → List Nat) {L : Nat} (hL : ∀ k2, (pa k2).length = L) :
    ∀ fuel d E its k,
      fuel + d = L → d < L → SortedK E →
      buildItems pa fuel d E = some its →
      (alook E k = none →
        removeGo store its ((pa k).drop d) k = (its, some .kNotFound))
      ∧ ∀ v, alook E k = some v →
          ∃ its2, buildItems pa fuel d (aerase E k) = some its2
            ∧ removeGo store its ((pa k).drop d) k = (its2, none) := by
  intro fuel
  induction fuel using Nat.strong_induction_on with
  | _ fuel ihf =>
    intro d E its k hfd hd hs hb
    have hdlen : d < (pa k).length := by
      rw [hL k]
      exact hd
    have hdrop : (pa k).drop d = (pa k)[d] :: (pa k).drop (d + 1) :=
      List.drop_eq_getElem_cons hdlen
    have hidx : idxAt pa d k = some ((pa k)[d]) := by
      unfold idxAt
      exact List.getElem?_eq_getElem hdlen
    obtain ⟨hkeys, hsK, hall, hlook⟩ := buildItems_spec hb
    constructor
    · intro hEk
      rw [hdrop]
      by_cases hmem : (pa k)[d] ∈ idxListOf pa d E
      · obtain ⟨s, hslot, halook⟩ := hlook _ hmem
        cases fuel with
        | zero => omega
        | succ fuel2 =>
          simp only [slotFor] at hslot
          have hGk : alook (groupOf pa d ((pa k)[d]) E) k = none := by
            rw [alook_groupOf hs, if_pos hidx]
            exact hEk
          by_cases hG : (groupOf pa d ((pa k)[d]) E).length ≤ kLeafMax
          · rw [if_pos hG] at hslot
            have hsl := Option.some.inj hslot
            subst hsl
            simp only [removeGo, halook, hGk]
          · rw [if_neg hG] at hslot
            cases hbc : buildItems pa fuel2 (d + 1)
                (groupOf pa d ((pa k)[d]) E) with
            | none =>
              rw [hbc] at hslot
              exact Option.noConfusion hslot
            | some cits =>
              rw [hbc] at hslot
              simp only [Option.map_some'] at hslot
              have hsl := Option.some.inj hslot
              subst hsl
              have hGne : groupOf pa d ((pa k)[d]) E ≠ [] := by
                intro hh
                rw [hh] at hG
                simp [kLeafMax] at hG
              have hd2 : d + 1 < L := depth_succ_lt hL hbc hGne
              have hrec := ((ihf fuel2 (Nat.lt_succ_self _) (d + 1) _ cits k
                (by omega) hd2 (sortedK_groupOf hs) hbc).1) hGk
              simp only [removeGo, halook, hrec]
              rw [ains_self its hsK _ _ halook]
      · have hnone : alook its ((pa k)[d]) = none :=
          alook_keys_none hkeys hmem
        simp only [removeGo, hnone]
    · intro v hEk
      rw [hdrop]
      have hkE : (k, v) ∈ E := alook_mem hEk
      have hmem : (pa k)[d] ∈ idxListOf pa d E :=
        mem_idxListOf.mpr ⟨(k, v), hkE, hidx⟩
      obtain ⟨s, hslot, halook⟩ := hlook _ hmem
      cases fuel with
      | zero => omega
      | succ fuel2 =>
        simp only [slotFor] at hslot
        have hGk : alook (groupOf pa d ((pa k)[d]) E) k = some v := by
          rw [alook_groupOf hs, if_pos hidx]
          exact hEk
        have hkG : (k, v) ∈ groupOf pa d ((pa k)[d]) E :=
          mem_groupOf.mpr ⟨hkE, hidx⟩
        by_cases hG : (groupOf pa d ((pa k)[d]) E).length ≤ kLeafMax
        · rw [if_pos hG] at hslot
          have hsl := Option.some.inj hslot
          subst hsl
          by_cases h1 : (groupOf pa d ((pa k)[d]) E).length = 1
          · have honly : ∀ q ∈ E, idxAt pa d q.1 = some ((pa k)[d]) →
                q.1 = k := by
              intro q hq hqi
              have hqG : q ∈ groupOf pa d ((pa k)[d]) E :=
                mem_groupOf.mpr ⟨hq, hqi⟩
              cases hgl : groupOf pa d ((pa k)[d]) E with
              | nil =>
                rw [hgl] at hqG
                simp at hqG
              | cons a b =>
                cases b with
                | nil =>
                  rw [hgl] at hqG hkG
                  simp at hqG hkG
                  rw [hqG, ← hkG]
                | cons a2 b2 =>
                  rw [hgl] at h1
                  simp at h1
            refine ⟨aerase its ((pa k)[d]),
              buildItems_erase_del hs hidx hb hmem honly, ?_⟩
            simp only [removeGo, halook, hGk]
            rw [if_pos h1]
          · have hother : ∃ q ∈ E, q.1 ≠ k
                ∧ idxAt pa d q.1 = idxAt pa d k := by
              have hlen2 : 1 ≤ (aerase (groupOf pa d ((pa k)[d]) E)
                  k).length := by
                rw [aerase_length _ (sortedK_groupOf hs) k,
                  if_pos (by rw [hGk]; rfl)]
                have : 1 ≤ (groupOf pa d ((pa k)[d]) E).length := by
                  cases hgl : groupOf pa d ((pa k)[d]) E with
                  | nil =>
                    rw [hgl] at hkG
                    simp at hkG
                  | cons a b => simp
                omega
              have hne : aerase (groupOf pa d ((pa k)[d]) E) k ≠ [] := by
                intro hh
                rw [hh] at hlen2
                simp at hlen2
              obtain ⟨q, hq⟩ := List.exists_mem_of_ne_nil _ hne
              obtain ⟨hqG, hqk⟩ :=
                (mem_aerase_iff (sortedK_groupOf hs)).mp hq
              obtain ⟨hqE, hqi⟩ := mem_groupOf.mp hqG
              exact ⟨q, hqE, hqk, by rw [hqi, hidx]⟩
            have hslot2 : slotFor pa (fuel2 + 1) d
                (aerase (groupOf pa d ((pa k)[d]) E) k)
                = some (.leaf (aerase (groupOf pa d ((pa k)[d]) E) k)) := by
              simp only [slotFor]
              rw [if_pos ?_]
              rw [aerase_length _ (sortedK_groupOf hs) k,
                if_pos (by rw [hGk]; rfl)]
              simp only [kLeafMax] at hG ⊢
              omega
            refine ⟨ains its ((pa k)[d])
                (.leaf (aerase (groupOf pa d ((pa k)[d]) E) k)),
              buildItems_erase_keep hs hidx hb hmem hother hslot2, ?_⟩
            simp only [removeGo, halook, hGk]
            rw [if_neg h1]
        · rw [if_neg hG] at hslot
          cases hbc : buildItems pa fuel2 (d + 1)
              (groupOf pa d ((pa k)[d]) E) with
          | none =>
            rw [hbc] at hslot
            exact Option.noConfusion hslot
          | some cits =>
            rw [hbc] at hslot
            simp only [Option.map_some'] at hslot
            have hsl := Option.some.inj hslot
            subst hsl
            have hGne : groupOf pa d ((pa k)[d]) E ≠ [] := by
              intro hh
              rw [hh] at hG
              simp [kLeafMax] at hG
            have hd2 : d + 1 < L := depth_succ_lt hL hbc hGne
            obtain ⟨cits2, hbc2, hrg⟩ :=
              ((ihf fuel2 (Nat.lt_succ_self _) (d + 1) _ cits k (by omega)
                hd2 (sortedK_groupOf hs) hbc).2) v hGk
            have hGlen :
                (aerase (groupOf pa d ((pa k)[d]) E) k).length
                  = (groupOf pa d ((pa k)[d]) E).length - 1 := by
              rw [aerase_length _ (sortedK_groupOf hs) k,
                if_pos (by rw [hGk]; rfl)]
            have hother : ∃ q ∈ E, q.1 ≠ k
                ∧ idxAt pa d q.1 = idxAt pa d k := by
              have hne : aerase (groupOf pa d ((pa k)[d]) E) k ≠ [] := by
                intro hh
                rw [hh] at hGlen
                simp only [kLeafMax] at hG
                simp at hGlen
                omega
              obtain ⟨q, hq⟩ := List.exists_mem_of_ne_nil _ hne
              obtain ⟨hqG, hqk⟩ :=
                (mem_aerase_iff (sortedK_groupOf hs)).mp hq
              obtain ⟨hqE, hqi⟩ := mem_groupOf.mp hqG
              exact ⟨q, hqE, hqk, by rw [hqi, hidx]⟩
            by_cases hbig :
                kLeafMax < (aerase (groupOf pa d ((pa k)[d]) E) k).length
            · have hclean := cleanShard_big hbc2
                (sortedK_aerase _ (sortedK_groupOf hs) k) hbig
              have hslot2 : slotFor pa (fuel2 + 1) d
                  (aerase (groupOf pa d ((pa k)[d]) E) k)
                  = some (.node cits2) := by
                simp only [slotFor]
                rw [if_neg (by simp only [kLeafMax] at hbig ⊢; omega), hbc2]
                rfl
              refine ⟨ains its ((pa k)[d]) (.node cits2),
                buildItems_erase_keep hs hidx hb hmem hother hslot2, ?_⟩
              simp only [removeGo, halook, hrg]
              rw [hclean]
            · have h3 : (aerase (groupOf pa d ((pa k)[d]) E) k).length
                  = kLeafMax := by
                simp only [kLeafMax] at hG hbig ⊢
                omega
              have hclean := cleanShard_collapse hbc2
                (sortedK_aerase _ (sortedK_groupOf hs) k) h3
              have hslot2 : slotFor pa (fuel2 + 1) d
                  (aerase (groupOf pa d ((pa k)[d]) E) k)
                  = some (.leaf (aerase (groupOf pa d ((pa k)[d]) E) k))
                  := by
                simp only [slotFor]
                rw [if_pos (le_of_eq h3)]
              refine ⟨ains its ((pa k)[d])
                  (.leaf (aerase (groupOf pa d ((pa k)[d]) E) k)),
                buildItems_erase_keep hs hidx hb hmem hother hslot2, ?_⟩
              simp only [removeGo, halook, hrg]
              rw [hclean]

end Hamt

namespace Hamt

/-- Canonical builds satisfy the canonical-shape predicate: every internal
node stores more than `kLeafMax` entries and is never a hoistable single
leaf. -/
theorem build_good (pa : String → List Nat) : ∀ fuel : Nat,
    (∀ d G s, slotFor pa fuel d G = some s → goodItem s = true)
    ∧ (∀ d it E its, buildSlots pa fuel d it E = some its →
        goodItems its = true)
    ∧ (∀ d E its, buildItems pa fuel d E = some its →
        goodItems its = true) := by
  intro fuel
  induction fuel using Nat.strong_induction_on with
  | _ fuel ih =>
    have hslot : ∀ d G s, slotFor pa fuel d G = some s →
        goodItem s = true := by
      intro d G s hs
      cases fuel with
      | zero =>
        simp only [slotFor] at hs
        by_cases hG : G.length ≤ kLeafMax
        · rw [if_pos hG] at hs
          have h1 := Option.some.inj hs
          subst h1
          rfl
        · rw [if_neg hG] at hs
          exact Option.noConfusion hs
      | succ fuel2 =>
        simp only [slotFor] at hs
        by_cases hG : G.length ≤ kLeafMax
        · rw [if_pos hG] at hs
          have h1 := Option.some.inj hs
          subst h1
          rfl
        · rw [if_neg hG] at hs
          cases hbc : buildItems pa fuel2 (d + 1) G with
          | none =>
            rw [hbc] at hs
            exact Option.noConfusion hs
          | some cits =>
            rw [hbc] at hs
            simp only [Option.map_some'] at hs
            have h1 := Option.some.inj hs
            subst h1
            have hcount : countItems cits = G.length := countItems_build hbc
            have hgood := (ih fuel2 (Nat.lt_succ_self _)).2.2 (d + 1) G cits
              hbc
            have hsingle : isSingleLeaf cits = false := by
              cases cits with
              | nil => rfl
              | cons p1 rest =>
                cases rest with
                | cons p2 rest2 =>
                  obtain ⟨j1, it1⟩ := p1
                  cases it1 <;> rfl
                | nil =>
                  obtain ⟨j, it⟩ := p1
                  cases it with
                  | cid c => rfl
                  | node its2 => rfl
                  | leaf l =>
                    exfalso
                    have hgr : groupOf pa (d + 1) j G = G :=
                      single_slot_group hbc
                    obtain ⟨hkeys2, _, _, hlook2⟩ := buildItems_spec hbc
                    obtain ⟨s2, hslot2, hal2⟩ := hlook2 j
                      (by rw [← hkeys2]; simp)
                    have hal3 : alook [(j, Item.leaf l)] j
                        = some (Item.leaf l) := by simp [alook]
                    rw [hal3] at hal2
                    have h2 := Option.some.inj hal2
                    rw [hgr] at hslot2
                    cases fuel2 with
                    | zero =>
                      simp only [slotFor] at hslot2
                      rw [if_neg hG] at hslot2
                      exact Option.noConfusion hslot2
                    | succ fuel3 =>
                      simp only [slotFor] at hslot2
                      rw [if_neg hG] at hslot2
                      cases hbc2 : buildItems pa fuel3 (d + 1 + 1) G with
                      | none =>
                        rw [hbc2] at hslot2
                        exact Option.noConfusion hslot2
                      | some cits3 =>
                        rw [hbc2] at hslot2
                        simp only [Option.map_some'] at hslot2
                        have h3 := Option.some.inj hslot2
                        rw [← h2] at h3
                        exact Item.noConfusion h3
            simp only [goodItem, hsingle, hgood, hcount]
            simp only [kLeafMax] at hG ⊢
            simp [decide_eq_true_eq]
            omega
    have hslots : ∀ d it E its, buildSlots pa fuel d it E = some its →
        goodItems its = true := by
      intro d it
      induction it with
      | nil =>
        intro E its h
        rw [buildSlots_nil] at h
        have h1 := Option.some.inj h
        subst h1
        rfl
      | cons j t ihs =>
        intro E its h
        rw [buildSlots_cons] at h
        cases h1 : slotFor pa fuel d (groupOf pa d j E) with
        | none =>
          rw [h1] at h
          exact Option.noConfusion h
        | some s =>
          cases h2 : buildSlots pa fuel d t E with
          | none =>
            rw [h1, h2] at h
            exact Option.noConfusion h
          | some rest =>
            rw [h1, h2] at h
            have h3 := Option.some.inj h
            subst h3
            have hg1 := hslot d (groupOf pa d j E) s h1
            have hg2 := ihs E rest h2
            simp [goodItems, hg1, hg2]
    refine ⟨hslot, hslots, ?_⟩
    intro d E its h
    rw [buildItems_eq] at h
    by_cases hany : E.any (fun e => (idxAt pa d e.1).isNone) = true
    · rw [if_pos hany] at h
      exact Option.noConfusion h
    · rw [if_neg hany] at h
      exact hslots d (idxListOf pa d E) E its h

end Hamt

namespace Hamt

/-- One client-visible HAMT operation. -/
inductive HOp where
  | hset (key : String) (value : List Nat)
  | hremove (key : String)

/-- One step of a client operation sequence on (trie, reference map):
a `set` must succeed; a `remove` may succeed or report `kNotFound`; any
other error aborts the run.  The reference map applies the same logical
update. -/
def runStep (store : Nat → Option (List (Nat × Item)))
    (sha : String → List Nat) (w : Nat) :
    List (Nat × Item) × List (String × List Nat) → HOp →
    Option (List (Nat × Item) × List (String × List Nat))
  | (t, m), .hset k v =>
    match hamtSet store sha w t k v with
    | (t2, none) => some (t2, ains m k v)
    | (_, some _) => none
  | (t, m), .hremove k =>
    match hamtRemove store sha w t k with
    | (t2, none) => some (t2, aerase m k)
    | (t2, some .kNotFound) => some (t2, m)
    | (_, some _) => none

/-- Run a sequence of operations from a given (trie, reference map). -/
def runHamt (store : Nat → Option (List (Nat × Item)))
    (sha : String → List Nat) (w : Nat) :
    List HOp → List (Nat × Item) × List (String × List Nat) →
    Option (List (Nat × Item) × List (String × List Nat))
  | [], st => some st
  | op :: t, st =>
    match runStep store sha w st op with
    | none => none
    | some st2 => runHamt store sha w t st2

/-- The run invariant: the trie is the canonical build of the sorted
reference map. -/
theorem runHamt_inv (store : Nat → Option (List (Nat × Item)))
    (sha : String → List Nat) (w : Nat) {L : Nat}
    (hL : ∀ k2, (paOf sha w k2).length = L) (hw : 0 < w) (hL1 : 0 < L) :
    ∀ (ops : List HOp) t0 m0 t m,
      SortedK m0 → buildItems (paOf sha w) L 0 m0 = some t0 →
      runHamt store sha w ops (t0, m0) = some (t, m) →
      SortedK m ∧ buildItems (paOf sha w) L 0 m = some t := by
  intro ops
  induction ops with
  | nil =>
    intro t0 m0 t m hs0 hb0 hrun
    simp only [runHamt] at hrun
    have h1 : t0 = t := congrArg Prod.fst (Option.some.inj hrun)
    have h2 : m0 = m := congrArg Prod.snd (Option.some.inj hrun)
    rw [← h1, ← h2]
    exact ⟨hs0, hb0⟩
  | cons op rest ihr =>
    intro t0 m0 t m hs0 hb0 hrun
    simp only [runHamt] at hrun
    cases op with
    | hset k v =>
      cases hr : hamtSet store sha w t0 k v with
      | mk t2 e =>
        cases e with
        | some e2 =>
          simp only [runStep, hr] at hrun
          exact Option.noConfusion hrun
        | none =>
          simp only [runStep, hr] at hrun
          have hr2 : setGo store sha w L t0 ((paOf sha w k).drop 0) k v
              = (t2, none) := by
            simp only [hamtSet] at hr
            rw [hL k] at hr
            rw [List.drop_zero]
            exact hr
          have hb2 := set_build store sha w hL hw L 0 m0 t0 k v t2
            (by omega) hL1 hs0 hb0 hr2
          exact ihr t2 (ains m0 k v) t m (sortedK_ains m0 hs0 k v) hb2 hrun
    | hremove k =>
      cases hr : hamtRemove store sha w t0 k with
      | mk t2 e =>
        have hr2 : removeGo store t0 ((paOf sha w k).drop 0) k = (t2, e) := by
          simp only [hamtRemove] at hr
          rw [List.drop_zero]
          exact hr
        have hrb := remove_build store (paOf sha w) hL L 0 m0 t0 k
          (by omega) hL1 hs0 hb0
        cases hEk : alook m0 k with
        | none =>
          have h1 := (hr2.symm.trans (hrb.1 hEk))
          have ht2 : t2 = t0 := congrArg Prod.fst h1
          have he : e = some .kNotFound := congrArg Prod.snd h1
          subst he
          simp only [runStep, hr] at hrun
          rw [ht2] at hrun
          exact ihr t0 m0 t m hs0 hb0 hrun
        | some v =>
          obtain ⟨its2, hb2, hrg⟩ := hrb.2 v hEk
          have h1 := (hr2.symm.trans hrg)
          have ht2 : t2 = its2 := congrArg Prod.fst h1
          have he : e = none := congrArg Prod.snd h1
          subst he
          simp only [runStep, hr] at hrun
          rw [ht2] at hrun
          exact ihr its2 (aerase m0 k) t m (sortedK_aerase m0 hs0 k) hb2 hrun

end Hamt

namespace Hamt

/--
C3: for every finite sequence of `Hamt::set` and `Hamt::remove` operations
starting from an empty HAMT (with no storage errors and no MaxDepth, i.e.
every step succeeds or a remove reports `kNotFound`), a final `get(k)`
returns the value of the last successful `set(k, v)` not followed by a
successful `remove(k)` — the value the reference map `m` assigns to `k` —
and fails with `kNotFound` for every other key; and `remove(k)` fails with
`kNotFound` exactly when `k` is absent at the time of the call.
-/
theorem hamt_roundtrip (store : Nat → Option (List (Nat × Item)))
    (sha : String → List Nat) (w L : Nat)
    (hL : ∀ k2, (paOf sha w k2).length = L) (hw : 0 < w) (hL1 : 0 < L)
    (ops : List HOp) (t : List (Nat × Item)) (m : List (String × List Nat))
    (hrun : runHamt store sha w ops ([], []) = some (t, m)) :
    (∀ k, hamtGet store sha w t k
      = match alook m k with
        | some v => .ok v
        | none => .error .kNotFound)
    ∧ ∀ k, (hamtRemove store sha w t k).2 = some .kNotFound
        ↔ alook m k = none := by
  obtain ⟨hsm, hbm⟩ := runHamt_inv store sha w hL hw hL1 ops [] [] t m
    sortedK_nil (buildItems_nil _ _ _) hrun
  constructor
  · intro k
    have hget := get_build store (paOf sha w) hL L 0 m t (by omega) hL1 hsm
      hbm k
    simp only [hamtGet]
    rw [show paOf sha w k = (paOf sha w k).drop 0 from
      (List.drop_zero _).symm]
    exact hget
  · intro k
    have hrb := remove_build store (paOf sha w) hL L 0 m t k (by omega) hL1
      hsm hbm
    constructor
    · intro h2
      cases hEk : alook m k with
      | none => rfl
      | some v =>
        obtain ⟨its2, _, hrg⟩ := hrb.2 v hEk
        simp only [hamtRemove] at h2
        rw [show paOf sha w k = (paOf sha w k).drop 0 from
          (List.drop_zero _).symm] at h2
        rw [hrg] at h2
        simp at h2
    · intro hEk
      have h1 := hrb.1 hEk
      simp only [hamtRemove]
      rw [show paOf sha w k = (paOf sha w k).drop 0 from
        (List.drop_zero _).symm]
      rw [h1]

/--
C5: after every successful `Hamt::remove` (on a trie reachable from the
empty HAMT by any successful operation sequence), the trie is canonical:
no internal node is a single hoistable leaf and no internal subtree stores
at most `kLeafMax` entries (the shape `cleanShard` canonicalizes).
-/
theorem remove_canonical (store : Nat → Option (List (Nat × Item)))
    (sha : String → List Nat) (w L : Nat)
    (hL : ∀ k2, (paOf sha w k2).length = L) (hw : 0 < w) (hL1 : 0 < L)
    (ops : List HOp) (t : List (Nat × Item)) (m : List (String × List Nat))
    (hrun : runHamt store sha w ops ([], []) = some (t, m))
    (k : String) (t2 : List (Nat × Item))
    (hrem : hamtRemove store sha w t k = (t2, none)) :
    goodItems t2 = true := by
  obtain ⟨hsm, hbm⟩ := runHamt_inv store sha w hL hw hL1 ops [] [] t m
    sortedK_nil (buildItems_nil _ _ _) hrun
  have hrb := remove_build store (paOf sha w) hL L 0 m t k (by omega) hL1
    hsm hbm
  have hrem2 : removeGo store t ((paOf sha w k).drop 0) k = (t2, none) := by
    simp only [hamtRemove] at hrem
    rw [List.drop_zero]
    exact hrem
  cases hEk : alook m k with
  | none =>
    have h1 := hrem2.symm.trans (hrb.1 hEk)
    have h2 : (none : Option HamtError) = some .kNotFound :=
      congrArg Prod.snd h1
    exact Option.noConfusion h2
  | some v =>
    obtain ⟨its2, hb2, hrg⟩ := hrb.2 v hEk
    have h1 := hrem2.symm.trans hrg
    have ht2 : t2 = its2 := congrArg Prod.fst h1
    rw [ht2]
    exact (build_good (paOf sha w) L).2.2 0 (aerase m k) its2 hb2

/--
C6: two HAMTs with the same `bit_width` built by any two orderings of
`set` operations that produce the same final key-to-value mapping flush to
the same root CID: `flush` is a deterministic function of the logical
contents only.
-/
theorem flush_deterministic
    (store1 store2 : Nat → Option (List (Nat × Item)))
    (sha : String → List Nat) (w L : Nat)
    (hL : ∀ k2, (paOf sha w k2).length = L) (hw : 0 < w) (hL1 : 0 < L)
    (ps1 ps2 : List (String × List Nat)) (t1 t2 : List (Nat × Item))
    (m1 m2 : List (String × List Nat))
    (h1 : runHamt store1 sha w (ps1.map fun p => HOp.hset p.1 p.2) ([], [])
      = some (t1, m1))
    (h2 : runHamt store2 sha w (ps2.map fun p => HOp.hset p.1 p.2) ([], [])
      = some (t2, m2))
    (hm : m1 = m2) (mkCid : List (Nat × Item) → Nat) :
    hamtFlush mkCid t1 = hamtFlush mkCid t2 := by
  obtain ⟨hs1, hb1⟩ := runHamt_inv store1 sha w hL hw hL1 _ [] [] t1 m1
    sortedK_nil (buildItems_nil _ _ _) h1
  obtain ⟨hs2, hb2⟩ := runHamt_inv store2 sha w hL hw hL1 _ [] [] t2 m2
    sortedK_nil (buildItems_nil _ _ _) h2
  rw [hm] at hb1
  have heq : t1 = t2 := Option.some.inj (hb1.symm.trans hb2)
  rw [heq]

end Hamt

namespace Hamt

/-- A constant 32-byte zero digest (all keys collide on one index). -/
def sha0 : String → List Nat := fun _ => List.replicate 32 0

set_option maxRecDepth 4000 in
theorem paOf_sha0_nil : paOf sha0 256 "" = [0] := by decide

theorem paOf_sha0 : ∀ k, paOf sha0 256 k = [0] := fun k =>
  (show paOf sha0 256 k = paOf sha0 256 "" from rfl).trans paOf_sha0_nil

theorem hamtSet_a :
    hamtSet (fun _ => none) sha0 256 [] "a" [1]
      = ([(0, Item.leaf [("a", [1])])], none) := by
  unfold hamtSet
  rw [paOf_sha0]
  simp [setGo, alook, ains, kLeafMax]

theorem hamtSet_b :
    hamtSet (fun _ => none) sha0 256 [(0, Item.leaf [("a", [1])])] "b" [2]
      = ([(0, Item.leaf [("a", [1]), ("b", [2])])], none) := by
  unfold hamtSet
  rw [paOf_sha0]
  simp [setGo, alook, ains, kLeafMax]
  decide

theorem hamtSet_b0 :
    hamtSet (fun _ => none) sha0 256 [] "b" [2]
      = ([(0, Item.leaf [("b", [2])])], none) := by
  unfold hamtSet
  rw [paOf_sha0]
  simp [setGo, alook, ains, kLeafMax]

theorem hamtSet_a0 :
    hamtSet (fun _ => none) sha0 256 [(0, Item.leaf [("b", [2])])] "a" [1]
      = ([(0, Item.leaf [("a", [1]), ("b", [2])])], none) := by
  unfold hamtSet
  rw [paOf_sha0]
  simp [setGo, alook, ains, kLeafMax]
  decide

theorem hamtRemove_b :
    hamtRemove (fun _ => none) sha0 256
      [(0, Item.leaf [("a", [1]), ("b", [2])])] "b"
      = ([(0, Item.leaf [("a", [1])])], none) := by
  unfold hamtRemove
  rw [paOf_sha0]
  simp [removeGo, alook, aerase, ains]

theorem hamtRemove_a2 :
    hamtRemove (fun _ => none) sha0 256
      [(0, Item.leaf [("a", [1]), ("b", [2])])] "a"
      = ([(0, Item.leaf [("b", [2])])], none) := by
  unfold hamtRemove
  rw [paOf_sha0]
  simp [removeGo, alook, aerase, ains]

/-- Witness for the round-trip: a three-operation run (two sets, one
remove) with a constant digest and `bit_width = 256` (one index level). -/
theorem hamt_roundtrip_witness :
    hamtGet (fun _ => none) sha0 256 [(0, Item.leaf [("a", [1])])] "a"
      = .ok [1]
    ∧ (hamtRemove (fun _ => none) sha0 256
        [(0, Item.leaf [("a", [1])])] "b").2 = some .kNotFound := by
  have hrun : runHamt (fun _ => none) sha0 256
      [HOp.hset "a" [1], HOp.hset "b" [2], HOp.hremove "b"] ([], [])
      = some ([(0, Item.leaf [("a", [1])])], [("a", [1])]) := by
    simp [runHamt, runStep, hamtSet_a, hamtSet_b, hamtRemove_b, ains,
      aerase]
  have h := hamt_roundtrip (fun _ => none) sha0 256 1
    (fun k => by simp [paOf_sha0]) (by norm_num) (by norm_num)
    [HOp.hset "a" [1], HOp.hset "b" [2], HOp.hremove "b"]
    [(0, Item.leaf [("a", [1])])] [("a", [1])] hrun
  refine ⟨?_, ?_⟩
  · have h2 := h.1 "a"
    simpa [alook] using h2
  · exact (h.2 "b").mpr (by simp [alook])

/-- Witness for the canonical shape: removing one of two colliding keys
leaves a canonical one-leaf trie. -/
theorem remove_canonical_witness :
    goodItems [(0, Item.leaf [("b", [2])])] = true := by
  have hrun : runHamt (fun _ => none) sha0 256
      [HOp.hset "a" [1], HOp.hset "b" [2]] ([], [])
      = some ([(0, Item.leaf [("a", [1]), ("b", [2])])],
          [("a", [1]), ("b", [2])]) := by
    simp [runHamt, runStep, hamtSet_a, hamtSet_b, ains]
    decide
  exact remove_canonical (fun _ => none) sha0 256 1
    (fun k => by simp [paOf_sha0]) (by norm_num) (by norm_num)
    [HOp.hset "a" [1], HOp.hset "b" [2]]
    [(0, Item.leaf [("a", [1]), ("b", [2])])] [("a", [1]), ("b", [2])]
    hrun "a" [(0, Item.leaf [("b", [2])])] hamtRemove_a2

/-- Witness for flush determinism: the same two pairs inserted in both
orders flush identically. -/
theorem flush_deterministic_witness :
    hamtFlush (fun _ => 0) [(0, Item.leaf [("a", [1]), ("b", [2])])]
      = hamtFlush (fun _ => 0)
          [(0, Item.leaf [("a", [1]), ("b", [2])])] := by
  have h1 : runHamt (fun _ => none) sha0 256
      ([("a", [1]), ("b", [2])].map fun p => HOp.hset p.1 p.2) ([], [])
      = some ([(0, Item.leaf [("a", [1]), ("b", [2])])],
          [("a", [1]), ("b", [2])]) := by
    simp [runHamt, runStep, hamtSet_a, hamtSet_b, ains]
    decide
  have h2 : runHamt (fun _ => none) sha0 256
      ([("b", [2]), ("a", [1])].map fun p => HOp.hset p.1 p.2) ([], [])
      = some ([(0, Item.leaf [("a", [1]), ("b", [2])])],
          [("a", [1]), ("b", [2])]) := by
    simp [runHamt, runStep, hamtSet_b0, hamtSet_a0, ains]
    decide
  exact flush_deterministic (fun _ => none) (fun _ => none) sha0 256 1
    (fun k => by simp [paOf_sha0]) (by norm_num) (by norm_num)
    [("a", [1]), ("b", [2])] [("b", [2]), ("a", [1])] _ _ _ _ h1 h2 rfl
    (fun _ => 0)

end Hamt

end FcSpec
